import Mathlib

/-!
# network_utils: a shallow embedding of `network.c`

The query routines of `network.c` are embedded as Lean functions over
explicit state:

* text and C character buffers are `List Char` (one `Char` per byte, `NUL`
  being the terminator);
* the C library calls the routines make (`strncpy`, `snprintf`, `fgets`,
  `sscanf`, `fscanf`, `inet_ntoa`, `inet_pton`, `inet_ntop`) are modelled by
  functions of the same name, following glibc on a little-endian LP64 Linux
  host;
* the kernel is an input: the answer of a control request is a function of the
  interface name, the contents of a procfs table is `Option (List Char)`
  (`none`: the table cannot be opened);
* the descriptors and `FILE` handles a process holds are a `Handles` list that
  every routine receives and returns;
* a routine returns `none` where the C program has no defined behaviour (a
  write or read outside an array).
-/

namespace NetworkUtils

/-! ## Constants of the headers -/

/-- The terminating byte of a C string. -/
def NUL : Char := Char.ofNat 0

/-- Value of `IFNAMSIZ` in `<net/if.h>`. -/
def IFNAMSIZ : Nat := 16

/-- Value of `INET_ADDRSTRLEN` in `<netinet/in.h>`. -/
def INET_ADDRSTRLEN : Nat := 16

/-- Value of `INET6_ADDRSTRLEN` in `<netinet/in.h>`. -/
def INET6_ADDRSTRLEN : Nat := 46

/-- Value of `sizeof(struct in_addr)`: four octets. -/
def sizeof_in_addr : Nat := 4

/-- Value of `MAX_HW_ADDR_STR_LENGTH` (line 22). -/
def MAX_HW_ADDR_STR_LENGTH : Nat := 18

/-- Value of `EXIT_SUCCESS`. -/
def EXIT_SUCCESS : Int := 0

/-- Value of `EXIT_FAILURE`. -/
def EXIT_FAILURE : Int := 1

/-- Value of `EOF`. -/
def EOF : Int := -1

/-- Scope bits of an IPv6 address (lines 24-34). -/
def IPV6_ADDR_LOOPBACK : Nat := 0x0010

/-- Link-local scope bit. -/
def IPV6_ADDR_LINKLOCAL : Nat := 0x0020

/-- Site-local scope bit. -/
def IPV6_ADDR_SITELOCAL : Nat := 0x0040

/-- IPv4-compatible scope bit. -/
def IPV6_ADDR_COMPATv4 : Nat := 0x0080

/-- Mask selecting the scope bits. -/
def IPV6_ADDR_SCOPE_MASK : Nat := 0x00f0

/-! ## Descriptors and file handles -/

/-- The descriptors and `FILE` handles the process holds open. -/
abbrev Handles := List Nat

/-- The lowest number that is not an open handle. -/
def lowest_free (h : Handles) : Nat :=
  ((List.range (h.length + 1)).find? (fun n => !h.contains n)).getD h.length

/-- Model of `socket(...)` and of a successful `fopen(...)`: a new handle is
opened and returned. -/
def acquire (h : Handles) : Nat × Handles := (lowest_free h, lowest_free h :: h)

/-- Model of `close(fd)` and `fclose(fp)`: the handle is no longer open. -/
def release (fd : Nat) (h : Handles) : Handles := h.erase fd

/-! ## C strings -/

/-- The C string held in a buffer: the bytes before the first `NUL`. -/
def cstr (s : List Char) : List Char := s.takeWhile (fun c => c != NUL)

/-- Model of `strcmp(a, b) == 0`. -/
def streq (a b : List Char) : Bool := cstr a == cstr b

/-- Model of `strncmp(a, b, n) == 0`. -/
def strneq (a b : List Char) (n : Nat) : Bool := (cstr a).take n == (cstr b).take n

/-- Model of `strncpy(dest, src, n)`: exactly `n` bytes of `dest` are written,
the first `n` characters of the string `src`, padded with `NUL` when `src` is
shorter; no terminator is written when `src` has `n` characters or more. The
bytes of `dest` after the first `n` are kept. -/
def strncpy (dest src : List Char) (n : Nat) : List Char :=
  (cstr src).take n ++ List.replicate (n - ((cstr src).take n).length) NUL ++ dest.drop n

/-- Model of `snprintf(dest, size, "%s", s)` for `size > 0`: at most `size - 1`
characters of `s` and a terminator are written. -/
def snprintf_s (dest : List Char) (size : Nat) (s : List Char) : List Char :=
  (cstr s).take (size - 1) ++ [NUL] ++ dest.drop (((cstr s).take (size - 1)).length + 1)

/-- Conversion `%d` / `%u` of a non-negative number. -/
def fmt_d (n : Nat) : List Char := Nat.toDigits 10 n

/-- Conversion `%x` of a non-negative number (lower case, no padding). -/
def fmt_x (n : Nat) : List Char := Nat.toDigits 16 n

/-- Conversion `%.2X` of a byte: two upper-case hexadecimal digits. -/
def fmt_02X (b : Nat) : List Char :=
  ((Nat.toDigits 16 (b % 256 / 16)) ++ (Nat.toDigits 16 (b % 16))).map Char.toUpper

/-! ## IPv4 addresses -/

/-- Model of `inet_ntoa` / `inet_ntop(AF_INET, ...)` on the four bytes of a
`struct in_addr` in memory order: the octets in decimal, joined by dots. -/
def inet_ntoa (a : List Nat) : List Char :=
  fmt_d (a.getD 0 0 % 256) ++ '.' :: fmt_d (a.getD 1 0 % 256) ++ '.' ::
    fmt_d (a.getD 2 0 % 256) ++ '.' :: fmt_d (a.getD 3 0 % 256)

/-- The four bytes in memory of `s_addr` after `s_addr = w` on a little-endian
host (`w` is an `unsigned long`; the conversion to the 32-bit `in_addr_t`
keeps the low 32 bits): least-significant byte first. -/
def in_addr_of_word (w : Nat) : List Nat :=
  [w % 256, w / 256 % 256, w / 65536 % 256, w / 16777216 % 256]

/-! ## Control-socket queries -/

/-- Model of `get_if_hw_addr` (lines 44-66). `SIOCGIFHWADDR` is the kernel's
answer to the control request for an interface name: `none` when the request
fails, the bytes of `sa_data` otherwise. -/
def get_if_hw_addr (SIOCGIFHWADDR : List Char → Option (List Nat))
    (if_name hwaddr_ptr : List Char) (h : Handles) : Int × List Char × Handles :=
  let ifr_name := (cstr if_name).take (IFNAMSIZ - 1)
  let sock := acquire h
  match SIOCGIFHWADDR ifr_name with
  | none => (EXIT_FAILURE, hwaddr_ptr, sock.2)
  | some sa_data =>
    let hwaddr :=
      fmt_02X (sa_data.getD 0 0) ++ ':' :: fmt_02X (sa_data.getD 1 0) ++ ':' ::
      fmt_02X (sa_data.getD 2 0) ++ ':' :: fmt_02X (sa_data.getD 3 0) ++ ':' ::
      fmt_02X (sa_data.getD 4 0) ++ ':' :: fmt_02X (sa_data.getD 5 0)
    (EXIT_SUCCESS, strncpy hwaddr_ptr hwaddr (MAX_HW_ADDR_STR_LENGTH - 1),
      release sock.1 sock.2)

/-- Model of `get_if_mask` (lines 287-309). `SIOCGIFNETMASK` is the kernel's
answer: `none` when the request fails, the four octets of the netmask in
memory order otherwise. -/
def get_if_mask (SIOCGIFNETMASK : List Char → Option (List Nat))
    (if_name mask : List Char) (h : Handles) : Int × List Char × Handles :=
  let ifr_name := (cstr if_name).take (IFNAMSIZ - 1)
  let sock := acquire h
  match SIOCGIFNETMASK ifr_name with
  | none => (EXIT_FAILURE, mask, sock.2)
  | some sin_addr =>
    (EXIT_SUCCESS, strncpy mask (inet_ntoa sin_addr) (sizeof_in_addr - 1),
      release sock.1 sock.2)

/-! ## Reading lines: `fgets` -/

/-- The characters one `fgets` call consumes when it may store `n` of them:
up to and including the first newline, at most `n`. -/
def read_line : Nat → List Char → List Char
  | 0, _ => []
  | _, [] => []
  | n + 1, c :: s => if c = '\n' then [c] else c :: read_line n s

/-- The successive character runs that repeated `fgets(buf, size, f)` calls
read from a stream, until `fgets` returns `NULL` at end of file. The first
argument bounds the number of calls. -/
def fgets_chunks (size : Nat) : Nat → List Char → List (List Char)
  | 0, _ => []
  | _, [] => []
  | fuel + 1, c :: s =>
    read_line (size - 1) (c :: s) ::
      fgets_chunks size fuel ((c :: s).drop (read_line (size - 1) (c :: s)).length)

/-- All `fgets(buf, size, f)` results for a stream. Every call consumes a
character, so the length of the stream bounds the number of calls. -/
def fgets_all (size : Nat) (stream : List Char) : List (List Char) :=
  fgets_chunks size stream.length stream

/-- The buffer after `fgets` stored the run `l`: the run, a terminator, and
the old bytes behind them. -/
def fgets_store (buf l : List Char) : List Char :=
  l ++ [NUL] ++ buf.drop (l.length + 1)

/-! ## Interface enumeration -/

/-- Model of `skip_whitespace` (lines 100-106) on the bytes from `s` to the end
of its array: the number of leading blanks and tabs. `none`: the scan runs off
the array. -/
def skip_whitespace : List Char → Option Nat
  | [] => none
  | c :: s => if c = ' ' ∨ c = '\t' then (skip_whitespace s).map (· + 1) else some 0

/-- The `for (;;)` loop of `get_name` (lines 118-132); the list holds the bytes
from `nameend` on, `k` is `nameend - namestart`. Result `some (some k)`: a
colon stands at offset `k`; `some none`: the loop was left by a `break`;
`none`: a read outside the array. -/
def get_name_scan : List Char → Nat → Option (Option Nat)
  | [], k => if k ≥ IFNAMSIZ then some none else none
  | c :: rest, k =>
    if k ≥ IFNAMSIZ then some none
    else if c = ':' then some (some k)
    else match rest with
      | [] => none
      | d :: _ => if d.toNat ≤ ' '.toNat then some none else get_name_scan rest (k + 1)

/-- Model of `get_name` (lines 108-135). `name` is the array to fill, `p` the
bytes from `p` to the end of its array. Returns the new contents of `name` and
the returned pointer as an offset from `p`. -/
def get_name (name p : List Char) : Option (List Char × Nat) :=
  match skip_whitespace p with
  | none => none
  | some namestart =>
    match get_name_scan (p.drop namestart) 0 with
    | none => none
    | some (some k) =>
      some ((p.drop namestart).take k ++ [NUL] ++ name.drop (k + 1), namestart + k + 1)
    | some none => some ([NUL] ++ name.drop 1, 0)

/-- The `while (fgets(...))` loop of `get_if_readlist` (lines 159-164) over
the remaining `fgets` results. `none`: a name is stored behind the last row of
`if_names`, or `get_name` reads outside `buf`. -/
def get_if_readlist_loop :
    List (List Char) → List Char → List (List Char) → Nat → Option (List (List Char) × Nat)
  | [], _, if_names, index => some (if_names, index)
  | l :: ls, buf, if_names, index =>
    match get_name (List.replicate IFNAMSIZ NUL) (fgets_store buf l) with
    | none => none
    | some (name, _) =>
      if index < if_names.length then
        get_if_readlist_loop ls (fgets_store buf l)
          (if_names.set index (strncpy (if_names.getD index []) name (IFNAMSIZ - 1)))
          (index + 1)
      else none

/-- The buffer after `fgets` calls stored the runs `ls` one after the other. -/
def fgets_stores (buf : List Char) (ls : List (List Char)) : List Char :=
  ls.foldl fgets_store buf

/-- Model of `get_if_readlist` (lines 145-169). `dev` is the contents of
`/proc/net/dev`; `if_names` the caller's array of `IFNAMSIZ`-byte rows,
`if_counts` the caller's counter. Returns the status, both outputs and the
open handles. -/
def get_if_readlist (dev : Option (List Char)) (if_names : List (List Char)) (if_counts : Nat)
    (h : Handles) : Option (Int × List (List Char) × Nat × Handles) :=
  match dev with
  | none => some (EXIT_FAILURE, if_names, if_counts, h)
  | some stream =>
    let fh := acquire h
    let lines := fgets_all 512 stream
    let buf := fgets_stores (List.replicate 512 NUL) (lines.take 2)
    match get_if_readlist_loop (lines.drop 2) buf if_names 0 with
    | none => none
    | some (names, index) => some (EXIT_SUCCESS, names, index, release fh.1 fh.2)

/-! ## Formatted input: `sscanf` and `fscanf` -/

/-- Model of `isspace` in the C locale. -/
def isspace (c : Char) : Bool := c.toNat = 32 || (9 ≤ c.toNat && c.toNat ≤ 13)

/-- Model of `isxdigit` in the C locale. -/
def isxdigit (c : Char) : Bool :=
  (48 ≤ c.toNat && c.toNat ≤ 57) || (65 ≤ c.toNat && c.toNat ≤ 70) ||
    (97 ≤ c.toNat && c.toNat ≤ 102)

/-- Value of a hexadecimal digit. -/
def hex_digit_value (c : Char) : Nat :=
  if c.toNat ≤ 57 then c.toNat - 48 else if c.toNat ≤ 70 then c.toNat - 55 else c.toNat - 87

/-- Outcome of one conversion of a `scanf` format. -/
inductive Conv (α : Type) where
  /-- The conversion stored `v`; `rest` is the unread input. -/
  | ok (v : α) (rest : List Char)
  /-- The input ended before the conversion read a character. -/
  | input_failure
  /-- The input does not match; `rest` is the unread input. -/
  | matching_failure (rest : List Char)

/-- The characters a conversion of the given maximum field width may read. -/
def window (width : Option Nat) (s : List Char) : List Char :=
  match width with
  | none => s
  | some w => s.take w

/-- Conversion `%s` / `%Ns`: white space is skipped, then the characters up to
the next white space (at most the field width) are the result. -/
def scan_s (width : Option Nat) (inp : List Char) : Conv (List Char) :=
  match inp.dropWhile isspace with
  | [] => .input_failure
  | c :: s =>
    .ok ((window width (c :: s)).takeWhile (fun x => !isspace x))
      ((c :: s).drop ((window width (c :: s)).takeWhile (fun x => !isspace x)).length)

/-- An optional sign at the head of a number: the sign and the input behind it. -/
def scan_sign : List Char → Option Char × List Char
  | [] => (none, [])
  | c :: r => if c = '-' ∨ c = '+' then (some c, r) else (none, c :: r)

/-- The base prefix of a hexadecimal number: a leading `0` goes to the work
buffer, an `x` or `X` behind it is read and dropped. -/
def scan_base : List Char → List Char × List Char
  | [] => ([], [])
  | c :: r =>
    if c = '0' then
      match r with
      | [] => (['0'], [])
      | x :: r' => if x = 'x' ∨ x = 'X' then (['0'], r') else (['0'], x :: r')
    else ([], c :: r)

/-- Model of `strtoul(digits, NULL, 16)` on the digits of the work buffer, with
the sign read before them: the value, `ULONG_MAX` on overflow, negated modulo
`2^64` after a minus sign. -/
def strtoul16 (negative : Bool) (digits : List Char) : Nat :=
  let v := digits.foldl (fun a c => 16 * a + hex_digit_value c) 0
  if v ≥ 2 ^ 64 then 2 ^ 64 - 1 else if negative then (2 ^ 64 - v) % 2 ^ 64 else v

/-- Conversion `%x` / `%lX` with an optional field width, as glibc reads it:
white space is skipped; a sign, a base prefix and hexadecimal digits are read
within the field width; without a digit the conversion fails, the characters
read so far being consumed. The result is the `unsigned long` value. -/
def scan_x (width : Option Nat) (inp : List Char) : Conv Nat :=
  match inp.dropWhile isspace with
  | [] => .input_failure
  | c :: s =>
    let win := window width (c :: s)
    let sg := scan_sign win
    let pre := scan_base sg.2
    let ds := pre.2.takeWhile isxdigit
    let consumed := win.length - (pre.2.length - ds.length)
    if pre.1 ++ ds = [] then .matching_failure ((c :: s).drop consumed)
    else .ok (strtoul16 (sg.1 == some '-') (pre.1 ++ ds)) ((c :: s).drop consumed)

/-- A value stored by a conversion. -/
inductive Val where
  /-- The characters stored by `%s` (a terminator follows them in memory). -/
  | str (s : List Char)
  /-- The number stored by `%x` or `%lX`. -/
  | num (n : Nat)
  deriving DecidableEq, Repr

/-- A directive of a `scanf` format string. -/
inductive Directive where
  /-- White space in the format: any amount of white space is skipped. -/
  | space
  /-- Conversion `%s` with an optional field width into an array of `size` bytes. -/
  | s (width : Option Nat) (size : Nat)
  /-- Conversion `%x` (`bits = 32`) or `%lX` (`bits = 64`) with an optional field width. -/
  | x (width : Option Nat) (bits : Nat)

/-- What a `scanf` call did: the values it stored, in the order of the
conversions, the unread input, and whether it stopped at the end of the input. -/
structure Scanned where
  /-- Values stored by the successful conversions. -/
  vals : List Val
  /-- Unread input. -/
  rest : List Char
  /-- The call stopped because the input ended. -/
  eof : Bool
  deriving DecidableEq, Repr

/-- Model of `sscanf` / `fscanf` for a format given as its directives. `none`:
a `%s` conversion writes behind the end of its array. -/
def vfscanf : List Directive → List Char → Option Scanned
  | [], inp => some ⟨[], inp, false⟩
  | .space :: ds, inp => vfscanf ds (inp.dropWhile isspace)
  | .s width size :: ds, inp =>
    match scan_s width inp with
    | .ok tok rest =>
      if tok.length < size then
        (vfscanf ds rest).map (fun r => ⟨Val.str tok :: r.vals, r.rest, r.eof⟩)
      else none
    | .input_failure => some ⟨[], [], true⟩
    | .matching_failure rest => some ⟨[], rest, false⟩
  | .x width bits :: ds, inp =>
    match scan_x width inp with
    | .ok v rest =>
      (vfscanf ds rest).map (fun r => ⟨Val.num (v % 2 ^ bits) :: r.vals, r.rest, r.eof⟩)
    | .input_failure => some ⟨[], [], true⟩
    | .matching_failure rest => some ⟨[], rest, false⟩

/-- The value a `scanf` call returns: the number of stored values, or `EOF`
when the input ended before the first conversion. -/
def scanf_ret (r : Scanned) : Int :=
  if r.vals = [] ∧ r.eof = true then EOF else r.vals.length

/-- The array a `%s` conversion wrote `tok` into: the characters, a terminator,
and the old bytes behind them. -/
def store_str (buf tok : List Char) : List Char :=
  tok ++ [NUL] ++ buf.drop (tok.length + 1)

/-- The string variable after a `scanf` call whose `i`-th conversion targets it. -/
def Val.store_s (vals : List Val) (i : Nat) (old : List Char) : List Char :=
  match vals.get? i with
  | some (.str t) => store_str old t
  | _ => old

/-- The integer variable after a `scanf` call whose `i`-th conversion targets it. -/
def Val.store_x (vals : List Val) (i : Nat) (old : Nat) : Nat :=
  match vals.get? i with
  | some (.num n) => n
  | _ => old

/-! ## IPv4 default gateway -/

/-- The format `"%s\t%lX\t%lX"` of line 439; `iface` has `IFNAMSIZ` bytes. -/
def route_format : List Directive :=
  [.s none IFNAMSIZ, .space, .x none 64, .space, .x none 64]

/-- The `while (fgets(...))` loop of `get_if_gateway` (lines 437-448) over the
remaining `fgets` results. -/
def get_if_gateway_loop (if_name : List Char) : List (List Char) → List Char → Option (List Char)
  | [], gateway => some gateway
  | l :: ls, gateway =>
    match vfscanf route_format (cstr l) with
    | none => none
    | some ⟨[.str iface, .num dest_addr, .num gate_addr], _, _⟩ =>
      if dest_addr ≠ 0 then get_if_gateway_loop if_name ls gateway
      else if streq if_name iface then
        some (strncpy gateway (inet_ntoa (in_addr_of_word gate_addr)) (INET_ADDRSTRLEN - 1))
      else get_if_gateway_loop if_name ls gateway
    | some _ => get_if_gateway_loop if_name ls gateway

/-- Model of `get_if_gateway` (lines 425-451). `route` is the contents of
`/proc/net/route`, `gateway` the caller's buffer. -/
def get_if_gateway (route : Option (List Char)) (if_name gateway : List Char) (h : Handles) :
    Option (Int × List Char × Handles) :=
  match route with
  | none => some (EXIT_FAILURE, gateway, h)
  | some stream =>
    let fp := acquire h
    match get_if_gateway_loop if_name ((fgets_all 128 stream).drop 1) gateway with
    | none => none
    | some g => some (EXIT_SUCCESS, g, fp.2)

/-! ## IPv6 addresses: `inet_pton` and `inet_ntop` -/

/-- The loop of glibc's `inet_pton4` over the unread text: `done` holds the
finished octets, `cur` the octet being read, `saw_digit` and `octets` are the
C variables of the same names. `none`: the text is rejected. -/
def inet_pton4_loop : List Char → List Nat → Nat → Bool → Nat → Option (List Nat)
  | [], done, cur, _, octets => if octets < 4 then none else some (done ++ [cur])
  | ch :: src, done, cur, saw_digit, octets =>
    if 48 ≤ ch.toNat ∧ ch.toNat ≤ 57 then
      if saw_digit ∧ cur = 0 then none
      else if cur * 10 + (ch.toNat - 48) > 255 then none
      else if saw_digit then inet_pton4_loop src done (cur * 10 + (ch.toNat - 48)) true octets
      else if octets + 1 > 4 then none
      else inet_pton4_loop src done (cur * 10 + (ch.toNat - 48)) true (octets + 1)
    else if ch = '.' ∧ saw_digit then
      if octets = 4 then none else inet_pton4_loop src (done ++ [cur]) 0 false octets
    else none

/-- Model of glibc's `inet_pton4`: the four octets of a dotted quad. -/
def inet_pton4 (src : List Char) : Option (List Nat) := inet_pton4_loop src [] 0 false 0

/-- State of the loop of glibc's `inet_pton6`. -/
structure Pton6 where
  /-- Bytes written to `tmp` so far (`tp - tmp` of them). -/
  tp : List Nat
  /-- Offset in `tmp` of a `::`, when one was read. -/
  colonp : Option Nat
  /-- Hexadecimal digits read in the current group. -/
  xdigits_seen : Nat
  /-- Value of the current group. -/
  val : Nat
  deriving DecidableEq, Repr

/-- The loop of glibc's `inet_pton6` over the unread text; `curtok` is the text
from the start of the current group on. `none`: the text is rejected
(`return 0`). -/
def inet_pton6_loop : List Char → List Char → Pton6 → Option Pton6
  | [], _, st => some st
  | ch :: src, curtok, st =>
    if isxdigit ch then
      if st.xdigits_seen = 4 then none
      else if st.val * 16 + hex_digit_value ch > 0xffff then none
      else inet_pton6_loop src curtok
        { st with val := st.val * 16 + hex_digit_value ch, xdigits_seen := st.xdigits_seen + 1 }
    else if ch = ':' then
      if st.xdigits_seen = 0 then
        if st.colonp.isSome then none
        else inet_pton6_loop src src { st with colonp := some st.tp.length }
      else if src = [] then none
      else if st.tp.length + 2 > 16 then none
      else inet_pton6_loop src src
        { st with tp := st.tp ++ [st.val / 256 % 256, st.val % 256], xdigits_seen := 0, val := 0 }
    else if ch = '.' ∧ st.tp.length + 4 ≤ 16 then
      match inet_pton4 curtok with
      | some q => some { st with tp := st.tp ++ q, xdigits_seen := 0 }
      | none => none
    else none

/-- The text `inet_pton6` starts its loop on: a leading colon must be followed
by a second one, and is skipped. -/
def pton6_start : List Char → Option (List Char)
  | [] => none
  | c :: s =>
    if c = ':' then
      match s with
      | [] => none
      | d :: _ => if d = ':' then some s else none
    else some (c :: s)

/-- Model of glibc's `inet_pton(AF_INET6, src, dst)` on the string `src`: the
16 bytes stored to `dst`, or `none` when the text is rejected and `dst` is left
as it was. -/
def inet_pton6 (src : List Char) : Option (List Nat) :=
  match pton6_start src with
  | none => none
  | some body =>
    match inet_pton6_loop body body ⟨[], none, 0, 0⟩ with
    | none => none
    | some st =>
      if st.xdigits_seen > 0 ∧ st.tp.length + 2 > 16 then none
      else
        let tp :=
          if st.xdigits_seen > 0 then st.tp ++ [st.val / 256 % 256, st.val % 256] else st.tp
        match st.colonp with
        | some cp =>
          if tp.length = 16 then none
          else some (tp.take cp ++ List.replicate (16 - tp.length) 0 ++ tp.drop cp)
        | none => if tp.length = 16 then some tp else none

/-- A run of zero words in an IPv6 address (`best` and `cur` of `inet_ntop6`). -/
structure ZeroRun where
  /-- Index of the first word of the run. -/
  base : Nat
  /-- Number of words. -/
  len : Nat
  deriving DecidableEq, Repr

/-- The update `if (best.base == -1 || cur.len > best.len) best = cur` of
`inet_ntop6`, made when a run ends. -/
def better (best cur : Option ZeroRun) : Option ZeroRun :=
  match cur with
  | none => best
  | some c =>
    match best with
    | none => some c
    | some b => if c.len > b.len then some c else some b

/-- The first loop of glibc's `inet_ntop6`: the longest run of zero words, the
first one among runs of equal length. -/
def ntop6_scan : List Nat → Nat → Option ZeroRun → Option ZeroRun → Option ZeroRun
  | [], _, best, cur => better best cur
  | w :: ws, i, best, cur =>
    if w = 0 then
      ntop6_scan ws (i + 1) best
        (match cur with
         | none => some ⟨i, 1⟩
         | some c => some ⟨c.base, c.len + 1⟩)
    else ntop6_scan ws (i + 1) (better best cur) none

/-- The closing colon `inet_ntop6` adds when the compressed run ends the address. -/
def ntop6_tail (best : Option ZeroRun) : List Char :=
  match best with
  | some b => if b.base + b.len = 8 then [':'] else []
  | none => []

/-- Word `i` lies in the run that is written as `::`. -/
def in_run (best : Option ZeroRun) (i : Nat) : Bool :=
  match best with
  | some b => b.base ≤ i && i < b.base + b.len
  | none => false

/-- Word `i` starts the run that is written as `::`. -/
def run_base (best : Option ZeroRun) (i : Nat) : Bool :=
  match best with
  | some b => i = b.base
  | none => false

/-- The test of `inet_ntop6` for an encapsulated IPv4 address, made at word 6:
the address starts with six zero words, or with five and `ffff`. -/
def encapsulated_v4 (best : Option ZeroRun) (words : List Nat) : Bool :=
  match best with
  | some b => b.base = 0 && (b.len = 6 || (b.len = 5 && words.getD 5 0 = 0xffff))
  | none => false

/-- The second loop of glibc's `inet_ntop6` over the word indices still to
format. -/
def ntop6_emit (src words : List Nat) (best : Option ZeroRun) : List Nat → List Char
  | [] => ntop6_tail best
  | i :: is =>
    if in_run best i then
      if run_base best i then ':' :: ntop6_emit src words best is
      else ntop6_emit src words best is
    else
      (if i ≠ 0 then [':'] else []) ++
        (if i = 6 ∧ encapsulated_v4 best words then inet_ntoa (src.drop 12) ++ ntop6_tail best
         else fmt_x (words.getD i 0) ++ ntop6_emit src words best is)

/-- The eight 16-bit words of the 16 bytes of an IPv6 address. -/
def ntop6_words (src : List Nat) : List Nat :=
  (List.range 8).map (fun i => src.getD (2 * i) 0 % 256 * 256 + src.getD (2 * i + 1) 0 % 256)

/-- The text glibc's `inet_ntop6` builds for the 16 bytes of an address: groups
in lower-case hexadecimal without leading zeros, the longest run of two or more
zero groups written as `::`, an IPv4 tail for mapped and compatible addresses. -/
def inet_ntop6_text (src : List Nat) : List Char :=
  let words := ntop6_words src
  let best :=
    match ntop6_scan words 0 none none with
    | some b => if b.len < 2 then none else some b
    | none => none
  ntop6_emit src words best (List.range 8)

/-- Model of `inet_ntop(AF_INET6, src, dst, size)`: the text, or `none` (a
`NULL` return) when it does not fit `size` bytes with its terminator. -/
def inet_ntop6 (src : List Nat) (size : Nat) : Option (List Char) :=
  if (inet_ntop6_text src).length + 1 > size then none else some (inet_ntop6_text src)

/-! ## IPv6 address of an interface -/

/-- The format of lines 195-198:
`"%4s%4s%4s%4s%4s%4s%4s%4s %08x %02x %02x %02x %20s\n"`; the groups are read
into `char[5]` arrays, the name into `devname[IFNAMSIZ]`. -/
def if_inet6_format : List Directive :=
  [.s (some 4) 5, .s (some 4) 5, .s (some 4) 5, .s (some 4) 5,
   .s (some 4) 5, .s (some 4) 5, .s (some 4) 5, .s (some 4) 5,
   .space, .x (some 8) 32, .space, .x (some 2) 32, .space, .x (some 2) 32,
   .space, .x (some 2) 32, .space, .s (some 20) IFNAMSIZ, .space]

/-- The locals of `get_if_ipv6_info` that `fscanf` writes. -/
structure Inet6Vars where
  /-- The eight arrays `addr6p[0..7]`. -/
  addr6p : List (List Char)
  /-- Interface index. -/
  if_idx : Nat
  /-- Prefix length. -/
  plen : Nat
  /-- Scope bits. -/
  scope : Nat
  /-- Address flags. -/
  dad_status : Nat
  /-- Interface name. -/
  devname : List Char
  deriving DecidableEq, Repr

/-- The locals after an `fscanf` call stored `vals`: each variable whose
conversion succeeded has its new value, the others keep the old one. -/
def Inet6Vars.store (v : Inet6Vars) (vals : List Val) : Inet6Vars :=
  { addr6p := (List.range 8).map (fun i => Val.store_s vals i (v.addr6p.getD i []))
    if_idx := Val.store_x vals 8 v.if_idx
    plen := Val.store_x vals 9 v.plen
    scope := Val.store_x vals 10 v.scope
    dad_status := Val.store_x vals 11 v.dad_status
    devname := Val.store_s vals 12 v.devname }

/-- The outputs of `get_if_ipv6_info`. -/
structure Inet6Info where
  /-- The caller's `addr6_text` buffer. -/
  addr6_text : List Char
  /-- The caller's `*prefix_len`. -/
  prefix_len : Nat
  /-- The caller's `addr_scope` buffer. -/
  addr_scope : List Char
  deriving DecidableEq, Repr

/-- The `switch` of lines 220-239: the text copied to `addr_scope`. -/
def scope_text (scope : Nat) : List Char :=
  if scope &&& IPV6_ADDR_SCOPE_MASK = 0 then "Global".toList
  else if scope &&& IPV6_ADDR_SCOPE_MASK = IPV6_ADDR_LINKLOCAL then "Link".toList
  else if scope &&& IPV6_ADDR_SCOPE_MASK = IPV6_ADDR_SITELOCAL then "Site".toList
  else if scope &&& IPV6_ADDR_SCOPE_MASK = IPV6_ADDR_COMPATv4 then "Compat".toList
  else if scope &&& IPV6_ADDR_SCOPE_MASK = IPV6_ADDR_LOOPBACK then "Host".toList
  else "Unknown".toList

/-- The text `snprintf(addr6, INET6_ADDRSTRLEN, "%s:%s:%s:%s:%s:%s:%s:%s", ...)`
leaves in `addr6` (lines 202-204). -/
def join_groups (addr6p : List (List Char)) : List Char :=
  ((List.intercalate [':'] ((List.range 8).map (fun i => cstr (addr6p.getD i [])))).take
    (INET6_ADDRSTRLEN - 1))

/-- The body of the `if (strcmp(devname, if_name) == 0)` of lines 200-242 for
the row held in `v`. -/
def ipv6_info_of_row (v : Inet6Vars) (out : Inet6Info) : Int × Inet6Info :=
  match inet_pton6 (join_groups v.addr6p) with
  | none => (EXIT_FAILURE, out)
  | some buf =>
    match inet_ntop6 buf INET6_ADDRSTRLEN with
    | none => (EXIT_FAILURE, out)
    | some ipv6_str =>
      (EXIT_SUCCESS,
        { addr6_text := strncpy out.addr6_text ipv6_str (INET6_ADDRSTRLEN - 1)
          prefix_len := v.plen
          addr_scope := strncpy out.addr_scope (scope_text v.scope) 9 })

/-- The `while (fscanf(...) != EOF)` loop of `get_if_ipv6_info` (lines
195-243). The first argument bounds the number of `fscanf` calls. -/
def get_if_ipv6_info_loop (if_name : List Char) :
    Nat → List Char → Inet6Vars → Inet6Info → Option (Int × Inet6Info)
  | 0, _, _, _ => none
  | fuel + 1, stream, v, out =>
    match vfscanf if_inet6_format stream with
    | none => none
    | some r =>
      if scanf_ret r = EOF then some (EXIT_SUCCESS, out)
      else if streq (v.store r.vals).devname if_name then
        some (ipv6_info_of_row (v.store r.vals) out)
      else get_if_ipv6_info_loop if_name fuel r.rest (v.store r.vals) out

/-- Model of `get_if_ipv6_info` (lines 181-245). `if_inet6` is the contents of
`/proc/net/if_inet6`; `v0` holds the indeterminate initial contents of the
locals that have no initialiser (`devname` is initialised to zeros); `out`
holds the caller's buffers. Every `fscanf` call that does not return `EOF`
consumes a character, so the length of the table bounds the number of calls. -/
def get_if_ipv6_info (if_inet6 : Option (List Char)) (v0 : Inet6Vars) (if_name : List Char)
    (out : Inet6Info) (h : Handles) : Option (Int × Inet6Info × Handles) :=
  match if_inet6 with
  | none => some (EXIT_FAILURE, out, h)
  | some stream =>
    let f := acquire h
    match get_if_ipv6_info_loop if_name (stream.length + 1) stream
        { v0 with devname := List.replicate IFNAMSIZ NUL } out with
    | none => none
    | some (ret, o) => some (ret, o, f.2)

/-! ## IPv6 default gateway -/

/-- The format `"%s %x %s %x %s %x %x %x %x %s"` of line 498; `dst`, `src` and
`gw` have `INET6_ADDRSTRLEN` bytes, `devname` has `IFNAMSIZ`. -/
def ipv6_route_format : List Directive :=
  [.s none INET6_ADDRSTRLEN, .space, .x none 32, .space, .s none INET6_ADDRSTRLEN, .space,
   .x none 32, .space, .s none INET6_ADDRSTRLEN, .space, .x none 32, .space, .x none 32,
   .space, .x none 32, .space, .x none 32, .space, .s none IFNAMSIZ]

/-- The state of `get_if_ipv6_default_gateway` between two `fscanf` calls. -/
structure Route6State where
  /-- Destination column. -/
  dst : List Char
  /-- Destination prefix length. -/
  dst_prefix : Nat
  /-- Source column. -/
  src : List Char
  /-- Source prefix length. -/
  src_prefix : Nat
  /-- Gateway column; after a qualifying row, the text of the gateway. -/
  gw : List Char
  /-- Metric. -/
  metrix : Nat
  /-- Reference count. -/
  ref_cnt : Nat
  /-- Use count. -/
  usr_cnt : Nat
  /-- Flags. -/
  flag : Nat
  /-- Interface name. -/
  devname : List Char
  /-- The 16 bytes of `gw_addr`. -/
  gw_addr : List Nat
  /-- The caller's `default_gateway` buffer. -/
  default_gateway : List Char
  /-- The status to return. -/
  ret : Int
  deriving DecidableEq, Repr

/-- The state after an `fscanf` call stored `vals`. -/
def Route6State.store (v : Route6State) (vals : List Val) : Route6State :=
  { v with
    dst := Val.store_s vals 0 v.dst
    dst_prefix := Val.store_x vals 1 v.dst_prefix
    src := Val.store_s vals 2 v.src
    src_prefix := Val.store_x vals 3 v.src_prefix
    gw := Val.store_s vals 4 v.gw
    metrix := Val.store_x vals 5 v.metrix
    ref_cnt := Val.store_x vals 6 v.ref_cnt
    usr_cnt := Val.store_x vals 7 v.usr_cnt
    flag := Val.store_x vals 8 v.flag
    devname := Val.store_s vals 9 v.devname }

/-- The condition of line 503. -/
def is_default_route (if_name : List Char) (v : Route6State) : Bool :=
  strneq v.gw "fe80".toList 4 && streq v.dst "00000000000000000000000000000000".toList &&
    v.dst_prefix = 0 && streq if_name v.devname

/-- The 39 bytes the `snprintf` of lines 505-509 formats from the bytes
`gw[0..31]`: eight groups of four, joined by colons. -/
def regroup (gw : List Char) : List Char :=
  List.intercalate [':'] ((List.range 8).map (fun i => (List.range 4).map (fun j => gw.getD (4 * i + j) NUL)))

/-- The body of the `if` of lines 503-516 for the row held in `v`. -/
def default_route_body (v : Route6State) : Route6State :=
  let gw1 := regroup v.gw ++ [NUL] ++ v.gw.drop 40
  let gw_addr :=
    match inet_pton6 (cstr gw1) with
    | some a => a
    | none => v.gw_addr
  let gw2 :=
    match inet_ntop6 gw_addr INET6_ADDRSTRLEN with
    | some t => t ++ [NUL] ++ gw1.drop (t.length + 1)
    | none => gw1
  { v with
    gw := gw2
    gw_addr := gw_addr
    default_gateway := snprintf_s v.default_gateway INET6_ADDRSTRLEN gw2
    ret := EXIT_SUCCESS }

/-- The `while (fscanf(...) != EOF)` loop of `get_if_ipv6_default_gateway`
(lines 498-517). The first argument bounds the number of `fscanf` calls. -/
def get_if_ipv6_default_gateway_loop (if_name : List Char) :
    Nat → List Char → Route6State → Option Route6State
  | 0, _, _ => none
  | fuel + 1, stream, v =>
    match vfscanf ipv6_route_format stream with
    | none => none
    | some r =>
      if scanf_ret r = EOF then some v
      else if is_default_route if_name (v.store r.vals) then
        get_if_ipv6_default_gateway_loop if_name fuel r.rest (default_route_body (v.store r.vals))
      else get_if_ipv6_default_gateway_loop if_name fuel r.rest (v.store r.vals)

/-- The state of `get_if_ipv6_default_gateway` before the loop: the arrays are
initialised to zeros, `ret` to `EXIT_FAILURE`; the integers and `gw_addr` have
no initialiser and take their indeterminate contents from `v0`. -/
def Route6State.init (v0 : Route6State) (default_gateway : List Char) : Route6State :=
  { v0 with
    dst := List.replicate INET6_ADDRSTRLEN NUL
    src := List.replicate INET6_ADDRSTRLEN NUL
    gw := List.replicate INET6_ADDRSTRLEN NUL
    devname := List.replicate IFNAMSIZ NUL
    default_gateway := default_gateway
    ret := EXIT_FAILURE }

/-- Model of `get_if_ipv6_default_gateway` (lines 482-521). `ipv6_route` is the
contents of `/proc/net/ipv6_route`, `default_gateway` the caller's buffer.
Returns the status, the buffer and the open handles. Every `fscanf` call that
does not return `EOF` consumes a character, so the length of the table bounds
the number of calls. -/
def get_if_ipv6_default_gateway (ipv6_route : Option (List Char)) (v0 : Route6State)
    (if_name default_gateway : List Char) (h : Handles) : Option (Int × List Char × Handles) :=
  match ipv6_route with
  | none => some (EXIT_FAILURE, default_gateway, h)
  | some stream =>
    let fp := acquire h
    match get_if_ipv6_default_gateway_loop if_name (stream.length + 1) stream
        (v0.init default_gateway) with
    | none => none
    | some v => some (v.ret, v.default_gateway, release fp.1 fp.2)

/-! ## Vocabulary of the statements: tables as lists of lines -/

/-- The text of a table whose lines are `lines`, each ended by a newline. -/
def table_of (lines : List (List Char)) : List Char :=
  (lines.map (fun l => l ++ ['\n'])).flatten

/-- A blank or a tab, the characters `skip_whitespace` skips. -/
def isblank (c : Char) : Bool := c = ' ' || c = '\t'

/-- The name `get_name` extracts from a line of the table: the contents of
`name` after the call on a buffer that holds the line, its newline and the
terminator. -/
def line_name (l : List Char) : List Char :=
  match get_name (List.replicate IFNAMSIZ NUL) (l ++ ['\n', NUL]) with
  | some (name, _) => name
  | none => []

/-- The row of `if_names` after `get_if_readlist` stored the name of line `l`
in it. -/
def stored_row (l row : List Char) : List Char :=
  strncpy row (line_name l) (IFNAMSIZ - 1)

/-- A line has no colon within the name-length window: none of the `IFNAMSIZ`
characters behind its leading blanks and tabs is a colon. -/
def no_colon_in_window (l : List Char) : Prop :=
  ∀ k, k < IFNAMSIZ → (l.dropWhile isblank).get? k ≠ some ':'

/-- A device line `<blanks/tabs> NAME ':' rest`. -/
structure DevLine where
  /-- Leading blanks and tabs. -/
  blank : List Char
  /-- The interface name. -/
  name : List Char
  /-- The text behind the colon. -/
  rest : List Char

/-- The text of a device line, without its newline. -/
def DevLine.text (d : DevLine) : List Char := d.blank ++ d.name ++ ':' :: d.rest

/-- A device line is well formed: blanks and tabs, then a name of 1 to 15
characters, none a colon, a space or a control character below the space, then
the colon and a rest without newline. -/
def DevLine.ok (d : DevLine) : Prop :=
  (∀ c ∈ d.blank, isblank c = true) ∧ 1 ≤ d.name.length ∧ d.name.length ≤ IFNAMSIZ - 1 ∧
    (∀ c ∈ d.name, c ≠ ':' ∧ ' '.toNat < c.toNat) ∧ '\n' ∉ d.rest

/-! ## Vocabulary of the statements: rows of the IPv4 routing table -/

/-- The first field of a row of the routing table as `%s` reads it from the
buffer that holds the row and its newline. -/
def first_field (l : List Char) : List Char :=
  match scan_s none (cstr (l ++ ['\n'])) with
  | .ok tok _ => tok
  | _ => []

/-- The three leading fields of a row as `sscanf(buf, "%s\t%lX\t%lX", ...)`
reads them from the buffer that holds the row and its newline: the interface
name, the destination word and the gateway word; `none` when fewer than three
fields are converted. -/
def route_fields (l : List Char) : Option (List Char × Nat × Nat) :=
  match vfscanf route_format (cstr (l ++ ['\n'])) with
  | some ⟨[.str iface, .num dest_addr, .num gate_addr], _, _⟩ => some (iface, dest_addr, gate_addr)
  | _ => none

/-- A row is the default route of the interface: its three leading fields
parse, the destination is zero and the name equals the requested one (as
strings: `strcmp` finds no difference). -/
def is_default_row (if_name l : List Char) : Bool :=
  match route_fields l with
  | some (iface, dest_addr, _) => dest_addr = 0 && streq if_name iface
  | none => false

/-- The gateway word of a row (zero when the fields do not parse). -/
def row_gateway (l : List Char) : Nat :=
  match route_fields l with
  | some (_, _, gate_addr) => gate_addr
  | none => 0

/-! ## Vocabulary of the statements: fields of a row -/

/-- The number a string of hexadecimal digits denotes. -/
def hex_value (tok : List Char) : Nat :=
  tok.foldl (fun a c => 16 * a + hex_digit_value c) 0

/-- A field that `%s` reads whole: not empty, without white space or `NUL`. -/
def is_word (tok : List Char) : Prop :=
  tok ≠ [] ∧ ∀ c ∈ tok, isspace c = false ∧ c ≠ NUL

/-- A field of hexadecimal digits: not empty, at most `n` digits. -/
def is_hex (n : Nat) (tok : List Char) : Prop :=
  tok ≠ [] ∧ tok.length ≤ n ∧ ∀ c ∈ tok, isxdigit c = true

/-- White space between two fields of a row: blanks and tabs, at least one. -/
def is_gap (ws : List Char) : Prop :=
  ws ≠ [] ∧ ∀ c ∈ ws, isblank c = true

/-- The text ends a field: it is empty or starts with white space. -/
def ends_field (rest : List Char) : Prop :=
  ∀ c ∈ rest.head?, isspace c = true

/-- The bytes a string of hexadecimal digits denotes, two digits a byte. -/
def hex_bytes : List Char → List Nat
  | a :: b :: rest => (16 * hex_digit_value a + hex_digit_value b) :: hex_bytes rest
  | _ => []

/-- A column of 32 hexadecimal digits: an IPv6 address as the kernel prints it. -/
def is_addr6 (tok : List Char) : Prop :=
  tok.length = 32 ∧ ∀ c ∈ tok, isxdigit c = true

/-! ## Vocabulary of the statements: rows of the IPv6 tables -/

/-- A row of `/proc/net/if_inet6`, column by column: the address (32
hexadecimal digits), the interface index, the prefix length, the scope, the
flags, the blanks the kernel pads the name with, and the interface name. -/
structure Inet6Row where
  /-- Address column. -/
  addr : List Char
  /-- Interface index, hexadecimal. -/
  if_idx : List Char
  /-- Prefix length, hexadecimal. -/
  plen : List Char
  /-- Scope, hexadecimal. -/
  scope : List Char
  /-- Flags, hexadecimal. -/
  flags : List Char
  /-- Blanks in front of the name. -/
  pad : List Char
  /-- Interface name. -/
  devname : List Char

/-- The text of a row of `/proc/net/if_inet6`, without its newline: the
columns, one blank between two of them. -/
def Inet6Row.text (r : Inet6Row) : List Char :=
  r.addr ++ (' ' :: (r.if_idx ++ (' ' :: (r.plen ++ (' ' :: (r.scope ++ (' ' :: (r.flags ++
    (' ' :: (r.pad ++ r.devname))))))))))

/-- A row of `/proc/net/if_inet6` is well formed: 32 hexadecimal digits, an
index of up to 8 digits, prefix length, scope and flags of up to 2, and a name
of at most `IFNAMSIZ - 1` characters. -/
def Inet6Row.ok (r : Inet6Row) : Prop :=
  is_addr6 r.addr ∧ is_hex 8 r.if_idx ∧ is_hex 2 r.plen ∧ is_hex 2 r.scope ∧ is_hex 2 r.flags ∧
    (∀ c ∈ r.pad, isblank c = true) ∧ is_word r.devname ∧ r.devname.length < IFNAMSIZ

/-- A row of `/proc/net/ipv6_route`, column by column. -/
structure Route6Row where
  /-- Destination (32 hexadecimal digits). -/
  dst : List Char
  /-- Destination prefix length, hexadecimal. -/
  dst_prefix : List Char
  /-- Source (32 hexadecimal digits). -/
  src : List Char
  /-- Source prefix length, hexadecimal. -/
  src_prefix : List Char
  /-- Gateway (32 hexadecimal digits). -/
  gw : List Char
  /-- Metric, hexadecimal. -/
  metric : List Char
  /-- Reference count, hexadecimal. -/
  ref_cnt : List Char
  /-- Use count, hexadecimal. -/
  use_cnt : List Char
  /-- Flags, hexadecimal. -/
  flags : List Char
  /-- Blanks in front of the name. -/
  pad : List Char
  /-- Interface name. -/
  devname : List Char

/-- The text of a row of `/proc/net/ipv6_route`, without its newline. -/
def Route6Row.text (r : Route6Row) : List Char :=
  r.dst ++ (' ' :: (r.dst_prefix ++ (' ' :: (r.src ++ (' ' :: (r.src_prefix ++ (' ' :: (r.gw ++
    (' ' :: (r.metric ++ (' ' :: (r.ref_cnt ++ (' ' :: (r.use_cnt ++ (' ' :: (r.flags ++
    (' ' :: (r.pad ++ r.devname))))))))))))))))))

/-- A row of `/proc/net/ipv6_route` is well formed: ten columns, the addresses
of 32 hexadecimal digits, the numbers of up to 8, the name of at most
`IFNAMSIZ - 1` characters. -/
def Route6Row.ok (r : Route6Row) : Prop :=
  is_addr6 r.dst ∧ is_hex 8 r.dst_prefix ∧ is_addr6 r.src ∧ is_hex 8 r.src_prefix ∧
    is_addr6 r.gw ∧ is_hex 8 r.metric ∧ is_hex 8 r.ref_cnt ∧ is_hex 8 r.use_cnt ∧
    is_hex 8 r.flags ∧ (∀ c ∈ r.pad, isblank c = true) ∧ is_word r.devname ∧
    r.devname.length < IFNAMSIZ

/-- A row qualifies as the link-local default route of the interface: the
destination is 32 zero digits, the destination prefix length is 0, the gateway
starts with `fe80`, and the name is the requested one. -/
def Route6Row.qualifies (if_name : List Char) (r : Route6Row) : Bool :=
  r.gw.take 4 = "fe80".toList && r.dst = List.replicate 32 '0' && hex_value r.dst_prefix = 0 &&
    cstr if_name = r.devname

/-- The values one `fscanf` call stores for a well-formed row of
`/proc/net/ipv6_route`. -/
def Route6Row.vals (r : Route6Row) : List Val :=
  [.str r.dst, .num (hex_value r.dst_prefix), .str r.src, .num (hex_value r.src_prefix),
   .str r.gw, .num (hex_value r.metric), .num (hex_value r.ref_cnt), .num (hex_value r.use_cnt),
   .num (hex_value r.flags), .str r.devname]

/-- The text of the gateway of a row: what `inet_ntop` makes of the 16 bytes the
32 digits of the gateway column denote. -/
def Route6Row.gateway_text (r : Route6Row) : List Char :=
  inet_ntop6_text (hex_bytes r.gw)

/-- The caller's buffer after the gateway of a row was written to it: the
text, its terminator, and the old bytes behind them. -/
def Route6Row.write (default_gateway : List Char) (r : Route6Row) : List Char :=
  r.gateway_text ++ NUL :: default_gateway.drop (r.gateway_text.length + 1)

/-- The values one `fscanf` call stores for a well-formed row of
`/proc/net/if_inet6`: the eight groups of the address, the four numbers and
the name. -/
def Inet6Row.vals (r : Inet6Row) : List Val :=
  (List.range 8).map (fun i => Val.str ((r.addr.drop (4 * i)).take 4)) ++
    [.num (hex_value r.if_idx), .num (hex_value r.plen), .num (hex_value r.scope),
     .num (hex_value r.flags), .str r.devname]

/-- The outputs of `get_if_ipv6_info` for a matched well-formed row: the text
`inet_ntop` makes of the address, the prefix length and the scope text, each
copied by `strncpy` into the caller's buffer. -/
def Inet6Row.info (r : Inet6Row) (out : Inet6Info) : Inet6Info :=
  { addr6_text :=
      strncpy out.addr6_text (inet_ntop6_text (hex_bytes r.addr)) (INET6_ADDRSTRLEN - 1)
    prefix_len := hex_value r.plen
    addr_scope := strncpy out.addr_scope (scope_text (hex_value r.scope)) 9 }

/-- The runs `fgets(buf, size, f)` returns for a line of at most `size - 1`
characters: the line with its newline when both fit the buffer, else the line
and then the newline alone. -/
def chunks_of_line (size : Nat) (l : List Char) : List (List Char) :=
  if l.length + 1 < size then [l ++ ['\n']] else [l, ['\n']]

/-- The outcome of a conversion with `f` applied to the unread input. -/
def Conv.with_rest {α : Type} (f : List Char → List Char) : Conv α → Conv α
  | .ok v rest => .ok v (f rest)
  | .input_failure => .input_failure
  | .matching_failure rest => .matching_failure (f rest)

/-! ## Lemmas on the C library model -/

theorem cstr_eq_self {s : List Char} (hs : ∀ c ∈ s, c ≠ NUL) : cstr s = s := by
  unfold cstr
  rw [List.takeWhile_eq_self_iff]
  intro c hc
  simpa using hs c hc

theorem cstr_append_nul {s : List Char} (hs : ∀ c ∈ s, c ≠ NUL) (t : List Char) :
    cstr (s ++ NUL :: t) = s := by
  unfold cstr
  induction s with
  | nil => simp [List.takeWhile]
  | cons a s ih =>
    have ha : a ≠ NUL := hs a (by simp)
    have := ih (fun c hc => hs c (by simp [hc]))
    rw [List.cons_append, List.takeWhile_cons]
    simp [ha, this]

theorem digitChar_ne_nul (d : Nat) : Nat.digitChar d ≠ NUL := by
  by_cases h : d < 16
  · interval_cases d <;> decide
  · have hd : Nat.digitChar d = '*' := by
      unfold Nat.digitChar
      repeat (rw [if_neg (by omega)])
    rw [hd]
    decide

theorem toDigitsCore_mem (b : Nat) : ∀ (fuel n : Nat) (ds : List Char) (c : Char),
    c ∈ Nat.toDigitsCore b fuel n ds → c ∈ ds ∨ ∃ d, c = Nat.digitChar d := by
  intro fuel
  induction fuel with
  | zero => intro n ds c hc; left; simpa [Nat.toDigitsCore] using hc
  | succ fuel ih =>
    intro n ds c hc
    unfold Nat.toDigitsCore at hc
    simp only at hc
    split at hc
    · rcases List.mem_cons.1 hc with h | h
      · right; exact ⟨_, h⟩
      · left; exact h
    · rcases ih _ _ c hc with h | h
      · rcases List.mem_cons.1 h with h | h
        · right; exact ⟨_, h⟩
        · left; exact h
      · right; exact h

theorem toDigits_ne_nul (b n : Nat) : ∀ c ∈ Nat.toDigits b n, c ≠ NUL := by
  intro c hc
  rcases toDigitsCore_mem b _ _ _ c hc with h | ⟨d, rfl⟩
  · simp at h
  · exact digitChar_ne_nul d

theorem toDigitsCore_length_ge (b : Nat) : ∀ (fuel n : Nat) (ds : List Char),
    ds.length + 1 ≤ (Nat.toDigitsCore b (fuel + 1) n ds).length := by
  intro fuel
  induction fuel with
  | zero =>
    intro n ds
    unfold Nat.toDigitsCore
    simp only
    split <;> simp [Nat.toDigitsCore]
  | succ fuel ih =>
    intro n ds
    unfold Nat.toDigitsCore
    simp only
    split
    · simp
    · have := ih (n / b) (Nat.digitChar (n % b) :: ds)
      simp only [List.length_cons] at this
      omega

theorem toDigits_length_pos (b n : Nat) : 1 ≤ (Nat.toDigits b n).length := by
  have := toDigitsCore_length_ge b n n []
  simpa [Nat.toDigits] using this

theorem toDigitsCore_length_le (b : Nat) (_hb : 1 < b) : ∀ (fuel n k : Nat) (ds : List Char),
    n < b ^ k → 1 ≤ k → (Nat.toDigitsCore b fuel n ds).length ≤ k + ds.length := by
  intro fuel
  induction fuel with
  | zero => intro n k ds _ _; simp [Nat.toDigitsCore]
  | succ fuel ih =>
    intro n k ds hn hk
    unfold Nat.toDigitsCore
    simp only
    split
    · simp; omega
    · rename_i hne
      have hnb : b ≤ n := by
        by_contra hlt
        exact hne (Nat.div_eq_of_lt (by omega))
      have hk2 : 2 ≤ k := by
        by_contra hlt
        have hk1 : k = 1 := by omega
        subst hk1
        simp at hn
        omega
      have hdiv : n / b < b ^ (k - 1) := by
        apply Nat.div_lt_of_lt_mul
        have : b ^ k = b * b ^ (k - 1) := by
          rw [← Nat.pow_succ']
          congr 1
          omega
        omega
      have := ih (n / b) (k - 1) (Nat.digitChar (n % b) :: ds) hdiv (by omega)
      simp only [List.length_cons] at this
      omega

theorem fmt_d_length_le (n : Nat) (hn : n < 256) : (fmt_d n).length ≤ 3 := by
  have := toDigitsCore_length_le 10 (by omega) (n + 1) n 3 [] (by omega) (by omega)
  simpa [fmt_d, Nat.toDigits] using this

theorem fmt_x_length_le (n : Nat) (hn : n < 65536) : (fmt_x n).length ≤ 4 := by
  have := toDigitsCore_length_le 16 (by omega) (n + 1) n 4 [] (by omega) (by omega)
  simpa [fmt_x, Nat.toDigits] using this

theorem inet_ntoa_ne_nul (a : List Nat) : ∀ c ∈ inet_ntoa a, c ≠ NUL := by
  intro c hc
  simp only [inet_ntoa, List.mem_append, List.mem_cons] at hc
  have hdot : ('.' : Char) ≠ NUL := by decide
  rcases hc with ((h | h | h) | h | h) | h | h
  · exact toDigits_ne_nul _ _ c h
  · exact h ▸ hdot
  · exact toDigits_ne_nul _ _ c h
  · exact h ▸ hdot
  · exact toDigits_ne_nul _ _ c h
  · exact h ▸ hdot
  · exact toDigits_ne_nul _ _ c h

theorem inet_ntoa_length_ge (a : List Nat) : 7 ≤ (inet_ntoa a).length := by
  have h0 := toDigits_length_pos 10 (a.getD 0 0 % 256)
  have h1 := toDigits_length_pos 10 (a.getD 1 0 % 256)
  have h2 := toDigits_length_pos 10 (a.getD 2 0 % 256)
  have h3 := toDigits_length_pos 10 (a.getD 3 0 % 256)
  simp only [inet_ntoa, fmt_d, List.length_append, List.length_cons]
  omega

theorem inet_ntoa_length_le (a : List Nat) : (inet_ntoa a).length ≤ 15 := by
  have h0 := fmt_d_length_le (a.getD 0 0 % 256) (Nat.mod_lt _ (by omega))
  have h1 := fmt_d_length_le (a.getD 1 0 % 256) (Nat.mod_lt _ (by omega))
  have h2 := fmt_d_length_le (a.getD 2 0 % 256) (Nat.mod_lt _ (by omega))
  have h3 := fmt_d_length_le (a.getD 3 0 % 256) (Nat.mod_lt _ (by omega))
  simp only [inet_ntoa, List.length_append, List.length_cons]
  omega

/-- What `strncpy` leaves in the first `n` bytes when the source has no `NUL`
and at most `n` characters: the source, padded. -/
theorem strncpy_short {src : List Char} (dest : List Char) (n : Nat)
    (hs : ∀ c ∈ src, c ≠ NUL) (hl : src.length ≤ n) :
    strncpy dest src n = src ++ List.replicate (n - src.length) NUL ++ dest.drop n := by
  unfold strncpy
  rw [cstr_eq_self hs, List.take_of_length_le hl]

/-- The string held in the `n` bytes `strncpy` wrote is the source, when the
source has no `NUL` and at most `n` characters. -/
theorem cstr_take_strncpy {src : List Char} (dest : List Char) (n : Nat)
    (hs : ∀ c ∈ src, c ≠ NUL) (hl : src.length ≤ n) :
    cstr ((strncpy dest src n).take n) = src := by
  rw [strncpy_short dest n hs hl]
  have hlen : (src ++ List.replicate (n - src.length) NUL).length = n := by
    simp; omega
  rw [List.take_append_of_le_length (by omega), List.take_of_length_le (by omega)]
  unfold cstr
  rw [List.takeWhile_append]
  have h1 : List.takeWhile (fun c => c != NUL) src = src := by
    rw [List.takeWhile_eq_self_iff]
    intro c hc
    simpa using hs c hc
  rw [h1]
  simp only [if_true]
  cases hk : n - src.length with
  | zero => simp
  | succ k => simp [List.replicate_succ, List.takeWhile]

theorem release_acquire (h : Handles) : release (acquire h).1 (acquire h).2 = h := by
  simp [release, acquire]

/-! ## Lines read by `fgets` -/

theorem read_line_line (n : Nat) (l rest : List Char) (hl : '\n' ∉ l) (hn : l.length < n) :
    read_line n (l ++ '\n' :: rest) = l ++ ['\n'] := by
  induction l generalizing n with
  | nil =>
    cases n with
    | zero => omega
    | succ n => simp [read_line]
  | cons a l ih =>
    cases n with
    | zero => omega
    | succ n =>
      have ha : a ≠ '\n' := fun h => hl (by simp [h])
      have hl' : '\n' ∉ l := fun h => hl (by simp [h])
      simp only [List.cons_append, read_line, if_neg ha, List.append_eq]
      rw [ih n hl' (by simpa using hn)]

theorem table_of_cons (l : List Char) (ls : List (List Char)) :
    table_of (l :: ls) = l ++ '\n' :: table_of ls := by
  simp [table_of]

theorem fgets_chunks_table (size : Nat) (lines : List (List Char))
    (hl : ∀ l ∈ lines, '\n' ∉ l ∧ l.length + 1 < size) :
    ∀ fuel, lines.length ≤ fuel →
      fgets_chunks size fuel (table_of lines) = lines.map (fun l => l ++ ['\n']) := by
  induction lines with
  | nil => intro fuel _; cases fuel <;> simp [table_of, fgets_chunks]
  | cons l ls ih =>
    intro fuel hf
    cases fuel with
    | zero => simp at hf
    | succ fuel =>
      have h1 := hl l (by simp)
      have hrl : read_line (size - 1) (l ++ '\n' :: table_of ls) = l ++ ['\n'] :=
        read_line_line _ _ _ h1.1 (by omega)
      rw [table_of_cons]
      cases hls : l ++ '\n' :: table_of ls with
      | nil => simp at hls
      | cons c s =>
        simp only [fgets_chunks]
        rw [← hls, hrl]
        have hdrop : (l ++ '\n' :: table_of ls).drop (l ++ ['\n']).length = table_of ls := by
          have : l ++ '\n' :: table_of ls = (l ++ ['\n']) ++ table_of ls := by simp
          rw [this, List.drop_left]
        rw [hdrop, ih (fun l' hl' => hl l' (by simp [hl'])) fuel (by simpa using hf)]
        simp

theorem table_of_length (lines : List (List Char)) : lines.length ≤ (table_of lines).length := by
  induction lines with
  | nil => simp [table_of]
  | cons l ls ih =>
    rw [table_of_cons]
    simp
    omega

/-- The `fgets` calls on a table whose lines fit the buffer return the lines,
one a call, each with its newline. -/
theorem fgets_all_table (size : Nat) (lines : List (List Char))
    (hl : ∀ l ∈ lines, '\n' ∉ l ∧ l.length + 1 < size) :
    fgets_all size (table_of lines) = lines.map (fun l => l ++ ['\n']) :=
  fgets_chunks_table size lines hl _ (table_of_length lines)

/-! ## `get_name` -/

theorem skip_whitespace_append (b : List Char) (hb : ∀ c ∈ b, isblank c = true) (c : Char)
    (tail : List Char) (hc : isblank c = false) :
    skip_whitespace (b ++ c :: tail) = some b.length := by
  induction b with
  | nil =>
    have : ¬ (c = ' ' ∨ c = '\t') := by simpa [isblank] using hc
    simp [skip_whitespace, this]
  | cons a b ih =>
    have ha : a = ' ' ∨ a = '\t' := by simpa [isblank] using hb a (by simp)
    have := ih (fun c hc => hb c (by simp [hc]))
    simp [skip_whitespace, ha, this]

theorem get_name_scan_cons_cons (c d : Char) (rest : List Char) (k : Nat) :
    get_name_scan (c :: d :: rest) k =
      if k ≥ IFNAMSIZ then some none
      else if c = ':' then some (some k)
      else if d.toNat ≤ ' '.toNat then some none else get_name_scan (d :: rest) (k + 1) := rfl

theorem get_name_scan_single (c : Char) (k : Nat) :
    get_name_scan [c] k =
      if k ≥ IFNAMSIZ then some none else if c = ':' then some (some k) else none := rfl

theorem get_name_scan_some (s : List Char) :
    ∀ k j, get_name_scan s k = some (some j) →
      k ≤ j ∧ j < IFNAMSIZ ∧ s.get? (j - k) = some ':' := by
  induction s with
  | nil =>
    intro k j h
    simp only [get_name_scan] at h
    split at h <;> simp at h
  | cons c s ih =>
    intro k j h
    cases s with
    | nil =>
      rw [get_name_scan_single] at h
      split at h
      · simp at h
      · rename_i hk
        split at h
        · rename_i hc
          simp only [Option.some.injEq] at h
          subst h
          exact ⟨Nat.le_refl _, by omega, by simp [hc]⟩
        · simp at h
    | cons d s =>
      rw [get_name_scan_cons_cons] at h
      split at h
      · simp at h
      · rename_i hk
        split at h
        · rename_i hc
          simp only [Option.some.injEq] at h
          subst h
          exact ⟨Nat.le_refl _, by omega, by simp [hc]⟩
        · split at h
          · simp at h
          · obtain ⟨h1, h2, h3⟩ := ih (k + 1) j h
            refine ⟨by omega, h2, ?_⟩
            have : j - k = (j - (k + 1)) + 1 := by omega
            rw [this]
            simpa using h3

theorem get_name_scan_tail (s : List Char) (c : Char) (tail : List Char) :
    ∀ k, get_name_scan (c :: s ++ NUL :: tail) k = get_name_scan (c :: s ++ [NUL]) k ∧
      get_name_scan (c :: s ++ [NUL]) k ≠ none := by
  induction s generalizing c with
  | nil =>
    intro k
    have hn : NUL.toNat ≤ ' '.toNat := by decide
    simp only [List.cons_append, List.nil_append, get_name_scan_cons_cons, if_pos hn]
    refine ⟨trivial, ?_⟩
    split
    · simp
    · split <;> simp
  | cons d s ih =>
    intro k
    obtain ⟨h1, h2⟩ := ih d (k + 1)
    simp only [List.cons_append] at h1 h2 ⊢
    simp only [get_name_scan_cons_cons, h1]
    refine ⟨trivial, ?_⟩
    split
    · simp
    · split
      · simp
      · split
        · simp
        · exact h2

/-- On a buffer that holds a line and its newline, `get_name` reads nothing
behind the terminator: its result is defined and does not depend on the bytes
there. -/
theorem get_name_line (arr l tail : List Char) :
    get_name arr (l ++ '\n' :: NUL :: tail) = get_name arr (l ++ ['\n', NUL]) ∧
      ∃ name off, get_name arr (l ++ ['\n', NUL]) = some (name, off) := by
  have hsplit : l = l.takeWhile isblank ++ l.dropWhile isblank :=
    (List.takeWhile_append_dropWhile isblank l).symm
  have hb : ∀ c ∈ l.takeWhile isblank, isblank c = true := fun c hc =>
    (List.mem_takeWhile_imp hc)
  have hnl : isblank '\n' = false := by decide
  -- the first character behind the blanks
  obtain ⟨c, s, hcs, hc⟩ : ∃ c s, l.dropWhile isblank ++ ['\n'] = c :: s ∧ isblank c = false := by
    cases hr : l.dropWhile isblank with
    | nil => exact ⟨'\n', [], by simp, hnl⟩
    | cons c r =>
      refine ⟨c, r ++ ['\n'], by simp, ?_⟩
      have := List.head_dropWhile_not isblank l (by simp [hr])
      simpa [hr] using this
  have e1 : ∀ t : List Char, l ++ '\n' :: NUL :: t =
      l.takeWhile isblank ++ c :: (s ++ NUL :: t) := by
    intro t
    have : l ++ '\n' :: NUL :: t = l.takeWhile isblank ++ ((l.dropWhile isblank ++ ['\n']) ++ NUL :: t) := by
      rw [List.append_assoc, ← List.append_assoc (l.takeWhile isblank),
        List.takeWhile_append_dropWhile]
      simp
    rw [this, hcs]
    simp
  have e2 : l ++ ['\n', NUL] = l.takeWhile isblank ++ c :: (s ++ NUL :: []) := e1 []
  have hd : ∀ t : List Char, (l.takeWhile isblank ++ c :: (s ++ NUL :: t)).drop
      (l.takeWhile isblank).length = c :: s ++ NUL :: t := by
    intro t
    rw [List.drop_left]
    simp
  obtain ⟨ht, hdef⟩ := get_name_scan_tail s c tail 0
  have hget : ∀ t : List Char, get_name arr (l.takeWhile isblank ++ c :: (s ++ NUL :: t)) =
      match get_name_scan (c :: s ++ NUL :: t) 0 with
      | none => none
      | some (some k) =>
        some ((c :: s ++ NUL :: t).take k ++ [NUL] ++ arr.drop (k + 1),
          (l.takeWhile isblank).length + k + 1)
      | some none => some ([NUL] ++ arr.drop 1, 0) := by
    intro t
    simp only [get_name, skip_whitespace_append _ hb c _ hc, hd]
  rw [e1 tail, e2, hget tail, hget [], ht]
  cases hscan : get_name_scan (c :: s ++ [NUL]) 0 with
  | none => exact absurd hscan hdef
  | some r =>
    cases r with
    | none => exact ⟨rfl, _, _, rfl⟩
    | some k =>
      obtain ⟨_, _, hk⟩ := get_name_scan_some _ 0 k hscan
      have hklt : k < (c :: s).length := by
        simp only [Nat.sub_zero] at hk
        have hlt : k < (c :: s ++ [NUL]).length := by
          by_contra hge
          rw [List.get?_eq_none.2 (by omega)] at hk
          simp at hk
        by_contra hge
        have hkeq : k = (c :: s).length := by
          simp only [List.length_append, List.length_cons, List.length_nil] at hlt hge ⊢
          omega
        rw [hkeq, List.get?_eq_getElem?, List.getElem?_append_right (Nat.le_refl _)] at hk
        simp at hk
        exact absurd hk (by decide)
      refine ⟨?_, _, _, rfl⟩
      simp only
      rw [List.take_append_of_le_length (by omega), List.take_append_of_le_length (by omega)]

theorem fgets_store_line (buf l : List Char) :
    fgets_store buf (l ++ ['\n']) = l ++ '\n' :: NUL :: buf.drop (l.length + 2) := by
  simp [fgets_store]

theorem get_name_fgets (buf l : List Char) :
    ∃ off, get_name (List.replicate IFNAMSIZ NUL) (fgets_store buf (l ++ ['\n'])) =
      some (line_name l, off) := by
  obtain ⟨h1, name, off, h2⟩ := get_name_line (List.replicate IFNAMSIZ NUL) l (buf.drop (l.length + 2))
  refine ⟨off, ?_⟩
  rw [fgets_store_line, h1, h2]
  simp [line_name, h2]

theorem get_if_readlist_loop_lines (ls : List (List Char)) :
    ∀ (buf : List Char) (names : List (List Char)) (idx : Nat),
      idx + ls.length ≤ names.length →
      get_if_readlist_loop (ls.map (fun l => l ++ ['\n'])) buf names idx =
        some (names.take idx ++ List.zipWith stored_row ls (names.drop idx) ++
          names.drop (idx + ls.length), idx + ls.length) := by
  induction ls with
  | nil =>
    intro buf names idx _
    simp [get_if_readlist_loop]
  | cons l ls ih =>
    intro buf names idx hcap
    simp only [List.length_cons] at hcap
    obtain ⟨off, hname⟩ := get_name_fgets buf l
    have hidx : idx < names.length := by omega
    simp only [List.map_cons, get_if_readlist_loop, hname, if_pos hidx]
    rw [ih _ _ (idx + 1) (by simp; omega)]
    have hset : names.set idx (strncpy (names.getD idx []) (line_name l) (IFNAMSIZ - 1)) =
        names.take idx ++ stored_row l names[idx] :: names.drop (idx + 1) := by
      rw [List.set_eq_take_append_cons_drop, if_pos hidx, List.getD_eq_getElem _ _ hidx]
      rfl
    have hdrop : names.drop idx = names[idx] :: names.drop (idx + 1) :=
      List.drop_eq_getElem_cons hidx
    have hlen : (names.take idx).length = idx := by
      rw [List.length_take]; omega
    rw [hset, hdrop]
    have e1 : (names.take idx ++ stored_row l names[idx] :: names.drop (idx + 1)).take (idx + 1) =
        names.take idx ++ [stored_row l names[idx]] := by
      rw [List.take_append_eq_append_take, hlen]
      simp [List.take_of_length_le (Nat.le_of_eq hlen)]
    have e2 : ∀ n, (names.take idx ++ stored_row l names[idx] :: names.drop (idx + 1)).drop
        (idx + 1 + n) = names.drop (idx + 1 + n) := by
      intro n
      rw [List.drop_append_eq_append_drop, hlen]
      have : (names.take idx).drop (idx + 1 + n) = [] :=
        List.drop_of_length_le (by omega)
      rw [this]
      have h3 : idx + 1 + n - idx = n + 1 := by omega
      rw [h3]
      simp only [List.nil_append, List.drop_succ_cons, List.drop_drop]
    have e2' := e2 0
    simp only [Nat.add_zero] at e2'
    rw [e1, e2', e2]
    simp only [List.zipWith_cons_cons, List.length_cons, List.append_assoc, List.singleton_append]
    have h4 : idx + (ls.length + 1) = idx + 1 + ls.length := by omega
    rw [h4]

/-- The result of `get_if_readlist` on a table of two header lines and the
lines `ls`, each line fitting the read buffer with its newline, when
`if_names` has a row for every line: every line has its row, in file order,
and is counted. -/
theorem get_if_readlist_table (h1 h2 : List Char) (ls if_names : List (List Char))
    (if_counts : Nat) (h : Handles)
    (hl : ∀ l ∈ h1 :: h2 :: ls, '\n' ∉ l ∧ l.length + 1 < 512)
    (hcap : ls.length ≤ if_names.length) :
    get_if_readlist (some (table_of (h1 :: h2 :: ls))) if_names if_counts h =
      some (EXIT_SUCCESS, List.zipWith stored_row ls if_names ++ if_names.drop ls.length,
        ls.length, h) := by
  simp only [get_if_readlist, fgets_all_table 512 _ hl, List.map_cons, List.drop_succ_cons,
    List.drop_zero, release_acquire]
  rw [get_if_readlist_loop_lines ls _ _ 0 (by simpa using hcap)]
  simp

/-! ## One directive of a `scanf` format at a time -/

theorem vfscanf_nil (inp : List Char) : vfscanf [] inp = some ⟨[], inp, false⟩ := rfl

theorem vfscanf_space (ds : List Directive) (inp : List Char) :
    vfscanf (.space :: ds) inp = vfscanf ds (inp.dropWhile isspace) := rfl

theorem vfscanf_s_ok {width : Option Nat} {inp tok rest : List Char} (size : Nat)
    (ds : List Directive) (h : scan_s width inp = .ok tok rest) :
    vfscanf (.s width size :: ds) inp =
      if tok.length < size then
        (vfscanf ds rest).map (fun r => ⟨Val.str tok :: r.vals, r.rest, r.eof⟩)
      else none := by
  rw [vfscanf, h]

theorem vfscanf_s_input_failure {width : Option Nat} {inp : List Char} (size : Nat)
    (ds : List Directive) (h : scan_s width inp = .input_failure) :
    vfscanf (.s width size :: ds) inp = some ⟨[], [], true⟩ := by
  rw [vfscanf, h]

theorem scan_s_ne_matching_failure (width : Option Nat) (inp rest : List Char) :
    scan_s width inp ≠ .matching_failure rest := by
  unfold scan_s
  split <;> simp

theorem vfscanf_x_ok {width : Option Nat} {inp rest : List Char} {v : Nat} (bits : Nat)
    (ds : List Directive) (h : scan_x width inp = .ok v rest) :
    vfscanf (.x width bits :: ds) inp =
      (vfscanf ds rest).map (fun r => ⟨Val.num (v % 2 ^ bits) :: r.vals, r.rest, r.eof⟩) := by
  rw [vfscanf, h]

theorem vfscanf_x_input_failure {width : Option Nat} {inp : List Char} (bits : Nat)
    (ds : List Directive) (h : scan_x width inp = .input_failure) :
    vfscanf (.x width bits :: ds) inp = some ⟨[], [], true⟩ := by
  rw [vfscanf, h]

theorem vfscanf_x_matching_failure {width : Option Nat} {inp rest : List Char} (bits : Nat)
    (ds : List Directive) (h : scan_x width inp = .matching_failure rest) :
    vfscanf (.x width bits :: ds) inp = some ⟨[], rest, false⟩ := by
  rw [vfscanf, h]

/-! ## Conversions on well-formed fields -/

theorem isspace_of_isblank {c : Char} (h : isblank c = true) : isspace c = true := by
  have : c = ' ' ∨ c = '\t' := by simpa [isblank] using h
  rcases this with rfl | rfl <;> decide

theorem isspace_false_of_isxdigit {c : Char} (h : isxdigit c = true) : isspace c = false := by
  simp only [isxdigit, Bool.or_eq_true, Bool.and_eq_true, decide_eq_true_eq] at h
  simp only [isspace, Bool.or_eq_false_iff, Bool.and_eq_false_iff, decide_eq_false_iff_not]
  omega

theorem ne_nul_of_isxdigit {c : Char} (h : isxdigit c = true) : c ≠ NUL := by
  rintro rfl
  exact absurd h (by decide)

theorem hex_digit_value_lt {c : Char} (h : isxdigit c = true) : hex_digit_value c < 16 := by
  simp only [isxdigit, Bool.or_eq_true, Bool.and_eq_true, decide_eq_true_eq] at h
  unfold hex_digit_value
  split_ifs <;> omega

theorem dropWhile_isspace_field (ws tok rest : List Char) (hws : ∀ c ∈ ws, isspace c = true)
    (ht : ∀ c ∈ tok.head?, isspace c = false) (hne : tok ≠ []) :
    (ws ++ tok ++ rest).dropWhile isspace = tok ++ rest := by
  rw [List.append_assoc, List.dropWhile_append_of_pos hws]
  cases tok with
  | nil => exact absurd rfl hne
  | cons a tok =>
    have := ht a (by simp)
    simp [List.dropWhile_cons, this]

theorem takeWhile_field (tok rest : List Char) (ht : ∀ c ∈ tok, isspace c = false)
    (hr : ends_field rest) :
    (tok ++ rest).takeWhile (fun x => !isspace x) = tok := by
  rw [List.takeWhile_append_of_pos (fun c hc => by simp [ht c hc])]
  cases rest with
  | nil => simp
  | cons b rest =>
    have := hr b (by simp)
    simp [List.takeWhile_cons, this]

theorem ends_field_take (rest : List Char) (n : Nat) (hr : ends_field rest) :
    ends_field (rest.take n) := by
  cases rest with
  | nil => simpa using hr
  | cons b rest =>
    cases n with
    | zero => intro c hc; simp at hc
    | succ n => simpa [ends_field] using hr

/-- `%s` without field width reads a field that white space or the end of the
input follows. -/
theorem scan_s_field (ws tok rest : List Char) (hws : ∀ c ∈ ws, isspace c = true)
    (hne : tok ≠ []) (ht : ∀ c ∈ tok, isspace c = false) (hr : ends_field rest) :
    scan_s none (ws ++ tok ++ rest) = .ok tok rest := by
  unfold scan_s
  rw [dropWhile_isspace_field ws tok rest hws (fun c hc => ht c (List.mem_of_mem_head? hc)) hne]
  cases htr : tok ++ rest with
  | nil => simp [hne] at htr
  | cons c s =>
    simp only [window]
    rw [← htr, takeWhile_field tok rest ht hr, List.drop_left]

/-- `%Ns` reads a field of at most `N` characters that white space or the end
of the input follows. -/
theorem scan_s_field_width (w : Nat) (ws tok rest : List Char)
    (hws : ∀ c ∈ ws, isspace c = true) (hne : tok ≠ []) (ht : ∀ c ∈ tok, isspace c = false)
    (hw : tok.length ≤ w) (hr : ends_field rest) :
    scan_s (some w) (ws ++ tok ++ rest) = .ok tok rest := by
  unfold scan_s
  rw [dropWhile_isspace_field ws tok rest hws (fun c hc => ht c (List.mem_of_mem_head? hc)) hne]
  cases htr : tok ++ rest with
  | nil => simp [hne] at htr
  | cons c s =>
    simp only [window]
    rw [← htr, List.take_append_eq_append_take, List.take_of_length_le hw,
      takeWhile_field tok _ ht (ends_field_take rest _ hr), List.drop_left]

/-- `%Ns` reads a group of exactly `N` characters, whatever follows. -/
theorem scan_s_group (w : Nat) (tok rest : List Char) (hne : tok ≠ [])
    (ht : ∀ c ∈ tok, isspace c = false) (hw : tok.length = w) :
    scan_s (some w) (tok ++ rest) = .ok tok rest := by
  unfold scan_s
  have := dropWhile_isspace_field [] tok rest (by simp)
    (fun c hc => ht c (List.mem_of_mem_head? hc)) hne
  simp only [List.nil_append] at this
  rw [this]
  cases htr : tok ++ rest with
  | nil => simp [hne] at htr
  | cons c s =>
    simp only [window]
    rw [← htr, List.take_append_eq_append_take, List.take_of_length_le (Nat.le_of_eq hw)]
    have h0 : w - tok.length = 0 := by omega
    rw [h0, List.take_zero, List.append_nil]
    have : tok.takeWhile (fun x => !isspace x) = tok := by
      rw [List.takeWhile_eq_self_iff]
      intro c hc
      simp [ht c hc]
    rw [this, List.drop_left]

theorem takeWhile_isxdigit_field (tok rest : List Char) (ht : ∀ c ∈ tok, isxdigit c = true)
    (hr : ends_field rest) : (tok ++ rest).takeWhile isxdigit = tok := by
  rw [List.takeWhile_append_of_pos ht]
  cases rest with
  | nil => simp
  | cons b rest =>
    have hb := hr b (by simp)
    have : isxdigit b = false := by
      cases hx : isxdigit b with
      | false => rfl
      | true => rw [isspace_false_of_isxdigit hx] at hb; exact absurd hb (by simp)
    simp [List.takeWhile_cons, this]

/-- What the number conversion reads in a window that starts with a field of
hexadecimal digits: no sign, the digits of the field, and nothing more. -/
theorem scan_number_field (tok rest : List Char) (hne : tok ≠ [])
    (ht : ∀ c ∈ tok, isxdigit c = true) (hr : ends_field rest) :
    (scan_sign (tok ++ rest)).1 = none ∧
      (scan_base (scan_sign (tok ++ rest)).2).1 ++
          (scan_base (scan_sign (tok ++ rest)).2).2.takeWhile isxdigit = tok ∧
      (tok ++ rest).length - ((scan_base (scan_sign (tok ++ rest)).2).2.length -
          ((scan_base (scan_sign (tok ++ rest)).2).2.takeWhile isxdigit).length) =
        tok.length := by
  cases tok with
  | nil => exact absurd rfl hne
  | cons a tok =>
    have ha := ht a (by simp)
    have ht' : ∀ c ∈ tok, isxdigit c = true := fun c hc => ht c (by simp [hc])
    have hsign : ¬ (a = '-' ∨ a = '+') := by
      rintro (rfl | rfl) <;> exact absurd ha (by decide)
    have hsg : scan_sign (a :: tok ++ rest) = (none, a :: tok ++ rest) := by
      simp [scan_sign, hsign]
    rw [hsg]
    refine ⟨rfl, ?_⟩
    simp only
    by_cases h0 : a = '0'
    · have hpre : scan_base (a :: tok ++ rest) = (['0'], tok ++ rest) := by
        cases tok with
        | nil =>
          cases rest with
          | nil => simp [scan_base, h0]
          | cons b rest =>
            have hb := hr b (by simp)
            have hx : ¬ (b = 'x' ∨ b = 'X') := by
              rintro (rfl | rfl) <;> exact absurd hb (by decide)
            simp [scan_base, h0, hx]
        | cons b tok =>
          have hb := ht' b (by simp)
          have hx : ¬ (b = 'x' ∨ b = 'X') := by
            rintro (rfl | rfl) <;> exact absurd hb (by decide)
          simp [scan_base, h0, hx]
      rw [hpre]
      simp only
      rw [takeWhile_isxdigit_field tok rest ht' hr]
      refine ⟨by simp [h0], ?_⟩
      simp only [List.cons_append, List.length_cons, List.length_append]
      omega
    · have hpre : scan_base (a :: tok ++ rest) = ([], a :: tok ++ rest) := by
        simp [scan_base, h0]
      rw [hpre]
      simp only
      have := takeWhile_isxdigit_field (a :: tok) rest ht hr
      simp only [List.cons_append] at this ⊢
      rw [this]
      refine ⟨by simp, ?_⟩
      simp only [List.length_cons, List.length_append]
      omega

/-- `%x`, `%Nx` and `%lX` read a field of hexadecimal digits (at most `N` of
them) that white space or the end of the input follows: they yield the value
`strtoul` gives the digits. -/
theorem scan_x_field (width : Option Nat) (ws tok rest : List Char)
    (hws : ∀ c ∈ ws, isspace c = true) (hne : tok ≠ []) (ht : ∀ c ∈ tok, isxdigit c = true)
    (hw : ∀ w, width = some w → tok.length ≤ w) (hr : ends_field rest) :
    scan_x width (ws ++ tok ++ rest) = .ok (strtoul16 false tok) rest := by
  unfold scan_x
  rw [dropWhile_isspace_field ws tok rest hws
    (fun c hc => isspace_false_of_isxdigit (ht c (List.mem_of_mem_head? hc))) hne]
  obtain ⟨rest', hwin, hr'⟩ : ∃ rest', window width (tok ++ rest) = tok ++ rest' ∧
      ends_field rest' := by
    cases width with
    | none => exact ⟨rest, rfl, hr⟩
    | some w =>
      refine ⟨rest.take (w - tok.length), ?_, ends_field_take rest _ hr⟩
      simp only [window]
      rw [List.take_append_eq_append_take, List.take_of_length_le (hw w rfl)]
  cases htr : tok ++ rest with
  | nil => simp [hne] at htr
  | cons c s =>
    simp only
    rw [← htr, hwin]
    obtain ⟨h1, h2, h3⟩ := scan_number_field tok rest' hne ht hr'
    rw [h1, h2, h3, List.drop_left, if_neg hne]
    rfl

theorem hex_value_foldl_lt (tok : List Char) (ht : ∀ c ∈ tok, isxdigit c = true) :
    ∀ acc, tok.foldl (fun a c => 16 * a + hex_digit_value c) acc < (acc + 1) * 16 ^ tok.length := by
  induction tok with
  | nil => intro acc; simp
  | cons a tok ih =>
    intro acc
    have ha := hex_digit_value_lt (ht a (by simp))
    have := ih (fun c hc => ht c (by simp [hc])) (16 * acc + hex_digit_value a)
    simp only [List.foldl_cons, List.length_cons]
    calc _ < (16 * acc + hex_digit_value a + 1) * 16 ^ tok.length := this
      _ ≤ (16 * (acc + 1)) * 16 ^ tok.length := Nat.mul_le_mul_right _ (by omega)
      _ = (acc + 1) * 16 ^ (tok.length + 1) := by ring

theorem hex_value_lt (tok : List Char) (ht : ∀ c ∈ tok, isxdigit c = true) :
    hex_value tok < 16 ^ tok.length := by
  simpa [hex_value] using hex_value_foldl_lt tok ht 0

theorem hex_value_lt_of_le (tok : List Char) (n : Nat) (ht : ∀ c ∈ tok, isxdigit c = true)
    (hn : tok.length ≤ n) : hex_value tok < 16 ^ n :=
  Nat.lt_of_lt_of_le (hex_value_lt tok ht) (Nat.pow_le_pow_right (by omega) hn)

/-- `strtoul` on up to sixteen hexadecimal digits: their value. -/
theorem strtoul16_hex (tok : List Char) (ht : ∀ c ∈ tok, isxdigit c = true)
    (hn : tok.length ≤ 16) : strtoul16 false tok = hex_value tok := by
  have := hex_value_lt_of_le tok 16 ht hn
  have h64 : (16 : Nat) ^ 16 = 2 ^ 64 := by norm_num
  unfold strtoul16
  simp only [hex_value] at this
  rw [if_neg (by omega)]
  simp [hex_value]

/-! ## Interface enumeration: the names `get_if_readlist` stores -/

theorem get_name_of_line (arr l t : List Char) :
    get_name arr (l ++ '\n' :: t) =
      match get_name_scan (l.dropWhile isblank ++ '\n' :: t) 0 with
      | none => none
      | some (some k) =>
        some ((l.dropWhile isblank ++ '\n' :: t).take k ++ [NUL] ++ arr.drop (k + 1),
          (l.takeWhile isblank).length + k + 1)
      | some none => some ([NUL] ++ arr.drop 1, 0) := by
  have hb : ∀ c ∈ l.takeWhile isblank, isblank c = true := fun c hc =>
    (List.mem_takeWhile_imp hc)
  obtain ⟨c, s, hcs, hc⟩ : ∃ c s, l.dropWhile isblank ++ '\n' :: t = c :: s ∧ isblank c = false := by
    cases hr : l.dropWhile isblank with
    | nil => exact ⟨'\n', t, by simp, by decide⟩
    | cons c r =>
      refine ⟨c, r ++ '\n' :: t, by simp, ?_⟩
      have := List.head_dropWhile_not isblank l (by simp [hr])
      simpa [hr] using this
  have e1 : l ++ '\n' :: t = l.takeWhile isblank ++ c :: s := by
    rw [← hcs, ← List.append_assoc, List.takeWhile_append_dropWhile]
  have hd : (l.takeWhile isblank ++ c :: s).drop (l.takeWhile isblank).length = c :: s := by
    rw [List.drop_left]
  simp only [get_name, e1, skip_whitespace_append _ hb c _ hc, hd, hcs]

/-- A line without a colon in the name-length window leaves the empty name. -/
theorem line_name_no_colon (l : List Char) (hl : no_colon_in_window l) :
    cstr (line_name l) = [] := by
  have hnul : cstr (NUL :: (List.replicate IFNAMSIZ NUL).drop 1) = [] := by decide
  simp only [line_name, get_name_of_line]
  cases hscan : get_name_scan (l.dropWhile isblank ++ ['\n', NUL]) 0 with
  | none => simp [cstr]
  | some r =>
    cases r with
    | none => simpa using hnul
    | some k =>
      exfalso
      obtain ⟨_, hk16, hk⟩ := get_name_scan_some _ 0 k hscan
      simp only [Nat.sub_zero] at hk
      by_cases hlt : k < (l.dropWhile isblank).length
      · rw [List.get?_eq_getElem?, List.getElem?_append_left hlt, ← List.get?_eq_getElem?] at hk
        exact hl k hk16 hk
      · rw [List.get?_eq_getElem?, List.getElem?_append_right (by omega)] at hk
        generalize k - (l.dropWhile isblank).length = j at hk
        match j, hk with
        | 0, hk => simp at hk
        | 1, hk => simp at hk; exact absurd hk (by decide)
        | j + 2, hk => simp at hk

theorem stored_row_no_colon (l row : List Char) (hl : no_colon_in_window l) :
    stored_row l row = List.replicate (IFNAMSIZ - 1) NUL ++ row.drop (IFNAMSIZ - 1) := by
  simp [stored_row, strncpy, line_name_no_colon l hl]

/-- C5, as the code has it. Every device line of a table (two header lines,
then the device lines, every line shorter than the 512-byte buffer; `if_names`
has a row for every device line) gets a row and is counted: the count returned
is the number of device lines. The row of a line without a colon in the
name-length window holds the empty name: `IFNAMSIZ - 1` bytes `NUL`. -/
theorem get_if_readlist_counts_every_line (h1 h2 : List Char) (ls if_names : List (List Char))
    (if_counts : Nat) (h : Handles)
    (hl : ∀ l ∈ h1 :: h2 :: ls, '\n' ∉ l ∧ l.length + 1 < 512)
    (hcap : ls.length ≤ if_names.length) :
    get_if_readlist (some (table_of (h1 :: h2 :: ls))) if_names if_counts h =
        some (EXIT_SUCCESS, List.zipWith stored_row ls if_names ++ if_names.drop ls.length,
          ls.length, h) ∧
      ∀ l ∈ ls, no_colon_in_window l → ∀ row,
        stored_row l row = List.replicate (IFNAMSIZ - 1) NUL ++ row.drop (IFNAMSIZ - 1) :=
  ⟨get_if_readlist_table h1 h2 ls if_names if_counts h hl hcap,
    fun l _ hnc row => stored_row_no_colon l row hnc⟩

/-- Witness of C5 as amended: the line `eth0 1 2` between two lines with a
colon. -/
theorem get_if_readlist_counts_every_line_witness :
    get_if_readlist
        (some (table_of ["Inter-|".toList, " face |".toList, "    lo: 1 2".toList,
          "  eth0 1 2".toList, " wlan0: 3".toList]))
        (List.replicate 10 (List.replicate 16 'x')) 0 [0, 1, 2] =
      some (EXIT_SUCCESS,
        List.zipWith stored_row ["    lo: 1 2".toList, "  eth0 1 2".toList, " wlan0: 3".toList]
          (List.replicate 10 (List.replicate 16 'x')) ++
          (List.replicate 10 (List.replicate 16 'x')).drop 3, 3, [0, 1, 2]) ∧
      stored_row "  eth0 1 2".toList (List.replicate 16 'x') =
        List.replicate 15 NUL ++ ['x'] := by
  have hw := get_if_readlist_counts_every_line "Inter-|".toList " face |".toList
    ["    lo: 1 2".toList, "  eth0 1 2".toList, " wlan0: 3".toList]
    (List.replicate 10 (List.replicate 16 'x')) 0 [0, 1, 2] (by decide) (by decide)
  refine ⟨hw.1, ?_⟩
  have := hw.2 "  eth0 1 2".toList (by decide) (by unfold no_colon_in_window; decide)
    (List.replicate 16 'x')
  rw [this]
  decide

/-- Counterexample to C5 as stated: the device line `eth0 1 2 3` has no colon
at all, and `get_if_readlist` counts it (the count goes from the caller's 7 to
1, not 0) and overwrites the first row of `if_names` with the empty name. -/
theorem get_if_readlist_counts_colonless_line :
    no_colon_in_window "eth0 1 2 3".toList ∧
      get_if_readlist (some "Inter-|\n face |\neth0 1 2 3\n".toList)
          [List.replicate 16 'x'] 7 [0, 1, 2] =
        some (EXIT_SUCCESS, [List.replicate 15 NUL ++ ['x']], 1, [0, 1, 2]) := by
  refine ⟨by unfold no_colon_in_window; decide, by decide!⟩

/-! ## IPv4 default gateway -/

theorem vfscanf_x_x (w1 w2 : Option Nat) (b1 b2 : Nat) (inp : List Char) :
    (∃ v1 v2 rest, vfscanf [.space, .x w1 b1, .space, .x w2 b2] inp =
        some ⟨[.num v1, .num v2], rest, false⟩) ∨
      ∃ r, vfscanf [.space, .x w1 b1, .space, .x w2 b2] inp = some r ∧ r.vals.length < 2 := by
  rw [vfscanf_space]
  cases h1 : scan_x w1 (inp.dropWhile isspace) with
  | input_failure => right; exact ⟨_, vfscanf_x_input_failure _ _ h1, by simp⟩
  | matching_failure rest => right; exact ⟨_, vfscanf_x_matching_failure _ _ h1, by simp⟩
  | ok v1 rest1 =>
    rw [vfscanf_x_ok _ _ h1, vfscanf_space]
    cases h2 : scan_x w2 (rest1.dropWhile isspace) with
    | input_failure =>
      right
      rw [vfscanf_x_input_failure _ _ h2]
      exact ⟨_, rfl, by simp⟩
    | matching_failure rest =>
      right
      rw [vfscanf_x_matching_failure _ _ h2]
      exact ⟨_, rfl, by simp⟩
    | ok v2 rest2 =>
      left
      rw [vfscanf_x_ok _ _ h2, vfscanf_nil]
      exact ⟨_, _, _, rfl⟩

/-- The outcomes of `sscanf(buf, "%s\t%lX\t%lX", ...)`: an overflow of `iface`,
three stored values, or fewer. -/
theorem vfscanf_route_cases (inp : List Char) :
    (vfscanf route_format inp = none ∧
        ∃ tok rest, scan_s none inp = .ok tok rest ∧ ¬ tok.length < IFNAMSIZ) ∨
      (∃ iface dest gate rest eof, vfscanf route_format inp =
        some ⟨[.str iface, .num dest, .num gate], rest, eof⟩) ∨
      ∃ r, vfscanf route_format inp = some r ∧ r.vals.length < 3 := by
  unfold route_format
  cases h0 : scan_s none inp with
  | input_failure => right; right; exact ⟨_, vfscanf_s_input_failure _ _ h0, by simp⟩
  | matching_failure rest => exact absurd h0 (scan_s_ne_matching_failure _ _ _)
  | ok tok rest =>
    rw [vfscanf_s_ok _ _ h0]
    by_cases hlen : tok.length < IFNAMSIZ
    · simp only [if_pos hlen]
      rcases vfscanf_x_x none none 64 64 rest with ⟨v1, v2, r2, h⟩ | ⟨r, h, hr⟩
      · right; left
        exact ⟨tok, v1, v2, r2, false, by rw [h]; rfl⟩
      · right; right
        refine ⟨_, by rw [h]; rfl, ?_⟩
        simp only [List.length_cons]
        omega
    · left
      exact ⟨by simp [if_neg hlen], tok, rest, rfl, hlen⟩

theorem first_field_lt (l : List Char) (hf : (first_field l).length < IFNAMSIZ) :
    vfscanf route_format (cstr (l ++ ['\n'])) ≠ none := by
  intro hnone
  rcases vfscanf_route_cases (cstr (l ++ ['\n'])) with ⟨_, tok, rest, hs, hlen⟩ | ⟨_, _, _, _, _, h⟩ |
    ⟨r, h, _⟩
  · simp only [first_field, hs] at hf
    exact hlen hf
  · rw [h] at hnone; simp at hnone
  · rw [h] at hnone; simp at hnone

/-- One turn of the loop of `get_if_gateway` on a row read by `fgets`. -/
theorem get_if_gateway_loop_cons (if_name l gateway : List Char) (ls : List (List Char))
    (hf : (first_field l).length < IFNAMSIZ) :
    get_if_gateway_loop if_name ((l ++ ['\n']) :: ls) gateway =
      if is_default_row if_name l then
        some (strncpy gateway (inet_ntoa (in_addr_of_word (row_gateway l))) (INET_ADDRSTRLEN - 1))
      else get_if_gateway_loop if_name ls gateway := by
  rcases vfscanf_route_cases (cstr (l ++ ['\n'])) with ⟨hnone, _⟩ | ⟨iface, dest, gate, rest, eof, h⟩ |
    ⟨r, h, hr⟩
  · exact absurd hnone (first_field_lt l hf)
  · simp only [get_if_gateway_loop, is_default_row, row_gateway, route_fields, h]
    by_cases hd : dest = 0
    · by_cases hn : streq if_name iface = true
      · simp [hd, hn]
      · simp [hd, hn]
    · simp [hd]
  · obtain ⟨vals, rest, eof⟩ := r
    simp only [get_if_gateway_loop, is_default_row, route_fields, h]
    match vals, hr with
    | [], _ => simp
    | [_], _ => simp
    | [_, _], _ => simp


theorem get_if_gateway_loop_rows (if_name gateway : List Char) (rows : List (List Char))
    (hf : ∀ l ∈ rows, (first_field l).length < IFNAMSIZ) :
    get_if_gateway_loop if_name (rows.map (fun l => l ++ ['\n'])) gateway =
      some (match rows.find? (is_default_row if_name) with
        | some l =>
          strncpy gateway (inet_ntoa (in_addr_of_word (row_gateway l))) (INET_ADDRSTRLEN - 1)
        | none => gateway) := by
  induction rows with
  | nil => simp [get_if_gateway_loop]
  | cons l ls ih =>
    rw [List.map_cons, get_if_gateway_loop_cons if_name l gateway _ (hf l (by simp))]
    by_cases hq : is_default_row if_name l = true
    · simp [hq, List.find?_cons]
    · have hq' : is_default_row if_name l = false := by simpa using hq
      rw [ih (fun l' hl' => hf l' (by simp [hl']))]
      simp [hq', List.find?_cons]

/-- The result of `get_if_gateway` on a table of a header line and rows, every
line fitting the 128-byte buffer with its newline, every first field fitting
`iface`. -/
theorem get_if_gateway_table (header : List Char) (rows : List (List Char))
    (if_name gateway : List Char) (h : Handles)
    (hl : ∀ l ∈ header :: rows, '\n' ∉ l ∧ l.length + 1 < 128)
    (hf : ∀ l ∈ rows, (first_field l).length < IFNAMSIZ) :
    get_if_gateway (some (table_of (header :: rows))) if_name gateway h =
      some (EXIT_SUCCESS,
        (match rows.find? (is_default_row if_name) with
          | some l =>
            strncpy gateway (inet_ntoa (in_addr_of_word (row_gateway l))) (INET_ADDRSTRLEN - 1)
          | none => gateway),
        lowest_free h :: h) := by
  simp only [get_if_gateway, fgets_all_table 128 _ hl, List.map_cons, List.drop_succ_cons,
    List.drop_zero, get_if_gateway_loop_rows if_name gateway rows hf]
  rfl

/-! ## `inet_pton` on a regrouped address column -/

theorem pton6_group (a b c d : Char) (rest curtok : List Char) (tp : List Nat) (cp : Option Nat)
    (ha : isxdigit a = true) (hb : isxdigit b = true) (hc : isxdigit c = true)
    (hd : isxdigit d = true) (hr : rest ≠ []) (htp : tp.length + 2 ≤ 16) :
    inet_pton6_loop (a :: b :: c :: d :: ':' :: rest) curtok ⟨tp, cp, 0, 0⟩ =
      inet_pton6_loop rest rest
        ⟨tp ++ [16 * hex_digit_value a + hex_digit_value b,
          16 * hex_digit_value c + hex_digit_value d], cp, 0, 0⟩ := by
  have va := hex_digit_value_lt ha
  have vb := hex_digit_value_lt hb
  have vc := hex_digit_value_lt hc
  have vd := hex_digit_value_lt hd
  have hcol : isxdigit ':' = false := by decide
  have h1 : ¬ (0 * 16 + hex_digit_value a > 0xffff) := by omega
  have h2 : ¬ ((0 * 16 + hex_digit_value a) * 16 + hex_digit_value b > 0xffff) := by omega
  have h3 : ¬ (((0 * 16 + hex_digit_value a) * 16 + hex_digit_value b) * 16 +
      hex_digit_value c > 0xffff) := by omega
  have h4 : ¬ ((((0 * 16 + hex_digit_value a) * 16 + hex_digit_value b) * 16 +
      hex_digit_value c) * 16 + hex_digit_value d > 0xffff) := by omega
  have h5 : ¬ (tp.length + 2 > 16) := by omega
  simp only [inet_pton6_loop, ha, hb, hc, hd, hcol, if_true, if_false, h1, h2, h3, h4, h5, hr,
    Nat.zero_add, Nat.reduceAdd, Nat.reduceEqDiff, Bool.false_eq_true]
  have e1 : ((((0 * 16 + hex_digit_value a) * 16 + hex_digit_value b) * 16 +
      hex_digit_value c) * 16 + hex_digit_value d) / 256 % 256 =
      16 * hex_digit_value a + hex_digit_value b := by omega
  have e2 : ((((0 * 16 + hex_digit_value a) * 16 + hex_digit_value b) * 16 +
      hex_digit_value c) * 16 + hex_digit_value d) % 256 =
      16 * hex_digit_value c + hex_digit_value d := by omega
  rw [e1, e2]

theorem pton6_last_group (a b c d : Char) (curtok : List Char) (tp : List Nat) (cp : Option Nat)
    (ha : isxdigit a = true) (hb : isxdigit b = true) (hc : isxdigit c = true)
    (hd : isxdigit d = true) :
    inet_pton6_loop [a, b, c, d] curtok ⟨tp, cp, 0, 0⟩ =
      some ⟨tp, cp, 4, (((0 * 16 + hex_digit_value a) * 16 + hex_digit_value b) * 16 +
        hex_digit_value c) * 16 + hex_digit_value d⟩ := by
  have va := hex_digit_value_lt ha
  have vb := hex_digit_value_lt hb
  have vc := hex_digit_value_lt hc
  have vd := hex_digit_value_lt hd
  have h1 : ¬ (0 * 16 + hex_digit_value a > 0xffff) := by omega
  have h2 : ¬ ((0 * 16 + hex_digit_value a) * 16 + hex_digit_value b > 0xffff) := by omega
  have h3 : ¬ (((0 * 16 + hex_digit_value a) * 16 + hex_digit_value b) * 16 +
      hex_digit_value c > 0xffff) := by omega
  have h4 : ¬ ((((0 * 16 + hex_digit_value a) * 16 + hex_digit_value b) * 16 +
      hex_digit_value c) * 16 + hex_digit_value d > 0xffff) := by omega
  simp only [inet_pton6_loop, ha, hb, hc, hd, if_true, if_false, h1, h2, h3, h4,
    Nat.zero_add, Nat.reduceAdd, Nat.reduceEqDiff]

theorem exists_cons_of_length {α : Type} {n : Nat} {l : List α} (h : l.length = n + 1) :
    ∃ a t, l = a :: t ∧ t.length = n := by
  cases l with
  | nil => simp at h
  | cons a t => exact ⟨a, t, rfl, by simpa using h⟩

/-- The text of eight groups of four hexadecimal digits, joined by colons, is
accepted by `inet_pton`: the address has the bytes the 32 digits denote. -/
theorem inet_pton6_grouped (tok : List Char) (ht : is_addr6 tok) :
    inet_pton6 (regroup tok) = some (hex_bytes tok) := by
  obtain ⟨hlen, hx⟩ := ht
  obtain ⟨c0, t0, rfl, hl0⟩ := exists_cons_of_length hlen
  obtain ⟨c1, t1, rfl, hl1⟩ := exists_cons_of_length hl0
  obtain ⟨c2, t2, rfl, hl2⟩ := exists_cons_of_length hl1
  obtain ⟨c3, t3, rfl, hl3⟩ := exists_cons_of_length hl2
  obtain ⟨c4, t4, rfl, hl4⟩ := exists_cons_of_length hl3
  obtain ⟨c5, t5, rfl, hl5⟩ := exists_cons_of_length hl4
  obtain ⟨c6, t6, rfl, hl6⟩ := exists_cons_of_length hl5
  obtain ⟨c7, t7, rfl, hl7⟩ := exists_cons_of_length hl6
  obtain ⟨c8, t8, rfl, hl8⟩ := exists_cons_of_length hl7
  obtain ⟨c9, t9, rfl, hl9⟩ := exists_cons_of_length hl8
  obtain ⟨c10, t10, rfl, hl10⟩ := exists_cons_of_length hl9
  obtain ⟨c11, t11, rfl, hl11⟩ := exists_cons_of_length hl10
  obtain ⟨c12, t12, rfl, hl12⟩ := exists_cons_of_length hl11
  obtain ⟨c13, t13, rfl, hl13⟩ := exists_cons_of_length hl12
  obtain ⟨c14, t14, rfl, hl14⟩ := exists_cons_of_length hl13
  obtain ⟨c15, t15, rfl, hl15⟩ := exists_cons_of_length hl14
  obtain ⟨c16, t16, rfl, hl16⟩ := exists_cons_of_length hl15
  obtain ⟨c17, t17, rfl, hl17⟩ := exists_cons_of_length hl16
  obtain ⟨c18, t18, rfl, hl18⟩ := exists_cons_of_length hl17
  obtain ⟨c19, t19, rfl, hl19⟩ := exists_cons_of_length hl18
  obtain ⟨c20, t20, rfl, hl20⟩ := exists_cons_of_length hl19
  obtain ⟨c21, t21, rfl, hl21⟩ := exists_cons_of_length hl20
  obtain ⟨c22, t22, rfl, hl22⟩ := exists_cons_of_length hl21
  obtain ⟨c23, t23, rfl, hl23⟩ := exists_cons_of_length hl22
  obtain ⟨c24, t24, rfl, hl24⟩ := exists_cons_of_length hl23
  obtain ⟨c25, t25, rfl, hl25⟩ := exists_cons_of_length hl24
  obtain ⟨c26, t26, rfl, hl26⟩ := exists_cons_of_length hl25
  obtain ⟨c27, t27, rfl, hl27⟩ := exists_cons_of_length hl26
  obtain ⟨c28, t28, rfl, hl28⟩ := exists_cons_of_length hl27
  obtain ⟨c29, t29, rfl, hl29⟩ := exists_cons_of_length hl28
  obtain ⟨c30, t30, rfl, hl30⟩ := exists_cons_of_length hl29
  obtain ⟨c31, t31, rfl, hl31⟩ := exists_cons_of_length hl30
  have ht : t31 = [] := List.length_eq_zero.1 hl31
  subst ht
  have hre : regroup [c0, c1, c2, c3, c4, c5, c6, c7, c8, c9, c10, c11, c12, c13, c14, c15,
      c16, c17, c18, c19, c20, c21, c22, c23, c24, c25, c26, c27, c28, c29, c30, c31] =
      c0 :: c1 :: c2 :: c3 :: ':' :: c4 :: c5 :: c6 :: c7 :: ':' :: c8 :: c9 :: c10 :: c11 :: ':' ::
      c12 :: c13 :: c14 :: c15 :: ':' :: c16 :: c17 :: c18 :: c19 :: ':' :: c20 :: c21 :: c22 ::
      c23 :: ':' :: c24 :: c25 :: c26 :: c27 :: ':' :: [c28, c29, c30, c31] := rfl
  rw [hre]
  have h0 : c0 ≠ ':' := by
    rintro rfl
    exact absurd (hx ':' (by simp)) (by decide)
  simp only [inet_pton6, pton6_start, if_neg h0]
  rw [pton6_group _ _ _ _ _ _ _ _ (hx _ (by simp)) (hx _ (by simp)) (hx _ (by simp))
    (hx _ (by simp)) (by simp) (by simp)]
  rw [pton6_group _ _ _ _ _ _ _ _ (hx _ (by simp)) (hx _ (by simp)) (hx _ (by simp))
    (hx _ (by simp)) (by simp) (by simp)]
  rw [pton6_group _ _ _ _ _ _ _ _ (hx _ (by simp)) (hx _ (by simp)) (hx _ (by simp))
    (hx _ (by simp)) (by simp) (by simp)]
  rw [pton6_group _ _ _ _ _ _ _ _ (hx _ (by simp)) (hx _ (by simp)) (hx _ (by simp))
    (hx _ (by simp)) (by simp) (by simp)]
  rw [pton6_group _ _ _ _ _ _ _ _ (hx _ (by simp)) (hx _ (by simp)) (hx _ (by simp))
    (hx _ (by simp)) (by simp) (by simp)]
  rw [pton6_group _ _ _ _ _ _ _ _ (hx _ (by simp)) (hx _ (by simp)) (hx _ (by simp))
    (hx _ (by simp)) (by simp) (by simp)]
  rw [pton6_group _ _ _ _ _ _ _ _ (hx _ (by simp)) (hx _ (by simp)) (hx _ (by simp))
    (hx _ (by simp)) (by simp) (by simp)]
  rw [pton6_last_group _ _ _ _ _ _ _ (hx _ (by simp)) (hx _ (by simp)) (hx _ (by simp))
    (hx _ (by simp))]
  have v28 := hex_digit_value_lt (hx c28 (by simp))
  have v29 := hex_digit_value_lt (hx c29 (by simp))
  have v30 := hex_digit_value_lt (hx c30 (by simp))
  have v31 := hex_digit_value_lt (hx c31 (by simp))
  simp only [hex_bytes, Nat.zero_mul, Nat.zero_add]
  simp
  constructor <;> omega

/-! ## `inet_ntop`: the text fits and holds no `NUL` -/

theorem fmt_x_ne_nul (n : Nat) : ∀ c ∈ fmt_x n, c ≠ NUL := toDigits_ne_nul 16 n

theorem ntop6_tail_ne_nul (best : Option ZeroRun) : ∀ c ∈ ntop6_tail best, c ≠ NUL := by
  intro c hc
  unfold ntop6_tail at hc
  split at hc
  · split at hc
    · simp only [List.mem_singleton] at hc
      subst hc
      decide
    · simp at hc
  · simp at hc

theorem ntop6_tail_length (best : Option ZeroRun) : (ntop6_tail best).length ≤ 1 := by
  unfold ntop6_tail
  split
  · split <;> simp
  · simp

theorem ntop6_emit_ne_nul (src words : List Nat) (best : Option ZeroRun) (is : List Nat) :
    ∀ c ∈ ntop6_emit src words best is, c ≠ NUL := by
  induction is with
  | nil => exact ntop6_tail_ne_nul best
  | cons i is ih =>
    intro c hc
    have hcolon : (':' : Char) ≠ NUL := by decide
    unfold ntop6_emit at hc
    split at hc
    · split at hc
      · rcases List.mem_cons.1 hc with h | h
        · exact h ▸ hcolon
        · exact ih c h
      · exact ih c hc
    · rcases List.mem_append.1 hc with h | h
      · split at h
        · simp only [List.mem_singleton] at h
          exact h ▸ hcolon
        · simp at h
      · split at h
        · rcases List.mem_append.1 h with h | h
          · exact inet_ntoa_ne_nul _ c h
          · exact ntop6_tail_ne_nul best c h
        · rcases List.mem_append.1 h with h | h
          · exact fmt_x_ne_nul _ c h
          · exact ih c h

/-- The text of `inet_ntop6` holds no `NUL`. -/
theorem inet_ntop6_text_ne_nul (src : List Nat) : ∀ c ∈ inet_ntop6_text src, c ≠ NUL :=
  ntop6_emit_ne_nul _ _ _ _

theorem ntop6_words_getD_lt (src : List Nat) (i : Nat) : (ntop6_words src).getD i 0 < 65536 := by
  unfold ntop6_words
  by_cases hi : i < 8
  · rw [List.getD_eq_getElem _ _ (by simpa using hi)]
    simp only [List.getElem_map, List.getElem_range]
    have h1 := Nat.mod_lt (src.getD (2 * i) 0) (show 256 > 0 by omega)
    have h2 := Nat.mod_lt (src.getD (2 * i + 1) 0) (show 256 > 0 by omega)
    omega
  · rw [List.getD_eq_default _ _ (by simpa using hi)]
    omega

theorem ntop6_emit_length_plain (src words : List Nat) (best : Option ZeroRun)
    (hw : ∀ i, words.getD i 0 < 65536) (is : List Nat)
    (hv : encapsulated_v4 best words = false ∨ 6 ∉ is) :
    (ntop6_emit src words best is).length ≤ 5 * is.length + 1 := by
  induction is with
  | nil => simpa [ntop6_emit] using ntop6_tail_length best
  | cons i is ih =>
    have hv' : encapsulated_v4 best words = false ∨ 6 ∉ is := by
      rcases hv with h | h
      · exact Or.inl h
      · exact Or.inr (fun hm => h (by simp [hm]))
    have hrec := ih hv'
    have hx := fmt_x_length_le _ (hw i)
    have hnot : ¬ (i = 6 ∧ encapsulated_v4 best words = true) := by
      rintro ⟨rfl, he⟩
      rcases hv with h | h
      · rw [h] at he; exact absurd he (by simp)
      · exact h (by simp)
    unfold ntop6_emit
    split
    · split
      · simp only [List.length_cons]; omega
      · simp only [List.length_cons]; omega
    · split <;> simp only [List.length_append, List.length_cons, List.length_nil] <;> omega

theorem ntop6_emit_length (src : List Nat) (best : Option ZeroRun) :
    (ntop6_emit src (ntop6_words src) best (List.range 8)).length ≤ 45 := by
  have hw := ntop6_words_getD_lt src
  cases he : encapsulated_v4 best (ntop6_words src) with
  | false =>
    have := ntop6_emit_length_plain src _ best hw (List.range 8) (Or.inl he)
    simp only [List.length_range] at this
    omega
  | true =>
    cases best with
    | none => simp [encapsulated_v4] at he
    | some b =>
      obtain ⟨base, len⟩ := b
      simp only [encapsulated_v4, Bool.and_eq_true, Bool.or_eq_true, decide_eq_true_eq] at he
      obtain ⟨hb, hlen⟩ := he
      subst hb
      have hn := inet_ntoa_length_le (src.drop 12)
      have hx := fmt_x_length_le _ (hw 5)
      have hr : List.range 8 = [0, 1, 2, 3, 4, 5, 6, 7] := by decide
      rw [hr]
      rcases hlen with rfl | ⟨rfl, h5⟩
      · simp [-List.getD_eq_getElem?_getD, ntop6_emit, in_run, run_base, encapsulated_v4, ntop6_tail]
        omega
      · have hf : (fmt_x 65535).length = 4 := by decide
        simp [-List.getD_eq_getElem?_getD, ntop6_emit, in_run, run_base, encapsulated_v4,
          ntop6_tail, h5]
        omega

theorem inet_ntop6_text_length (src : List Nat) : (inet_ntop6_text src).length ≤ 45 :=
  ntop6_emit_length src _

/-- `inet_ntop(AF_INET6, ...)` into a buffer of `INET6_ADDRSTRLEN` bytes never
fails. -/
theorem inet_ntop6_some (src : List Nat) :
    inet_ntop6 src INET6_ADDRSTRLEN = some (inet_ntop6_text src) := by
  have := inet_ntop6_text_length src
  unfold inet_ntop6 INET6_ADDRSTRLEN
  rw [if_neg (by omega)]

/-! ## `fscanf` on well-formed rows -/

theorem scan_s_dropWhile (w : Option Nat) (inp : List Char) :
    scan_s w (inp.dropWhile isspace) = scan_s w inp := by
  unfold scan_s
  rw [List.dropWhile_idempotent]

theorem scan_x_dropWhile (w : Option Nat) (inp : List Char) :
    scan_x w (inp.dropWhile isspace) = scan_x w inp := by
  unfold scan_x
  rw [List.dropWhile_idempotent]

theorem ends_field_cons_blank (rest : List Char) : ends_field (' ' :: rest) := by
  intro c hc
  simp only [List.head?_cons, Option.mem_def, Option.some.injEq] at hc
  subst hc
  decide

theorem ends_field_cons_nl (rest : List Char) : ends_field ('\n' :: rest) := by
  intro c hc
  simp only [List.head?_cons, Option.mem_def, Option.some.injEq] at hc
  subst hc
  decide

theorem ends_field_nil : ends_field [] := by
  intro c hc
  simp at hc

/-- White space in the format, then `%x`, on a blank and a column of
hexadecimal digits that white space follows. -/
theorem vfscanf_sp_x (width : Option Nat) (bits n : Nat) (ds : List Directive)
    (tok rest : List Char) (ht : is_hex n tok)
    (hn : n ≤ 16) (hb : 16 ^ n ≤ 2 ^ bits) (hw : ∀ w, width = some w → n ≤ w)
    (hr : ends_field rest) :
    vfscanf (.space :: .x width bits :: ds) (' ' :: (tok ++ rest)) =
      (vfscanf ds rest).map (fun r => ⟨Val.num (hex_value tok) :: r.vals, r.rest, r.eof⟩) := by
  obtain ⟨hne, hlen, hx⟩ := ht
  have hscan : scan_x width (' ' :: (tok ++ rest)) = .ok (hex_value tok) rest := by
    have := scan_x_field width [' '] tok rest (by decide) hne hx
      (fun w hw' => Nat.le_trans hlen (hw w hw')) hr
    rw [strtoul16_hex tok hx (by omega)] at this
    simpa using this
  have hmod : hex_value tok % 2 ^ bits = hex_value tok :=
    Nat.mod_eq_of_lt (Nat.lt_of_lt_of_le (hex_value_lt_of_le tok n hx hlen) hb)
  rw [vfscanf_space, vfscanf_x_ok _ _ (by rw [scan_x_dropWhile]; exact hscan), hmod]

/-- `%s` on a column that white space or the end of the input follows, behind
any white space. -/
theorem vfscanf_s_lead (width : Option Nat) (size : Nat) (ds : List Directive)
    (lead tok rest : List Char) (hws : ∀ c ∈ lead, isspace c = true) (hne : tok ≠ [])
    (ht : ∀ c ∈ tok, isspace c = false) (hsize : tok.length < size)
    (hw : ∀ w, width = some w → tok.length ≤ w) (hr : ends_field rest) :
    vfscanf (.s width size :: ds) (lead ++ (tok ++ rest)) =
      (vfscanf ds rest).map (fun r => ⟨Val.str tok :: r.vals, r.rest, r.eof⟩) := by
  have hscan : scan_s width (lead ++ (tok ++ rest)) = .ok tok rest := by
    rw [← List.append_assoc]
    cases width with
    | none => exact scan_s_field lead tok rest hws hne ht hr
    | some w => exact scan_s_field_width w lead tok rest hws hne ht (hw w rfl) hr
  rw [vfscanf_s_ok _ _ hscan, if_pos hsize]

/-- White space in the format, then `%s`, on a blank, padding and a column. -/
theorem vfscanf_sp_s (width : Option Nat) (size : Nat) (ds : List Directive)
    (pad tok rest : List Char) (hpad : ∀ c ∈ pad, isblank c = true) (hne : tok ≠ [])
    (ht : ∀ c ∈ tok, isspace c = false) (hsize : tok.length < size)
    (hw : ∀ w, width = some w → tok.length ≤ w) (hr : ends_field rest) :
    vfscanf (.space :: .s width size :: ds) (' ' :: (pad ++ (tok ++ rest))) =
      (vfscanf ds rest).map (fun r => ⟨Val.str tok :: r.vals, r.rest, r.eof⟩) := by
  have hws : ∀ c ∈ ' ' :: pad, isspace c = true := by
    intro c hc
    rcases List.mem_cons.1 hc with rfl | h
    · decide
    · exact isspace_of_isblank (hpad c h)
  have hscan : scan_s width (' ' :: (pad ++ (tok ++ rest))) = .ok tok rest := by
    have e : ' ' :: (pad ++ (tok ++ rest)) = (' ' :: pad) ++ tok ++ rest := by simp
    rw [e]
    cases width with
    | none => exact scan_s_field _ tok rest hws hne ht hr
    | some w => exact scan_s_field_width w _ tok rest hws hne ht (hw w rfl) hr
  rw [vfscanf_space, vfscanf_s_ok _ _ (by rw [scan_s_dropWhile]; exact hscan), if_pos hsize]

/-- White space in the format, then `%s`, on a blank and a column. -/
theorem vfscanf_sp_s0 (width : Option Nat) (size : Nat) (ds : List Directive)
    (tok rest : List Char) (hne : tok ≠ [])
    (ht : ∀ c ∈ tok, isspace c = false) (hsize : tok.length < size)
    (hw : ∀ w, width = some w → tok.length ≤ w) (hr : ends_field rest) :
    vfscanf (.space :: .s width size :: ds) (' ' :: (tok ++ rest)) =
      (vfscanf ds rest).map (fun r => ⟨Val.str tok :: r.vals, r.rest, r.eof⟩) := by
  have := vfscanf_sp_s width size ds [] tok rest (by simp) hne ht hsize hw hr
  simpa using this

theorem is_addr6_word {tok : List Char} (h : is_addr6 tok) :
    tok ≠ [] ∧ (∀ c ∈ tok, isspace c = false) ∧ tok.length = 32 := by
  refine ⟨?_, fun c hc => isspace_false_of_isxdigit (h.2 c hc), h.1⟩
  intro he
  have := h.1
  rw [he] at this
  simp at this

/-- One `fscanf` call of `get_if_ipv6_default_gateway` on a well-formed row
converts its ten columns and stops in front of the newline. -/
theorem vfscanf_route6_row (r : Route6Row) (hr : r.ok) (lead rest : List Char)
    (hlead : ∀ c ∈ lead, isspace c = true) (hrest : ends_field rest) :
    vfscanf ipv6_route_format (lead ++ (r.text ++ rest)) = some ⟨r.vals, rest, false⟩ := by
  obtain ⟨hdst, hdp, hsrc, hsp, hgw, hm, hrc, huc, hfl, hpad, hdev, hdl⟩ := hr
  obtain ⟨d1, d2, d3⟩ := is_addr6_word hdst
  obtain ⟨s1, s2, s3⟩ := is_addr6_word hsrc
  obtain ⟨g1, g2, g3⟩ := is_addr6_word hgw
  have h8 : ∀ w, (none : Option Nat) = some w → 8 ≤ w := by intro w hw; cases hw
  have hp : (16 : Nat) ^ 8 ≤ 2 ^ 32 := by norm_num
  simp only [ipv6_route_format, Route6Row.text, List.append_assoc, List.cons_append]
  rw [vfscanf_s_lead none _ _ lead r.dst _ hlead d1 d2 (by rw [d3]; decide)
    (by intro w hw; cases hw) (ends_field_cons_blank _)]
  rw [vfscanf_sp_x none 32 8 _ r.dst_prefix _ hdp (by omega) hp h8 (ends_field_cons_blank _)]
  rw [vfscanf_sp_s0 none _ _ r.src _ s1 s2 (by rw [s3]; decide)
    (by intro w hw; cases hw) (ends_field_cons_blank _)]
  rw [vfscanf_sp_x none 32 8 _ r.src_prefix _ hsp (by omega) hp h8 (ends_field_cons_blank _)]
  rw [vfscanf_sp_s0 none _ _ r.gw _ g1 g2 (by rw [g3]; decide)
    (by intro w hw; cases hw) (ends_field_cons_blank _)]
  rw [vfscanf_sp_x none 32 8 _ r.metric _ hm (by omega) hp h8 (ends_field_cons_blank _)]
  rw [vfscanf_sp_x none 32 8 _ r.ref_cnt _ hrc (by omega) hp h8 (ends_field_cons_blank _)]
  rw [vfscanf_sp_x none 32 8 _ r.use_cnt _ huc (by omega) hp h8 (ends_field_cons_blank _)]
  rw [vfscanf_sp_x none 32 8 _ r.flags _ hfl (by omega) hp h8 (ends_field_cons_blank _)]
  rw [vfscanf_sp_s none _ _ r.pad r.devname rest hpad hdev.1 (fun c hc => (hdev.2 c hc).1) hdl
    (by intro w hw; cases hw) hrest]
  rw [vfscanf_nil]
  rfl

/-! ## Fields of a row of the IPv4 routing table -/

theorem cstr_append_of_ne_nul (a b : List Char) (ha : ∀ c ∈ a, c ≠ NUL) :
    cstr (a ++ b) = a ++ cstr b := by
  unfold cstr
  rw [List.takeWhile_append_of_pos (fun c hc => by simpa using ha c hc)]

theorem ne_nul_of_isblank {c : Char} (h : isblank c = true) : c ≠ NUL := by
  rintro rfl
  exact absurd h (by decide)

theorem ends_field_gap (gap rest : List Char) (hg : is_gap gap) : ends_field (gap ++ rest) := by
  obtain ⟨hne, hb⟩ := hg
  cases gap with
  | nil => exact absurd rfl hne
  | cons a gap =>
    intro c hc
    simp only [List.cons_append, List.head?_cons, Option.mem_def, Option.some.injEq] at hc
    subst hc
    exact isspace_of_isblank (hb _ (by simp))

theorem ends_field_cstr (tail : List Char) (ht : ends_field tail) :
    ends_field (cstr (tail ++ ['\n'])) := by
  cases tail with
  | nil => exact ends_field_cons_nl []
  | cons a tail =>
    have ha := ht a (by simp)
    have hn : a ≠ NUL := by
      rintro rfl
      exact absurd ha (by decide)
    intro c hc
    simp only [cstr, List.cons_append, List.takeWhile_cons] at hc
    have hb : (a != NUL) = true := by simpa using hn
    rw [hb] at hc
    simp only [if_true, List.head?_cons, Option.mem_def, Option.some.injEq] at hc
    subst hc
    exact ha

/-- White space in the format, then `%x` or `%lX`, on a gap and a column of
hexadecimal digits that white space follows. -/
theorem vfscanf_gap_x (width : Option Nat) (bits n : Nat) (ds : List Directive)
    (gap tok rest : List Char) (hg : ∀ c ∈ gap, isspace c = true) (ht : is_hex n tok)
    (hn : n ≤ 16) (hb : 16 ^ n ≤ 2 ^ bits) (hw : ∀ w, width = some w → n ≤ w)
    (hr : ends_field rest) :
    vfscanf (.space :: .x width bits :: ds) (gap ++ (tok ++ rest)) =
      (vfscanf ds rest).map (fun r => ⟨Val.num (hex_value tok) :: r.vals, r.rest, r.eof⟩) := by
  obtain ⟨hne, hlen, hx⟩ := ht
  have hscan : scan_x width (gap ++ (tok ++ rest)) = .ok (hex_value tok) rest := by
    have := scan_x_field width gap tok rest hg hne hx
      (fun w hw' => Nat.le_trans hlen (hw w hw')) hr
    rw [strtoul16_hex tok hx (by omega)] at this
    simpa using this
  have hmod : hex_value tok % 2 ^ bits = hex_value tok :=
    Nat.mod_eq_of_lt (Nat.lt_of_lt_of_le (hex_value_lt_of_le tok n hx hlen) hb)
  rw [vfscanf_space, vfscanf_x_ok _ _ (by rw [scan_x_dropWhile]; exact hscan), hmod]

/-- The three leading fields of a row `NAME gap DEST gap GATE ...` of the
routing table: the name and the values of the two hexadecimal words. -/
theorem route_fields_row (name gap1 dest gap2 gate tail : List Char)
    (hname : is_word name) (hlen : name.length < IFNAMSIZ) (hg1 : is_gap gap1)
    (hdest : is_hex 16 dest) (hg2 : is_gap gap2) (hgate : is_hex 16 gate)
    (htail : ends_field tail) :
    route_fields (name ++ (gap1 ++ (dest ++ (gap2 ++ (gate ++ tail))))) =
      some (name, hex_value dest, hex_value gate) := by
  have hc : cstr ((name ++ (gap1 ++ (dest ++ (gap2 ++ (gate ++ tail))))) ++ ['\n']) =
      name ++ (gap1 ++ (dest ++ (gap2 ++ (gate ++ cstr (tail ++ ['\n']))))) := by
    simp only [List.append_assoc]
    rw [cstr_append_of_ne_nul _ _ (fun c hc => (hname.2 c hc).2),
      cstr_append_of_ne_nul _ _ (fun c hc => ne_nul_of_isblank (hg1.2 c hc)),
      cstr_append_of_ne_nul _ _ (fun c hc => ne_nul_of_isxdigit (hdest.2.2 c hc)),
      cstr_append_of_ne_nul _ _ (fun c hc => ne_nul_of_isblank (hg2.2 c hc)),
      cstr_append_of_ne_nul _ _ (fun c hc => ne_nul_of_isxdigit (hgate.2.2 c hc))]
  have h1 := vfscanf_s_lead none IFNAMSIZ [.space, .x none 64, .space, .x none 64] [] name
    (gap1 ++ (dest ++ (gap2 ++ (gate ++ cstr (tail ++ ['\n']))))) (by simp) hname.1
    (fun c hc => (hname.2 c hc).1) hlen (by intro w hw; cases hw) (ends_field_gap _ _ hg1)
  simp only [List.nil_append] at h1
  have hp : (16 : Nat) ^ 16 ≤ 2 ^ 64 := by norm_num
  have h2 := vfscanf_gap_x none 64 16 [.space, .x none 64] gap1 dest
    (gap2 ++ (gate ++ cstr (tail ++ ['\n']))) (fun c hc => isspace_of_isblank (hg1.2 c hc)) hdest
    (by omega) hp (by intro w hw; cases hw) (ends_field_gap _ _ hg2)
  have h3 := vfscanf_gap_x none 64 16 [] gap2 gate (cstr (tail ++ ['\n']))
    (fun c hc => isspace_of_isblank (hg2.2 c hc)) hgate (by omega) hp (by intro w hw; cases hw)
    (ends_field_cstr tail htail)
  simp only [route_fields, hc, route_format, h1, h2, h3, vfscanf_nil, Option.map_some']

/-! ## The loop of `get_if_ipv6_default_gateway` on well-formed tables -/

theorem mem_intercalate {α : Type} (sep : List α) (ls : List (List α)) (c : α)
    (hc : c ∈ List.intercalate sep ls) : c ∈ sep ∨ ∃ l ∈ ls, c ∈ l := by
  induction ls with
  | nil => simp [List.intercalate] at hc
  | cons l ls ih =>
    cases ls with
    | nil =>
      right
      refine ⟨l, by simp, ?_⟩
      simpa [List.intercalate, List.intersperse] using hc
    | cons l2 ls =>
      have e : List.intercalate sep (l :: l2 :: ls) = l ++ sep ++ List.intercalate sep (l2 :: ls) := by
        simp [List.intercalate, List.intersperse]
      rw [e] at hc
      rcases List.mem_append.1 hc with h | h
      · rcases List.mem_append.1 h with h | h
        · right; exact ⟨l, by simp, h⟩
        · left; exact h
      · rcases ih h with h | ⟨l', hl', h⟩
        · left; exact h
        · right; exact ⟨l', by simp [hl'], h⟩

theorem regroup_append (tok rest : List Char) (hl : tok.length = 32) :
    regroup (tok ++ rest) = regroup tok := by
  unfold regroup
  congr 1
  apply List.map_congr_left
  intro i hi
  apply List.map_congr_left
  intro j hj
  simp only [List.mem_range] at hi hj
  have hlt : 4 * i + j < tok.length := by omega
  rw [List.getD_append _ _ _ _ hlt]

theorem regroup_ne_nul (tok : List Char) (ht : is_addr6 tok) : ∀ c ∈ regroup tok, c ≠ NUL := by
  intro c hc
  rcases mem_intercalate _ _ c hc with h | ⟨l, hl, h⟩
  · simp only [List.mem_singleton] at h
    subst h
    decide
  · simp only [List.mem_map, List.mem_range] at hl
    obtain ⟨i, hi, rfl⟩ := hl
    simp only [List.mem_map, List.mem_range] at h
    obtain ⟨j, hj, rfl⟩ := h
    have hlt : 4 * i + j < tok.length := by rw [ht.1]; omega
    rw [List.getD_eq_getElem _ _ hlt]
    exact ne_nul_of_isxdigit (ht.2 _ (List.getElem_mem _))

theorem cstr_store_str (buf tok : List Char) (ht : ∀ c ∈ tok, c ≠ NUL) :
    cstr (store_str buf tok) = tok := by
  unfold store_str
  rw [List.append_assoc]
  exact cstr_append_nul ht _

theorem is_addr6_ne_nul {tok : List Char} (h : is_addr6 tok) : ∀ c ∈ tok, c ≠ NUL :=
  fun c hc => ne_nul_of_isxdigit (h.2 c hc)

/-- The state after `fscanf` stored a well-formed row. -/
theorem route6_store_row (v : Route6State) (r : Route6Row) :
    v.store r.vals =
      { v with
        dst := store_str v.dst r.dst
        dst_prefix := hex_value r.dst_prefix
        src := store_str v.src r.src
        src_prefix := hex_value r.src_prefix
        gw := store_str v.gw r.gw
        metrix := hex_value r.metric
        ref_cnt := hex_value r.ref_cnt
        usr_cnt := hex_value r.use_cnt
        flag := hex_value r.flags
        devname := store_str v.devname r.devname } := rfl

/-- The condition of line 503 on a well-formed row is the qualification of the
row. -/
theorem is_default_route_row (if_name : List Char) (v : Route6State) (r : Route6Row)
    (hr : r.ok) : is_default_route if_name (v.store r.vals) = r.qualifies if_name := by
  obtain ⟨hdst, _, _, _, hgw, _, _, _, _, _, hdev, _⟩ := hr
  have e1 : cstr (store_str v.gw r.gw) = r.gw := cstr_store_str _ _ (is_addr6_ne_nul hgw)
  have e2 : cstr (store_str v.dst r.dst) = r.dst := cstr_store_str _ _ (is_addr6_ne_nul hdst)
  have e3 : cstr (store_str v.devname r.devname) = r.devname :=
    cstr_store_str _ _ (fun c hc => (hdev.2 c hc).2)
  have e4 : cstr "fe80".toList = "fe80".toList := by decide
  have e5 : cstr "00000000000000000000000000000000".toList = List.replicate 32 '0' := by decide
  have e6 : ("fe80".toList).take 4 = "fe80".toList := by decide
  rw [route6_store_row]
  simp only [is_default_route, Route6Row.qualifies, strneq, streq, e1, e2, e3, e4, e5, e6,
    beq_eq_decide]
  congr!

/-- The body of the `if` of lines 503-516 on a well-formed row: success, and
the text of the gateway of the row in the caller's buffer. -/
theorem default_route_body_row (v : Route6State) (r : Route6Row) (hr : r.ok) :
    (default_route_body (v.store r.vals)).ret = EXIT_SUCCESS ∧
      (default_route_body (v.store r.vals)).default_gateway = r.write v.default_gateway := by
  obtain ⟨_, _, _, _, hgw, _, _, _, _, _, _, _⟩ := hr
  have e1 : regroup (store_str v.gw r.gw) = regroup r.gw := by
    unfold store_str
    rw [List.append_assoc, regroup_append _ _ hgw.1]
  have e2 : ∀ t, cstr (regroup r.gw ++ [NUL] ++ t) = regroup r.gw := by
    intro t
    rw [List.append_assoc]
    exact cstr_append_nul (regroup_ne_nul r.gw hgw) _
  have e3 : ∀ t, cstr (inet_ntop6_text (hex_bytes r.gw) ++ [NUL] ++ t) =
      inet_ntop6_text (hex_bytes r.gw) := by
    intro t
    rw [List.append_assoc]
    exact cstr_append_nul (inet_ntop6_text_ne_nul _) _
  have e4 := inet_ntop6_text_length (hex_bytes r.gw)
  rw [route6_store_row]
  refine ⟨rfl, ?_⟩
  simp only [default_route_body, e1, e2, inet_pton6_grouped r.gw hgw, inet_ntop6_some, e3,
    snprintf_s, Route6Row.write, Route6Row.gateway_text]
  simp only [INET6_ADDRSTRLEN]
  rw [List.take_of_length_le (by omega)]
  simp

theorem vfscanf_route6_eof (lead : List Char) (hlead : ∀ c ∈ lead, isspace c = true) :
    vfscanf ipv6_route_format lead = some ⟨[], [], true⟩ := by
  have hd : lead.dropWhile isspace = [] := by
    rw [List.dropWhile_eq_nil_iff]
    exact hlead
  unfold ipv6_route_format
  rw [vfscanf_s_input_failure]
  simp [scan_s, hd]

/-- The loop of `get_if_ipv6_default_gateway` on a table of well-formed rows:
it ends, the status is a success when a row qualified, and the buffer holds
what the qualifying rows wrote one after the other. -/
theorem get_if_ipv6_default_gateway_loop_rows (if_name : List Char) (rows : List Route6Row)
    (hok : ∀ r ∈ rows, r.ok) :
    ∀ (fuel : Nat) (lead : List Char) (v : Route6State), rows.length < fuel →
      (∀ c ∈ lead, isspace c = true) →
      ∃ v', get_if_ipv6_default_gateway_loop if_name fuel
          (lead ++ table_of (rows.map Route6Row.text)) v = some v' ∧
        v'.ret = (if (rows.filter (Route6Row.qualifies if_name)).isEmpty then v.ret
          else EXIT_SUCCESS) ∧
        v'.default_gateway =
          (rows.filter (Route6Row.qualifies if_name)).foldl Route6Row.write v.default_gateway := by
  induction rows with
  | nil =>
    intro fuel lead v hf hlead
    cases fuel with
    | zero => simp at hf
    | succ fuel =>
      refine ⟨v, ?_, by simp, by simp⟩
      simp only [List.map_nil, table_of, List.flatten_nil, List.append_nil,
        get_if_ipv6_default_gateway_loop, vfscanf_route6_eof lead hlead]
      simp [scanf_ret]
  | cons r rs ih =>
    intro fuel lead v hf hlead
    cases fuel with
    | zero => simp at hf
    | succ fuel =>
      have hr := hok r (by simp)
      have hscan := vfscanf_route6_row r hr lead ('\n' :: table_of (rs.map Route6Row.text))
        hlead (ends_field_cons_nl _)
      have hstream : lead ++ table_of ((r :: rs).map Route6Row.text) =
          lead ++ (r.text ++ '\n' :: table_of (rs.map Route6Row.text)) := by
        rw [List.map_cons, table_of_cons]
      have hret : scanf_ret ⟨r.vals, '\n' :: table_of (rs.map Route6Row.text), false⟩ ≠ EOF := by
        simp [scanf_ret, Route6Row.vals, EOF]
      have hnl : ∀ c ∈ ['\n'], isspace c = true := by decide
      have hcons : ('\n' :: table_of (rs.map Route6Row.text)) =
          ['\n'] ++ table_of (rs.map Route6Row.text) := rfl
      rw [hstream]
      simp only [get_if_ipv6_default_gateway_loop, hscan, if_neg hret,
        is_default_route_row if_name v r hr]
      rw [hcons]
      by_cases hq : r.qualifies if_name = true
      · obtain ⟨hb1, hb2⟩ := default_route_body_row v r hr
        obtain ⟨v', h1, h2, h3⟩ := ih (fun r' hr' => hok r' (by simp [hr'])) fuel ['\n']
          (default_route_body (v.store r.vals)) (by simpa using hf) hnl
        refine ⟨v', by simp only [hq, if_true]; exact h1, ?_, ?_⟩
        · rw [h2, hb1]
          simp [List.filter_cons, hq]
        · rw [h3, hb2]
          simp [List.filter_cons, hq]
      · obtain ⟨v', h1, h2, h3⟩ := ih (fun r' hr' => hok r' (by simp [hr'])) fuel ['\n']
          (v.store r.vals) (by simpa using hf) hnl
        refine ⟨v', by simp only [hq]; exact h1, ?_, ?_⟩
        · rw [h2]
          simp [List.filter_cons, hq, route6_store_row]
        · rw [h3]
          simp [List.filter_cons, hq, route6_store_row]

/-- The result of `get_if_ipv6_default_gateway` on a table of well-formed rows:
a function of the qualifying rows alone. -/
theorem get_if_ipv6_default_gateway_table (rows : List Route6Row) (hok : ∀ r ∈ rows, r.ok)
    (v0 : Route6State) (if_name default_gateway : List Char) (h : Handles) :
    get_if_ipv6_default_gateway (some (table_of (rows.map Route6Row.text))) v0 if_name
        default_gateway h =
      some (if (rows.filter (Route6Row.qualifies if_name)).isEmpty then EXIT_FAILURE
          else EXIT_SUCCESS,
        (rows.filter (Route6Row.qualifies if_name)).foldl Route6Row.write default_gateway, h) := by
  have hlen : rows.length < (table_of (rows.map Route6Row.text)).length + 1 := by
    have := table_of_length (rows.map Route6Row.text)
    simp only [List.length_map] at this
    omega
  obtain ⟨v', h1, h2, h3⟩ := get_if_ipv6_default_gateway_loop_rows if_name rows hok _ []
    (v0.init default_gateway) hlen (by simp)
  simp only [List.nil_append] at h1
  simp only [get_if_ipv6_default_gateway, h1, release_acquire, h2, h3]
  rfl

/-! ## IPv4 routing table: lines that fill the line buffer -/

theorem length_takeWhile_le {α : Type} (p : α → Bool) (l : List α) :
    (l.takeWhile p).length ≤ l.length := by
  induction l with
  | nil => simp
  | cons a l ih =>
    rw [List.takeWhile_cons]
    split
    · simp only [List.length_cons]; omega
    · simp

theorem dropWhile_isspace_append_nl (s : List Char) :
    (s ++ ['\n']).dropWhile isspace =
      if s.dropWhile isspace = [] then [] else s.dropWhile isspace ++ ['\n'] := by
  induction s with
  | nil => simp [List.dropWhile]; decide
  | cons a s ih =>
    by_cases ha : isspace a = true
    · simp only [List.cons_append, List.dropWhile_cons, ha, if_true, ih]
    · simp [List.dropWhile_cons, ha]

theorem takeWhile_not_isspace_append_nl (s : List Char) :
    (s ++ ['\n']).takeWhile (fun x => !isspace x) = s.takeWhile (fun x => !isspace x) := by
  induction s with
  | nil => simp [List.takeWhile]; decide
  | cons a s ih =>
    by_cases ha : isspace a = true
    · simp [List.takeWhile_cons, ha]
    · simp [List.takeWhile_cons, ha, ih]

theorem takeWhile_isxdigit_append_nl (s : List Char) :
    (s ++ ['\n']).takeWhile isxdigit = s.takeWhile isxdigit := by
  induction s with
  | nil => simp [List.takeWhile]; decide
  | cons a s ih =>
    by_cases ha : isxdigit a = true
    · simp [List.takeWhile_cons, ha, ih]
    · simp [List.takeWhile_cons, ha]

/-- `%s` reads the same field whether or not a newline ends the input. -/
theorem scan_s_append_nl (s : List Char) :
    scan_s none (s ++ ['\n']) = (scan_s none s).with_rest (fun r => r ++ ['\n']) := by
  unfold scan_s
  rw [dropWhile_isspace_append_nl]
  cases hd : s.dropWhile isspace with
  | nil => simp [Conv.with_rest]
  | cons c t =>
    have hlen := length_takeWhile_le (fun x => !isspace x) (c :: t)
    simp only [List.cons_ne_nil, if_false, List.cons_append, window, Conv.with_rest]
    rw [← List.cons_append, takeWhile_not_isspace_append_nl, List.drop_append_of_le_length hlen]

theorem scan_sign_append_nl (s : List Char) (hs : s ≠ []) :
    scan_sign (s ++ ['\n']) = ((scan_sign s).1, (scan_sign s).2 ++ ['\n']) := by
  cases s with
  | nil => exact absurd rfl hs
  | cons c t =>
    simp only [List.cons_append, scan_sign]
    split <;> rfl

theorem scan_base_append_nl (s : List Char) :
    scan_base (s ++ ['\n']) = ((scan_base s).1, (scan_base s).2 ++ ['\n']) := by
  have hnl : ('\n' : Char) ≠ '0' := by decide
  have hx : ¬ (('\n' : Char) = 'x' ∨ ('\n' : Char) = 'X') := by decide
  cases s with
  | nil => simp [scan_base, hnl]
  | cons c t =>
    by_cases hc : c = '0'
    · cases t with
      | nil => simp [scan_base, hc, hx]
      | cons d t =>
        by_cases hd : d = 'x' ∨ d = 'X'
        · simp [scan_base, hc, hd]
        · simp [scan_base, hc, hd]
    · simp [scan_base, hc]

theorem scan_sign_length (s : List Char) : (scan_sign s).2.length ≤ s.length := by
  cases s with
  | nil => simp [scan_sign]
  | cons c t =>
    simp only [scan_sign]
    split <;> simp

theorem scan_base_length (s : List Char) : (scan_base s).2.length ≤ s.length := by
  cases s with
  | nil => simp [scan_base]
  | cons c t =>
    simp only [scan_base]
    split
    · cases t with
      | nil => simp
      | cons d t =>
        simp only
        split
        · simp; omega
        · simp
    · simp

/-- `%x` and `%lX` read the same number whether or not a newline ends the
input. -/
theorem scan_x_append_nl (s : List Char) :
    scan_x none (s ++ ['\n']) = (scan_x none s).with_rest (fun r => r ++ ['\n']) := by
  unfold scan_x
  rw [dropWhile_isspace_append_nl]
  cases hd : s.dropWhile isspace with
  | nil => simp [Conv.with_rest]
  | cons c t =>
    have h1 := scan_sign_append_nl (c :: t) (by simp)
    have h2 := scan_base_append_nl (scan_sign (c :: t)).2
    have l1 := scan_sign_length (c :: t)
    have l2 := scan_base_length (scan_sign (c :: t)).2
    have l3 := length_takeWhile_le isxdigit (scan_base (scan_sign (c :: t)).2).2
    simp only [List.cons_ne_nil, if_false, List.cons_append, window]
    rw [← List.cons_append, h1]
    simp only
    rw [h2]
    simp only
    rw [takeWhile_isxdigit_append_nl]
    have hcons : ((c :: t) ++ ['\n']).length -
        (((scan_base (scan_sign (c :: t)).2).2 ++ ['\n']).length -
          ((scan_base (scan_sign (c :: t)).2).2.takeWhile isxdigit).length) =
        (c :: t).length - ((scan_base (scan_sign (c :: t)).2).2.length -
          ((scan_base (scan_sign (c :: t)).2).2.takeWhile isxdigit).length) := by
      simp only [List.length_append, List.length_cons, List.length_nil]
      omega
    rw [hcons, List.drop_append_of_le_length (by omega)]
    split <;> simp [Conv.with_rest]

theorem vfscanf_x_dropWhile (w : Option Nat) (b : Nat) (ds : List Directive) (inp : List Char) :
    vfscanf (.x w b :: ds) (inp.dropWhile isspace) = vfscanf (.x w b :: ds) inp := by
  rw [vfscanf, vfscanf, scan_x_dropWhile]

theorem vfscanf_vals_nl_nil (t : List Char) :
    (vfscanf [] (t ++ ['\n'])).map (fun r => r.vals) = (vfscanf [] t).map (fun r => r.vals) := rfl

theorem vfscanf_vals_nl_x (ds : List Directive) (b : Nat)
    (hds : ∀ t, (vfscanf ds (t ++ ['\n'])).map (fun r => r.vals) =
      (vfscanf ds t).map (fun r => r.vals)) (t : List Char) :
    (vfscanf (.space :: .x none b :: ds) (t ++ ['\n'])).map (fun r => r.vals) =
      (vfscanf (.space :: .x none b :: ds) t).map (fun r => r.vals) := by
  rw [vfscanf_space, vfscanf_space, vfscanf_x_dropWhile, vfscanf_x_dropWhile, vfscanf, vfscanf,
    scan_x_append_nl]
  cases scan_x none t with
  | input_failure => rfl
  | matching_failure rest => rfl
  | ok v rest =>
    simp only [Conv.with_rest, Option.map_map]
    have := hds rest
    cases h1 : vfscanf ds (rest ++ ['\n']) <;> cases h2 : vfscanf ds rest <;>
      simp [h1, h2] at this ⊢
    exact this

theorem vfscanf_vals_nl_s (ds : List Directive) (n : Nat)
    (hds : ∀ t, (vfscanf ds (t ++ ['\n'])).map (fun r => r.vals) =
      (vfscanf ds t).map (fun r => r.vals)) (t : List Char) :
    (vfscanf (.s none n :: ds) (t ++ ['\n'])).map (fun r => r.vals) =
      (vfscanf (.s none n :: ds) t).map (fun r => r.vals) := by
  rw [vfscanf, vfscanf, scan_s_append_nl]
  cases scan_s none t with
  | input_failure => rfl
  | matching_failure rest => rfl
  | ok tok rest =>
    simp only [Conv.with_rest]
    split
    · simp only [Option.map_map]
      have := hds rest
      cases h1 : vfscanf ds (rest ++ ['\n']) <;> cases h2 : vfscanf ds rest <;>
        simp [h1, h2] at this ⊢
      exact this
    · rfl

/-- `sscanf(buf, "%s\t%lX\t%lX", ...)` stores the same values whether or not
the newline of the line is in the buffer. -/
theorem vfscanf_route_nl (l : List Char) :
    (vfscanf route_format (cstr l)).map (fun r => r.vals) =
      (vfscanf route_format (cstr (l ++ ['\n']))).map (fun r => r.vals) := by
  have hc : cstr (l ++ ['\n']) = cstr l ∨ cstr (l ++ ['\n']) = cstr l ++ ['\n'] := by
    induction l with
    | nil => right; decide
    | cons a l ih =>
      by_cases ha : a = NUL
      · left
        simp [cstr, List.takeWhile_cons, ha]
      · rcases ih with h | h
        · left
          simp only [cstr, List.cons_append, List.takeWhile_cons] at h ⊢
          simp [ha, h]
        · right
          simp only [cstr, List.cons_append, List.takeWhile_cons] at h ⊢
          simp [ha, h]
  rcases hc with h | h
  · rw [h]
  · rw [h]
    exact (vfscanf_vals_nl_s _ _ (vfscanf_vals_nl_x _ _ (vfscanf_vals_nl_x _ _
      vfscanf_vals_nl_nil)) (cstr l)).symm

/-- One turn of the loop of `get_if_gateway` on a buffer in which `sscanf`
finds the values of row `l`. -/
theorem get_if_gateway_loop_chunk (if_name c l gateway : List Char) (ls : List (List Char))
    (hc : (vfscanf route_format (cstr c)).map (fun r => r.vals) =
      (vfscanf route_format (cstr (l ++ ['\n']))).map (fun r => r.vals))
    (hf : (first_field l).length < IFNAMSIZ) :
    get_if_gateway_loop if_name (c :: ls) gateway =
      if is_default_row if_name l then
        some (strncpy gateway (inet_ntoa (in_addr_of_word (row_gateway l))) (INET_ADDRSTRLEN - 1))
      else get_if_gateway_loop if_name ls gateway := by
  rcases vfscanf_route_cases (cstr (l ++ ['\n'])) with ⟨hnone, _⟩ | ⟨iface, dest, gate, rest, eof, h⟩ |
    ⟨r, h, hr⟩
  · exact absurd hnone (first_field_lt l hf)
  · rw [h] at hc
    obtain ⟨⟨vals, rest', eof'⟩, h', hv⟩ := Option.map_eq_some'.1 hc
    simp only at hv
    subst hv
    simp only [get_if_gateway_loop, is_default_row, row_gateway, route_fields, h, h']
    by_cases hd : dest = 0
    · by_cases hn : streq if_name iface = true
      · simp [hd, hn]
      · simp [hd, hn]
    · simp [hd]
  · rw [h] at hc
    obtain ⟨⟨vals, rest', eof'⟩, h', hv⟩ := Option.map_eq_some'.1 hc
    simp only at hv
    obtain ⟨vals2, rest2, eof2⟩ := r
    simp only at hv hr
    subst hv
    simp only [get_if_gateway_loop, is_default_row, route_fields, h, h']
    match vals, hr with
    | [], _ => simp
    | [_], _ => simp
    | [_, _], _ => simp

theorem get_if_gateway_loop_nl (if_name gateway : List Char) (ls : List (List Char)) :
    get_if_gateway_loop if_name (['\n'] :: ls) gateway = get_if_gateway_loop if_name ls gateway := by
  have h : vfscanf route_format (cstr ['\n']) = some ⟨[], [], true⟩ := by decide
  simp only [get_if_gateway_loop, h]

theorem read_line_full (n : Nat) (l rest : List Char) (hl : '\n' ∉ l) (hn : l.length = n) :
    read_line n (l ++ rest) = l := by
  induction l generalizing n with
  | nil =>
    subst hn
    simp [read_line]
  | cons a l ih =>
    cases n with
    | zero => simp at hn
    | succ n =>
      have ha : a ≠ '\n' := fun h => hl (by simp [h])
      have hl' : '\n' ∉ l := fun h => hl (by simp [h])
      simp only [List.cons_append, read_line, if_neg ha, List.append_eq]
      rw [ih n hl' (by simpa using hn)]

theorem fgets_chunks_lines (size : Nat) (hsize : 2 ≤ size) (lines : List (List Char))
    (hl : ∀ l ∈ lines, '\n' ∉ l ∧ l.length < size) :
    ∀ fuel, (table_of lines).length ≤ fuel →
      fgets_chunks size fuel (table_of lines) = (lines.map (chunks_of_line size)).flatten := by
  induction lines with
  | nil => intro fuel _; cases fuel <;> simp [table_of, fgets_chunks]
  | cons l ls ih =>
    intro fuel hf
    obtain ⟨hnl, hlen⟩ := hl l (by simp)
    have ih' := ih (fun l' hl' => hl l' (by simp [hl']))
    rw [table_of_cons] at hf ⊢
    simp only [List.length_append, List.length_cons] at hf
    by_cases hfit : l.length + 1 < size
    · cases fuel with
      | zero => omega
      | succ fuel =>
        have hrl : read_line (size - 1) (l ++ '\n' :: table_of ls) = l ++ ['\n'] :=
          read_line_line _ _ _ hnl (by omega)
        cases hls : l ++ '\n' :: table_of ls with
        | nil => simp at hls
        | cons c s =>
          simp only [fgets_chunks]
          rw [← hls, hrl]
          have hdrop : (l ++ '\n' :: table_of ls).drop (l ++ ['\n']).length = table_of ls := by
            have : l ++ '\n' :: table_of ls = (l ++ ['\n']) ++ table_of ls := by simp
            rw [this, List.drop_left]
          rw [hdrop, ih' fuel (by omega)]
          simp [chunks_of_line, hfit]
    · have hfull : l.length = size - 1 := by omega
      cases fuel with
      | zero => omega
      | succ fuel =>
        cases fuel with
        | zero => omega
        | succ fuel =>
          have hrl : read_line (size - 1) (l ++ '\n' :: table_of ls) = l :=
            read_line_full _ _ _ hnl hfull
          have hrn : read_line (size - 1) ('\n' :: table_of ls) = ['\n'] := by
            obtain ⟨k, hk⟩ : ∃ k, size - 1 = k + 1 := ⟨size - 2, by omega⟩
            rw [hk]
            simp [read_line]
          cases hls : l ++ '\n' :: table_of ls with
          | nil => simp at hls
          | cons c s =>
            rw [fgets_chunks, ← hls, hrl, List.drop_left, fgets_chunks, hrn]
            simp only [List.length_singleton, List.drop_succ_cons, List.drop_zero]
            rw [ih' fuel (by omega)]
            simp [chunks_of_line, hfit]

/-- The `fgets` calls on a table whose lines have at most `size - 1`
characters return every line whole, a line of `size - 1` characters followed
by its newline alone. -/
theorem fgets_all_lines (size : Nat) (hsize : 2 ≤ size) (lines : List (List Char))
    (hl : ∀ l ∈ lines, '\n' ∉ l ∧ l.length < size) :
    fgets_all size (table_of lines) = (lines.map (chunks_of_line size)).flatten :=
  fgets_chunks_lines size hsize lines hl _ (Nat.le_refl _)

theorem get_if_gateway_loop_lines (if_name gateway : List Char) (rows : List (List Char))
    (hf : ∀ l ∈ rows, (first_field l).length < IFNAMSIZ) :
    get_if_gateway_loop if_name ((rows.map (chunks_of_line 128)).flatten) gateway =
      some (match rows.find? (is_default_row if_name) with
        | some l =>
          strncpy gateway (inet_ntoa (in_addr_of_word (row_gateway l))) (INET_ADDRSTRLEN - 1)
        | none => gateway) := by
  induction rows with
  | nil => simp [get_if_gateway_loop]
  | cons l ls ih =>
    have ih' := ih (fun l' hl' => hf l' (by simp [hl']))
    have hfl := hf l (by simp)
    rw [List.map_cons, List.flatten_cons]
    by_cases hfit : l.length + 1 < 128
    · simp only [chunks_of_line, if_pos hfit, List.singleton_append]
      rw [get_if_gateway_loop_chunk if_name _ l gateway _ rfl hfl]
      by_cases hq : is_default_row if_name l = true
      · simp [hq, List.find?_cons]
      · have hq' : is_default_row if_name l = false := by simpa using hq
        rw [ih']
        simp [hq', List.find?_cons]
    · simp only [chunks_of_line, if_neg hfit, List.cons_append, List.nil_append]
      rw [get_if_gateway_loop_chunk if_name l l gateway _ (vfscanf_route_nl l) hfl]
      by_cases hq : is_default_row if_name l = true
      · simp [hq, List.find?_cons]
      · have hq' : is_default_row if_name l = false := by simpa using hq
        rw [get_if_gateway_loop_nl, ih']
        simp [hq', List.find?_cons]

/-- The result of `get_if_gateway` on a table of a header line and rows, every
line of at most 127 characters, every first field fitting `iface`. -/
theorem get_if_gateway_lines (header : List Char) (rows : List (List Char))
    (if_name gateway : List Char) (h : Handles)
    (hl : ∀ l ∈ header :: rows, '\n' ∉ l ∧ l.length < 128)
    (hf : ∀ l ∈ rows, (first_field l).length < IFNAMSIZ) :
    get_if_gateway (some (table_of (header :: rows))) if_name gateway h =
      some (EXIT_SUCCESS,
        (match rows.find? (is_default_row if_name) with
          | some l =>
            strncpy gateway (inet_ntoa (in_addr_of_word (row_gateway l))) (INET_ADDRSTRLEN - 1)
          | none => gateway),
        lowest_free h :: h) := by
  have hloop := get_if_gateway_loop_lines if_name gateway rows hf
  simp only [get_if_gateway, fgets_all_lines 128 (by omega) _ hl, List.map_cons,
    List.flatten_cons]
  by_cases hfit : header.length + 1 < 128
  · simp only [chunks_of_line, if_pos hfit, List.singleton_append, List.drop_succ_cons,
      List.drop_zero]
    simp only [chunks_of_line] at hloop
    rw [hloop]
    rfl
  · simp only [chunks_of_line, if_neg hfit, List.cons_append, List.nil_append,
      List.drop_succ_cons, List.drop_zero, get_if_gateway_loop_nl]
    simp only [chunks_of_line] at hloop
    rw [hloop]
    rfl

/-! ## The loop of `get_if_ipv6_info` on well-formed tables -/

theorem addr6_explicit (tok : List Char) (hlen : tok.length = 32) :
    ∃ c0 c1 c2 c3 c4 c5 c6 c7 c8 c9 c10 c11 c12 c13 c14 c15 c16 c17 c18 c19 c20 c21 c22 c23
      c24 c25 c26 c27 c28 c29 c30 c31,
      tok = [c0, c1, c2, c3, c4, c5, c6, c7, c8, c9, c10, c11, c12, c13, c14, c15, c16, c17,
        c18, c19, c20, c21, c22, c23, c24, c25, c26, c27, c28, c29, c30, c31] := by
  obtain ⟨c0, t0, rfl, hl0⟩ := exists_cons_of_length hlen
  obtain ⟨c1, t1, rfl, hl1⟩ := exists_cons_of_length hl0
  obtain ⟨c2, t2, rfl, hl2⟩ := exists_cons_of_length hl1
  obtain ⟨c3, t3, rfl, hl3⟩ := exists_cons_of_length hl2
  obtain ⟨c4, t4, rfl, hl4⟩ := exists_cons_of_length hl3
  obtain ⟨c5, t5, rfl, hl5⟩ := exists_cons_of_length hl4
  obtain ⟨c6, t6, rfl, hl6⟩ := exists_cons_of_length hl5
  obtain ⟨c7, t7, rfl, hl7⟩ := exists_cons_of_length hl6
  obtain ⟨c8, t8, rfl, hl8⟩ := exists_cons_of_length hl7
  obtain ⟨c9, t9, rfl, hl9⟩ := exists_cons_of_length hl8
  obtain ⟨c10, t10, rfl, hl10⟩ := exists_cons_of_length hl9
  obtain ⟨c11, t11, rfl, hl11⟩ := exists_cons_of_length hl10
  obtain ⟨c12, t12, rfl, hl12⟩ := exists_cons_of_length hl11
  obtain ⟨c13, t13, rfl, hl13⟩ := exists_cons_of_length hl12
  obtain ⟨c14, t14, rfl, hl14⟩ := exists_cons_of_length hl13
  obtain ⟨c15, t15, rfl, hl15⟩ := exists_cons_of_length hl14
  obtain ⟨c16, t16, rfl, hl16⟩ := exists_cons_of_length hl15
  obtain ⟨c17, t17, rfl, hl17⟩ := exists_cons_of_length hl16
  obtain ⟨c18, t18, rfl, hl18⟩ := exists_cons_of_length hl17
  obtain ⟨c19, t19, rfl, hl19⟩ := exists_cons_of_length hl18
  obtain ⟨c20, t20, rfl, hl20⟩ := exists_cons_of_length hl19
  obtain ⟨c21, t21, rfl, hl21⟩ := exists_cons_of_length hl20
  obtain ⟨c22, t22, rfl, hl22⟩ := exists_cons_of_length hl21
  obtain ⟨c23, t23, rfl, hl23⟩ := exists_cons_of_length hl22
  obtain ⟨c24, t24, rfl, hl24⟩ := exists_cons_of_length hl23
  obtain ⟨c25, t25, rfl, hl25⟩ := exists_cons_of_length hl24
  obtain ⟨c26, t26, rfl, hl26⟩ := exists_cons_of_length hl25
  obtain ⟨c27, t27, rfl, hl27⟩ := exists_cons_of_length hl26
  obtain ⟨c28, t28, rfl, hl28⟩ := exists_cons_of_length hl27
  obtain ⟨c29, t29, rfl, hl29⟩ := exists_cons_of_length hl28
  obtain ⟨c30, t30, rfl, hl30⟩ := exists_cons_of_length hl29
  obtain ⟨c31, t31, rfl, hl31⟩ := exists_cons_of_length hl30
  have ht : t31 = [] := List.length_eq_zero.1 hl31
  subst ht
  exact ⟨_, _, _, _, _, _, _, _, _, _, _, _, _, _, _, _, _, _, _, _, _, _, _, _, _, _, _, _, _,
    _, _, _, rfl⟩

/-- `%4s` into a `char[5]` on four characters that are no white space. -/
theorem vfscanf_s_group4 (ds : List Directive) (a b c d : Char) (rest : List Char)
    (ha : isspace a = false) (hb : isspace b = false) (hc : isspace c = false)
    (hd : isspace d = false) :
    vfscanf (.s (some 4) 5 :: ds) (a :: b :: c :: d :: rest) =
      (vfscanf ds rest).map (fun r => ⟨Val.str [a, b, c, d] :: r.vals, r.rest, r.eof⟩) := by
  have hscan : scan_s (some 4) (a :: b :: c :: d :: rest) = .ok [a, b, c, d] rest := by
    have := scan_s_group 4 [a, b, c, d] rest (by simp) (by
      intro x hx
      simp only [List.mem_cons, List.mem_singleton, List.not_mem_nil, or_false] at hx
      rcases hx with rfl | rfl | rfl | rfl <;> assumption) rfl
    simpa using this
  rw [vfscanf_s_ok _ _ hscan, if_pos (by simp)]

/-- One `fscanf` call of `get_if_ipv6_info` on a well-formed row converts its
thirteen fields and skips the white space behind the row. -/
theorem vfscanf_if_inet6_row (r : Inet6Row) (hr : r.ok) (rest : List Char)
    (hrest : ends_field rest) :
    vfscanf if_inet6_format (r.text ++ rest) = some ⟨r.vals, rest.dropWhile isspace, false⟩ := by
  obtain ⟨haddr, hidx, hplen, hscope, hflags, hpad, hdev, hdl⟩ := hr
  obtain ⟨c0, c1, c2, c3, c4, c5, c6, c7, c8, c9, c10, c11, c12, c13, c14, c15, c16, c17,
    c18, c19, c20, c21, c22, c23, c24, c25, c26, c27, c28, c29, c30, c31, haddr_eq⟩ :=
    addr6_explicit r.addr haddr.1
  have hs : ∀ c ∈ r.addr, isspace c = false := fun c hc => isspace_false_of_isxdigit (haddr.2 c hc)
  have hp8 : (16 : Nat) ^ 8 ≤ 2 ^ 32 := by norm_num
  have hp2 : (16 : Nat) ^ 2 ≤ 2 ^ 32 := by norm_num
  have hvals : r.vals = [.str [c0, c1, c2, c3], .str [c4, c5, c6, c7], .str [c8, c9, c10, c11],
      .str [c12, c13, c14, c15], .str [c16, c17, c18, c19], .str [c20, c21, c22, c23],
      .str [c24, c25, c26, c27], .str [c28, c29, c30, c31], .num (hex_value r.if_idx),
      .num (hex_value r.plen), .num (hex_value r.scope), .num (hex_value r.flags),
      .str r.devname] := by
    simp only [Inet6Row.vals, haddr_eq]
    rfl
  rw [hvals]
  rw [haddr_eq] at hs
  simp only [if_inet6_format, Inet6Row.text, haddr_eq, List.append_assoc, List.cons_append,
    List.nil_append]
  rw [vfscanf_s_group4 _ _ _ _ _ _ (hs _ (by simp)) (hs _ (by simp)) (hs _ (by simp))
    (hs _ (by simp))]
  rw [vfscanf_s_group4 _ _ _ _ _ _ (hs _ (by simp)) (hs _ (by simp)) (hs _ (by simp))
    (hs _ (by simp))]
  rw [vfscanf_s_group4 _ _ _ _ _ _ (hs _ (by simp)) (hs _ (by simp)) (hs _ (by simp))
    (hs _ (by simp))]
  rw [vfscanf_s_group4 _ _ _ _ _ _ (hs _ (by simp)) (hs _ (by simp)) (hs _ (by simp))
    (hs _ (by simp))]
  rw [vfscanf_s_group4 _ _ _ _ _ _ (hs _ (by simp)) (hs _ (by simp)) (hs _ (by simp))
    (hs _ (by simp))]
  rw [vfscanf_s_group4 _ _ _ _ _ _ (hs _ (by simp)) (hs _ (by simp)) (hs _ (by simp))
    (hs _ (by simp))]
  rw [vfscanf_s_group4 _ _ _ _ _ _ (hs _ (by simp)) (hs _ (by simp)) (hs _ (by simp))
    (hs _ (by simp))]
  rw [vfscanf_s_group4 _ _ _ _ _ _ (hs _ (by simp)) (hs _ (by simp)) (hs _ (by simp))
    (hs _ (by simp))]
  rw [vfscanf_sp_x (some 8) 32 8 _ r.if_idx _ hidx (by omega) hp8
    (by intro w hw; cases hw; exact Nat.le_refl _) (ends_field_cons_blank _)]
  rw [vfscanf_sp_x (some 2) 32 2 _ r.plen _ hplen (by omega) hp2
    (by intro w hw; cases hw; exact Nat.le_refl _) (ends_field_cons_blank _)]
  rw [vfscanf_sp_x (some 2) 32 2 _ r.scope _ hscope (by omega) hp2
    (by intro w hw; cases hw; exact Nat.le_refl _) (ends_field_cons_blank _)]
  rw [vfscanf_sp_x (some 2) 32 2 _ r.flags _ hflags (by omega) hp2
    (by intro w hw; cases hw; exact Nat.le_refl _) (ends_field_cons_blank _)]
  rw [vfscanf_sp_s (some 20) _ _ r.pad r.devname rest hpad hdev.1 (fun c hc => (hdev.2 c hc).1)
    hdl (by
      intro w hw
      cases hw
      simp only [IFNAMSIZ] at hdl
      omega) hrest]
  rw [vfscanf_space, vfscanf_nil]
  rfl

theorem range8 : List.range 8 = [0, 1, 2, 3, 4, 5, 6, 7] := by decide

/-- The variables `get_if_ipv6_info` tests and converts after `fscanf` stored a
well-formed row. -/
theorem inet6_store_row (v : Inet6Vars) (r : Inet6Row) (hr : r.ok) :
    (v.store r.vals).devname = store_str v.devname r.devname ∧
      (v.store r.vals).plen = hex_value r.plen ∧
      (v.store r.vals).scope = hex_value r.scope ∧
      join_groups (v.store r.vals).addr6p = regroup r.addr := by
  obtain ⟨haddr, _, _, _, _, _, _, _⟩ := hr
  obtain ⟨c0, c1, c2, c3, c4, c5, c6, c7, c8, c9, c10, c11, c12, c13, c14, c15, c16, c17,
    c18, c19, c20, c21, c22, c23, c24, c25, c26, c27, c28, c29, c30, c31, haddr_eq⟩ :=
    addr6_explicit r.addr haddr.1
  have hvals : r.vals = [.str [c0, c1, c2, c3], .str [c4, c5, c6, c7], .str [c8, c9, c10, c11],
      .str [c12, c13, c14, c15], .str [c16, c17, c18, c19], .str [c20, c21, c22, c23],
      .str [c24, c25, c26, c27], .str [c28, c29, c30, c31], .num (hex_value r.if_idx),
      .num (hex_value r.plen), .num (hex_value r.scope), .num (hex_value r.flags),
      .str r.devname] := by
    simp only [Inet6Row.vals, haddr_eq]
    rfl
  have hn : ∀ c ∈ r.addr, c ≠ NUL := is_addr6_ne_nul haddr
  rw [haddr_eq] at hn
  have g : ∀ (old : List Char) (a b c d : Char), a ≠ NUL → b ≠ NUL → c ≠ NUL → d ≠ NUL →
      cstr (store_str old [a, b, c, d]) = [a, b, c, d] := by
    intro old a b c d ha hb hc hd
    apply cstr_store_str
    intro x hx
    simp only [List.mem_cons, List.mem_singleton, List.not_mem_nil, or_false] at hx
    rcases hx with rfl | rfl | rfl | rfl <;> assumption
  rw [hvals]
  refine ⟨rfl, rfl, rfl, ?_⟩
  have hstore : (v.store [.str [c0, c1, c2, c3], .str [c4, c5, c6, c7], .str [c8, c9, c10, c11],
      .str [c12, c13, c14, c15], .str [c16, c17, c18, c19], .str [c20, c21, c22, c23],
      .str [c24, c25, c26, c27], .str [c28, c29, c30, c31], .num (hex_value r.if_idx),
      .num (hex_value r.plen), .num (hex_value r.scope), .num (hex_value r.flags),
      .str r.devname]).addr6p =
      [store_str (v.addr6p.getD 0 []) [c0, c1, c2, c3],
       store_str (v.addr6p.getD 1 []) [c4, c5, c6, c7],
       store_str (v.addr6p.getD 2 []) [c8, c9, c10, c11],
       store_str (v.addr6p.getD 3 []) [c12, c13, c14, c15],
       store_str (v.addr6p.getD 4 []) [c16, c17, c18, c19],
       store_str (v.addr6p.getD 5 []) [c20, c21, c22, c23],
       store_str (v.addr6p.getD 6 []) [c24, c25, c26, c27],
       store_str (v.addr6p.getD 7 []) [c28, c29, c30, c31]] := rfl
  rw [hstore, haddr_eq]
  simp only [join_groups, range8, List.map_cons, List.map_nil, List.getD_cons_zero,
    List.getD_cons_succ]
  rw [g _ _ _ _ _ (hn _ (by simp)) (hn _ (by simp)) (hn _ (by simp)) (hn _ (by simp)),
    g _ _ _ _ _ (hn _ (by simp)) (hn _ (by simp)) (hn _ (by simp)) (hn _ (by simp)),
    g _ _ _ _ _ (hn _ (by simp)) (hn _ (by simp)) (hn _ (by simp)) (hn _ (by simp)),
    g _ _ _ _ _ (hn _ (by simp)) (hn _ (by simp)) (hn _ (by simp)) (hn _ (by simp)),
    g _ _ _ _ _ (hn _ (by simp)) (hn _ (by simp)) (hn _ (by simp)) (hn _ (by simp)),
    g _ _ _ _ _ (hn _ (by simp)) (hn _ (by simp)) (hn _ (by simp)) (hn _ (by simp)),
    g _ _ _ _ _ (hn _ (by simp)) (hn _ (by simp)) (hn _ (by simp)) (hn _ (by simp)),
    g _ _ _ _ _ (hn _ (by simp)) (hn _ (by simp)) (hn _ (by simp)) (hn _ (by simp))]
  rfl

/-- The body of the `if` of lines 200-242 on a well-formed row: success, and
the outputs of the row. -/
theorem ipv6_info_of_row_ok (v : Inet6Vars) (r : Inet6Row) (hr : r.ok) (out : Inet6Info) :
    ipv6_info_of_row (v.store r.vals) out = (EXIT_SUCCESS, r.info out) := by
  obtain ⟨_, h2, h3, h4⟩ := inet6_store_row v r hr
  simp only [ipv6_info_of_row, h4, inet_pton6_grouped r.addr hr.1, inet_ntop6_some, h2, h3,
    Inet6Row.info]

theorem streq_devname (v : Inet6Vars) (r : Inet6Row) (hr : r.ok) (if_name : List Char) :
    streq (v.store r.vals).devname if_name = decide (r.devname = cstr if_name) := by
  rw [(inet6_store_row v r hr).1]
  simp only [streq, cstr_store_str _ _ (fun c hc => (hr.2.2.2.2.2.2.1.2 c hc).2), beq_eq_decide]
  congr!

theorem dropWhile_isspace_table (rows : List Inet6Row) (hok : ∀ r ∈ rows, r.ok)
    (tail : List Char) (ht : tail = [] ∨ ∃ c t, tail = c :: t ∧ isspace c = false) :
    ('\n' :: (table_of (rows.map Inet6Row.text) ++ tail)).dropWhile isspace =
      table_of (rows.map Inet6Row.text) ++ tail := by
  have hnl : isspace '\n' = true := by decide
  rw [List.dropWhile_cons, if_pos hnl]
  cases rows with
  | nil =>
    simp only [List.map_nil, table_of, List.flatten_nil, List.nil_append]
    rcases ht with rfl | ⟨c, t, rfl, hc⟩
    · rfl
    · simp [List.dropWhile_cons, hc]
  | cons r rs =>
    obtain ⟨haddr, _⟩ := hok r (by simp)
    obtain ⟨a, t, ha, _⟩ := exists_cons_of_length haddr.1
    have hsp := isspace_false_of_isxdigit (haddr.2 a (by simp [ha]))
    rw [List.map_cons, table_of_cons]
    simp only [Inet6Row.text, ha, List.cons_append]
    rw [List.dropWhile_cons, if_neg (by simp [hsp])]

theorem scanf_ret_ne_eof (vals : List Val) (rest : List Char) (eof : Bool) (hv : vals ≠ []) :
    scanf_ret ⟨vals, rest, eof⟩ ≠ EOF := by
  simp only [scanf_ret, hv, false_and, if_false, EOF]
  omega

theorem Inet6Row.vals_ne_nil (r : Inet6Row) : r.vals ≠ [] := by
  simp [Inet6Row.vals]

/-- The loop of `get_if_ipv6_info` on a table that starts with well-formed rows
of other interfaces, followed by a well-formed row of the requested one: the
outputs of that row. -/
theorem get_if_ipv6_info_loop_rows (if_name : List Char) (before : List Inet6Row)
    (r : Inet6Row) (rest : List Char) (hb : ∀ b ∈ before, b.ok ∧ b.devname ≠ cstr if_name)
    (hr : r.ok) (hname : r.devname = cstr if_name) (out : Inet6Info) :
    ∀ (fuel : Nat) (v : Inet6Vars), before.length < fuel →
      get_if_ipv6_info_loop if_name fuel
          (table_of (before.map Inet6Row.text) ++ (r.text ++ '\n' :: rest)) v out =
        some (EXIT_SUCCESS, r.info out) := by
  induction before with
  | nil =>
    intro fuel v hf
    cases fuel with
    | zero => simp at hf
    | succ fuel =>
      have hscan := vfscanf_if_inet6_row r hr ('\n' :: rest) (ends_field_cons_nl _)
      have hret : scanf_ret ⟨r.vals, ('\n' :: rest).dropWhile isspace, false⟩ ≠ EOF :=
        scanf_ret_ne_eof _ _ _ r.vals_ne_nil
      simp only [List.map_nil, table_of, List.flatten_nil, List.nil_append,
        get_if_ipv6_info_loop, hscan, if_neg hret, streq_devname v r hr, hname,
        decide_True, if_true, ipv6_info_of_row_ok v r hr]
  | cons b bs ih =>
    intro fuel v hf
    cases fuel with
    | zero => simp at hf
    | succ fuel =>
      obtain ⟨hbok, hbn⟩ := hb b (by simp)
      have hscan := vfscanf_if_inet6_row b hbok
        ('\n' :: (table_of (bs.map Inet6Row.text) ++ (r.text ++ '\n' :: rest)))
        (ends_field_cons_nl _)
      have hstream : table_of ((b :: bs).map Inet6Row.text) ++ (r.text ++ '\n' :: rest) =
          b.text ++ '\n' :: (table_of (bs.map Inet6Row.text) ++ (r.text ++ '\n' :: rest)) := by
        rw [List.map_cons, table_of_cons]
        simp
      have hret : scanf_ret ⟨b.vals, ('\n' :: (table_of (bs.map Inet6Row.text) ++
          (r.text ++ '\n' :: rest))).dropWhile isspace, false⟩ ≠ EOF :=
        scanf_ret_ne_eof _ _ _ b.vals_ne_nil
      have hdrop := dropWhile_isspace_table bs (fun b' hb' => (hb b' (by simp [hb'])).1)
        (r.text ++ '\n' :: rest) (by
          right
          obtain ⟨a, t, ha, _⟩ := exists_cons_of_length hr.1.1
          refine ⟨a, t ++ (' ' :: (r.if_idx ++ (' ' :: (r.plen ++ (' ' :: (r.scope ++ (' ' ::
            (r.flags ++ (' ' :: (r.pad ++ r.devname)))))))))) ++ '\n' :: rest, ?_,
            isspace_false_of_isxdigit (hr.1.2 a (by simp [ha]))⟩
          simp [Inet6Row.text, ha])
      rw [hstream]
      simp only [get_if_ipv6_info_loop, hscan, if_neg hret, streq_devname v b hbok, hbn,
        decide_False, Bool.false_eq_true, if_false, hdrop]
      exact ih (fun b' hb' => hb b' (by simp [hb'])) fuel _ (by simpa using hf)

/-- The result of `get_if_ipv6_info` on a table that starts with well-formed
rows of other interfaces, followed by a well-formed row of the requested one
(whatever follows that row): success, the outputs of that row, and the table
still open. -/
theorem get_if_ipv6_info_table (before : List Inet6Row) (r : Inet6Row) (rest : List Char)
    (v0 : Inet6Vars) (if_name : List Char) (out : Inet6Info) (h : Handles)
    (hb : ∀ b ∈ before, b.ok ∧ b.devname ≠ cstr if_name)
    (hr : r.ok) (hname : r.devname = cstr if_name) :
    get_if_ipv6_info (some (table_of (before.map Inet6Row.text) ++ (r.text ++ '\n' :: rest)))
        v0 if_name out h =
      some (EXIT_SUCCESS, r.info out, lowest_free h :: h) := by
  have hlen : before.length <
      (table_of (before.map Inet6Row.text) ++ (r.text ++ '\n' :: rest)).length + 1 := by
    have := table_of_length (before.map Inet6Row.text)
    simp only [List.length_map] at this
    simp only [List.length_append]
    omega
  simp only [get_if_ipv6_info,
    get_if_ipv6_info_loop_rows if_name before r rest hb hr hname out _ _ hlen]
  rfl

/-! ## IPv4 default gateway: the string left in the buffer -/

/-- The string a caller reads from a buffer after `strncpy(dest, src, n)`, for
a source of at most `n` characters: the source when it is shorter than `n`
(the padding ends it), else the source followed by whatever string `dest`
held from byte `n` on. -/
theorem cstr_strncpy {src : List Char} (dest : List Char) (n : Nat)
    (hs : ∀ c ∈ src, c ≠ NUL) (hl : src.length ≤ n) :
    cstr (strncpy dest src n) =
      if src.length < n then src else src ++ cstr (dest.drop n) := by
  rw [strncpy_short dest n hs hl, List.append_assoc, cstr_append_of_ne_nul _ _ hs]
  split_ifs with h
  · obtain ⟨k, hk⟩ : ∃ k, n - src.length = k + 1 := ⟨n - src.length - 1, by omega⟩
    rw [hk, List.replicate_succ]
    simp [cstr, List.takeWhile_cons]
  · have h0 : n - src.length = 0 := by omega
    rw [h0]
    simp

set_option maxRecDepth 100000 in
theorem fmt_d_length_three (n : Nat) (hn : n < 256) : (fmt_d n).length = 3 ↔ 100 ≤ n := by
  have key : ∀ m, m < 256 → ((fmt_d m).length = 3 ↔ 100 ≤ m) := by decide
  exact key n hn

/-- The text of an address has fifteen characters exactly when each of its
four octets has three digits. -/
theorem inet_ntoa_length_fifteen (w : Nat) :
    (inet_ntoa (in_addr_of_word w)).length = 15 ↔
      100 ≤ w % 256 ∧ 100 ≤ w / 256 % 256 ∧ 100 ≤ w / 65536 % 256 ∧
        100 ≤ w / 16777216 % 256 := by
  have l0 := fmt_d_length_le (w % 256) (Nat.mod_lt _ (by omega))
  have l1 := fmt_d_length_le (w / 256 % 256) (Nat.mod_lt _ (by omega))
  have l2 := fmt_d_length_le (w / 65536 % 256) (Nat.mod_lt _ (by omega))
  have l3 := fmt_d_length_le (w / 16777216 % 256) (Nat.mod_lt _ (by omega))
  have e0 := fmt_d_length_three (w % 256) (Nat.mod_lt _ (by omega))
  have e1 := fmt_d_length_three (w / 256 % 256) (Nat.mod_lt _ (by omega))
  have e2 := fmt_d_length_three (w / 65536 % 256) (Nat.mod_lt _ (by omega))
  have e3 := fmt_d_length_three (w / 16777216 % 256) (Nat.mod_lt _ (by omega))
  have hlen : (inet_ntoa (in_addr_of_word w)).length =
      (fmt_d (w % 256)).length + (fmt_d (w / 256 % 256)).length +
        (fmt_d (w / 65536 % 256)).length + (fmt_d (w / 16777216 % 256)).length + 3 := by
    simp [inet_ntoa, in_addr_of_word]
    omega
  rw [hlen, ← e0, ← e1, ← e2, ← e3]
  omega

/-! ## IPv4 default gateway: the row that is used and the text left -/

/-- C2. On a routing table of a header line and rows (every line of at most
127 characters, as the kernel writes them, every first field fitting `iface`),
`get_if_gateway` returns `EXIT_SUCCESS` and copies, with `strncpy` over 15
bytes, the text of the gateway of the first row whose three leading fields
parse, whose destination is zero and whose name is the requested one; without
such a row the buffer is left as it was. The text copied is the dotted quad of
the bytes of the gateway word, least-significant byte first. The string the
caller reads from its buffer is that dotted quad only when one of the four
octets has fewer than three digits: when all four have three digits the text
fills the 15 bytes, no terminator is written, and the caller reads the dotted
quad followed by the string its buffer held from byte 15 on, which differs from
the dotted quad whenever byte 15 of the buffer is not `NUL`. A row
`NAME gap DEST gap GATE ...` parses as the name and the values of its two
hexadecimal words. -/
theorem get_if_gateway_text_unterminated (header : List Char) (rows : List (List Char))
    (if_name gateway : List Char) (h : Handles)
    (hl : ∀ l ∈ header :: rows, '\n' ∉ l ∧ l.length < 128)
    (hf : ∀ l ∈ rows, (first_field l).length < IFNAMSIZ) :
    get_if_gateway (some (table_of (header :: rows))) if_name gateway h =
        some (EXIT_SUCCESS,
          (match rows.find? (is_default_row if_name) with
            | some l =>
              strncpy gateway (inet_ntoa (in_addr_of_word (row_gateway l))) (INET_ADDRSTRLEN - 1)
            | none => gateway),
          lowest_free h :: h) ∧
      (∀ (w : Nat) (g : List Char),
        inet_ntoa (in_addr_of_word w) =
            fmt_d (w % 256) ++ '.' :: fmt_d (w / 256 % 256) ++ '.' :: fmt_d (w / 65536 % 256) ++
              '.' :: fmt_d (w / 16777216 % 256) ∧
          cstr (strncpy g (inet_ntoa (in_addr_of_word w)) (INET_ADDRSTRLEN - 1)) =
            (if 100 ≤ w % 256 ∧ 100 ≤ w / 256 % 256 ∧ 100 ≤ w / 65536 % 256 ∧
                100 ≤ w / 16777216 % 256 then
              inet_ntoa (in_addr_of_word w) ++ cstr (g.drop (INET_ADDRSTRLEN - 1))
            else inet_ntoa (in_addr_of_word w))) ∧
      (∀ (w : Nat) (g : List Char) (c : Char),
        100 ≤ w % 256 → 100 ≤ w / 256 % 256 → 100 ≤ w / 65536 % 256 →
        100 ≤ w / 16777216 % 256 → g.get? (INET_ADDRSTRLEN - 1) = some c → c ≠ NUL →
        cstr (strncpy g (inet_ntoa (in_addr_of_word w)) (INET_ADDRSTRLEN - 1)) ≠
          inet_ntoa (in_addr_of_word w)) ∧
      (∀ (name gap1 dest gap2 gate tail : List Char),
        is_word name → name.length < IFNAMSIZ → is_gap gap1 → is_hex 16 dest → is_gap gap2 →
        is_hex 16 gate → ends_field tail →
        route_fields (name ++ (gap1 ++ (dest ++ (gap2 ++ (gate ++ tail))))) =
          some (name, hex_value dest, hex_value gate)) := by
  have h15 : INET_ADDRSTRLEN - 1 = 15 := rfl
  have hread : ∀ (w : Nat) (g : List Char),
      cstr (strncpy g (inet_ntoa (in_addr_of_word w)) (INET_ADDRSTRLEN - 1)) =
        (if 100 ≤ w % 256 ∧ 100 ≤ w / 256 % 256 ∧ 100 ≤ w / 65536 % 256 ∧
            100 ≤ w / 16777216 % 256 then
          inet_ntoa (in_addr_of_word w) ++ cstr (g.drop (INET_ADDRSTRLEN - 1))
        else inet_ntoa (in_addr_of_word w)) := by
    intro w g
    have hle := inet_ntoa_length_le (in_addr_of_word w)
    have hiff := inet_ntoa_length_fifteen w
    rw [h15, cstr_strncpy g 15 (inet_ntoa_ne_nul _) hle]
    by_cases hq : 100 ≤ w % 256 ∧ 100 ≤ w / 256 % 256 ∧ 100 ≤ w / 65536 % 256 ∧
        100 ≤ w / 16777216 % 256
    · rw [if_pos hq, if_neg (by have := hiff.2 hq; omega)]
    · rw [if_neg hq, if_pos (by
        have : (inet_ntoa (in_addr_of_word w)).length ≠ 15 := fun h => hq (hiff.1 h)
        omega)]
  refine ⟨get_if_gateway_lines header rows if_name gateway h hl hf,
    fun w g => ⟨by simp [inet_ntoa, in_addr_of_word], hread w g⟩, ?_, route_fields_row⟩
  intro w g c h0 h1 h2 h3 hg hc heq
  rw [hread w g, if_pos ⟨h0, h1, h2, h3⟩] at heq
  have hnil : cstr (g.drop (INET_ADDRSTRLEN - 1)) = [] := by
    have := congrArg List.length heq
    simp only [List.length_append] at this
    exact List.eq_nil_of_length_eq_zero (by omega)
  obtain ⟨t, ht⟩ : ∃ t, g.drop (INET_ADDRSTRLEN - 1) = c :: t := by
    rw [List.get?_eq_some] at hg
    obtain ⟨hlt, hget⟩ := hg
    refine ⟨g.drop (INET_ADDRSTRLEN - 1 + 1), ?_⟩
    rw [← hget]
    exact List.drop_eq_getElem_cons hlt
  rw [ht] at hnil
  have hc2 : (c != NUL) = true := by simpa using hc
  simp [cstr, List.takeWhile_cons, hc2] at hnil

set_option maxRecDepth 100000 in
/-- Witness of C2, on tables as the kernel writes them, every line padded with
blanks to 127 characters, so that `fgets` returns each newline in a call of its
own, and on a buffer of 46 bytes holding 45 stale characters and a `NUL`.
For the default route of `eth0` through `192.168.100.254` (gateway word
`FE64A8C0`) the caller reads `192.168.100.254` followed by the thirty stale
characters behind it. For the row of the specification (`eth0`, destination
`00000000`, gateway `0100000A`), placed between a row of another destination
and a second default row of `eth0`, the caller reads `10.0.0.1`. -/
theorem get_if_gateway_text_unterminated_witness :
    (get_if_gateway
        (some (table_of [("Iface\tDestination\tGateway \tFlags\tRefCnt\tUse\tMetric\tMask\t\tMTU\tWindow\tIRTT".toList ++
            List.replicate 55 ' '),
          ("eth0\t0001A8C0\t00000000\t0001\t0\t0\t0\t00FFFFFF\t0\t0\t0".toList ++ List.replicate 79 ' '),
          ("eth0\t00000000\tFE64A8C0\t0003\t0\t0\t0\t00000000\t0\t0\t0".toList ++ List.replicate 79 ' '),
          ("eth0\t00000000\t0200000A\t0003\t0\t0\t0\t00000000\t0\t0\t0".toList ++ List.replicate 79 ' ')]))
        "eth0".toList (List.replicate 45 'x' ++ [NUL]) [0, 1, 2]).map
        (fun r => (r.1, cstr r.2.1, r.2.2)) =
      some (EXIT_SUCCESS, "192.168.100.254".toList ++ List.replicate 30 'x', [3, 0, 1, 2]) ∧
    (get_if_gateway
        (some (table_of [("Iface\tDestination\tGateway \tFlags\tRefCnt\tUse\tMetric\tMask\t\tMTU\tWindow\tIRTT".toList ++
            List.replicate 55 ' '),
          ("eth0\t0001A8C0\t00000000\t0001\t0\t0\t0\t00FFFFFF\t0\t0\t0".toList ++ List.replicate 79 ' '),
          ("eth0\t00000000\t0100000A\t0003\t0\t0\t0\t00000000\t0\t0\t0".toList ++ List.replicate 79 ' '),
          ("eth0\t00000000\t0200000A\t0003\t0\t0\t0\t00000000\t0\t0\t0".toList ++ List.replicate 79 ' ')]))
        "eth0".toList (List.replicate 45 'x' ++ [NUL]) [0, 1, 2]).map
        (fun r => (r.1, cstr r.2.1, r.2.2)) =
      some (EXIT_SUCCESS, "10.0.0.1".toList, [3, 0, 1, 2]) ∧
    route_fields "eth0\t00000000\t0100000A\t0003".toList = some ("eth0".toList, 0, 0x0100000A) := by
  have hbad := get_if_gateway_text_unterminated
    ("Iface\tDestination\tGateway \tFlags\tRefCnt\tUse\tMetric\tMask\t\tMTU\tWindow\tIRTT".toList ++
            List.replicate 55 ' ')
    [("eth0\t0001A8C0\t00000000\t0001\t0\t0\t0\t00FFFFFF\t0\t0\t0".toList ++ List.replicate 79 ' '),
      ("eth0\t00000000\tFE64A8C0\t0003\t0\t0\t0\t00000000\t0\t0\t0".toList ++ List.replicate 79 ' '),
      ("eth0\t00000000\t0200000A\t0003\t0\t0\t0\t00000000\t0\t0\t0".toList ++ List.replicate 79 ' ')]
    "eth0".toList (List.replicate 45 'x' ++ [NUL]) [0, 1, 2] (by decide) (by decide)
  have hw := get_if_gateway_text_unterminated
    ("Iface\tDestination\tGateway \tFlags\tRefCnt\tUse\tMetric\tMask\t\tMTU\tWindow\tIRTT".toList ++
            List.replicate 55 ' ')
    [("eth0\t0001A8C0\t00000000\t0001\t0\t0\t0\t00FFFFFF\t0\t0\t0".toList ++ List.replicate 79 ' '),
      ("eth0\t00000000\t0100000A\t0003\t0\t0\t0\t00000000\t0\t0\t0".toList ++ List.replicate 79 ' '),
      ("eth0\t00000000\t0200000A\t0003\t0\t0\t0\t00000000\t0\t0\t0".toList ++ List.replicate 79 ' ')]
    "eth0".toList (List.replicate 45 'x' ++ [NUL]) [0, 1, 2] (by decide) (by decide)
  refine ⟨?_, ?_, ?_⟩
  · rw [hbad.1]
    decide
  · rw [hw.1]
    decide
  · have := hw.2.2.2 "eth0".toList "\t".toList "00000000".toList "\t".toList "0100000A".toList
      "\t0003".toList (by unfold is_word; decide) (by decide) (by unfold is_gap; decide)
      (by unfold is_hex; decide) (by unfold is_gap; decide) (by unfold is_hex; decide)
      (by unfold ends_field; decide)
    rw [show "eth0\t00000000\t0100000A\t0003".toList = "eth0".toList ++
      ("\t".toList ++ ("00000000".toList ++ ("\t".toList ++ ("0100000A".toList ++
        "\t0003".toList)))) by decide]
    rw [this]
    decide

/-! ## IPv6 address of an interface: address text and scope -/

theorem scope_text_ne_nul (s : Nat) : ∀ c ∈ scope_text s, c ≠ NUL := by
  unfold scope_text
  split_ifs <;> decide

theorem scope_text_length (s : Nat) : (scope_text s).length ≤ 9 := by
  unfold scope_text
  split_ifs <;> decide

/-- C3, as the code has it. When the first row of the IPv6-address table whose
interface name equals the request is well formed (32 hexadecimal digits in the
address column) and the rows before it are well-formed rows of other
interfaces, `get_if_ipv6_info` succeeds and the address text it copies is the
text `inet_ntop` makes of the address the 32 digits denote: groups without
leading zeros, the longest run of zero groups written as `::`. The eight
groups joined by colons are only the intermediate text `inet_pton` parses. -/
theorem get_if_ipv6_info_address_text (before : List Inet6Row) (r : Inet6Row)
    (rest : List Char) (v0 : Inet6Vars) (if_name : List Char) (out : Inet6Info) (h : Handles)
    (hb : ∀ b ∈ before, b.ok ∧ b.devname ≠ cstr if_name)
    (hr : r.ok) (hname : r.devname = cstr if_name) :
    (get_if_ipv6_info (some (table_of (before.map Inet6Row.text) ++ (r.text ++ '\n' :: rest)))
        v0 if_name out h).map (fun x => (x.1, x.2.1.addr6_text)) =
      some (EXIT_SUCCESS,
        strncpy out.addr6_text (inet_ntop6_text (hex_bytes r.addr)) (INET6_ADDRSTRLEN - 1)) ∧
    cstr ((strncpy out.addr6_text (inet_ntop6_text (hex_bytes r.addr))
        (INET6_ADDRSTRLEN - 1)).take (INET6_ADDRSTRLEN - 1)) =
      inet_ntop6_text (hex_bytes r.addr) ∧
    inet_pton6 (regroup r.addr) = some (hex_bytes r.addr) := by
  refine ⟨?_, ?_, inet_pton6_grouped r.addr hr.1⟩
  · rw [get_if_ipv6_info_table before r rest v0 if_name out h hb hr hname]
    rfl
  · have h45 : INET6_ADDRSTRLEN - 1 = 45 := rfl
    rw [h45]
    exact cstr_take_strncpy _ 45 (inet_ntop6_text_ne_nul _) (inet_ntop6_text_length _)

/-- Witness of C3 as amended: the row of the specification behind a row of
`lo`; the request `eth0` yields `fe80::1`, padded by `strncpy` over the 45
bytes it writes of a buffer of 46 `x`. -/
theorem get_if_ipv6_info_address_text_witness :
    (get_if_ipv6_info
        (some (table_of ([⟨"00000000000000000000000000000001".toList, "01".toList,
            "80".toList, "10".toList, "80".toList, "      ".toList, "lo".toList⟩].map
            Inet6Row.text) ++
          (Inet6Row.text ⟨"fe800000000000000000000000000001".toList, "02".toList, "40".toList,
            "20".toList, "80".toList, [], "eth0".toList⟩ ++ '\n' :: [])))
        ⟨[], 0, 0, 0, 0, []⟩ "eth0".toList ⟨List.replicate 46 'x', 0, List.replicate 10 'x'⟩
        [0, 1, 2]).map (fun x => (x.1, x.2.1.addr6_text)) =
      some (EXIT_SUCCESS, "fe80::1".toList ++ List.replicate 38 NUL ++ ['x']) :=
  (get_if_ipv6_info_address_text
    [⟨"00000000000000000000000000000001".toList, "01".toList, "80".toList, "10".toList,
      "80".toList, "      ".toList, "lo".toList⟩]
    ⟨"fe800000000000000000000000000001".toList, "02".toList, "40".toList, "20".toList,
      "80".toList, [], "eth0".toList⟩ [] ⟨[], 0, 0, 0, 0, []⟩ "eth0".toList
    ⟨List.replicate 46 'x', 0, List.replicate 10 'x'⟩ [0, 1, 2]
    (by
      intro b hb
      simp only [List.mem_singleton] at hb
      subst hb
      exact ⟨by unfold Inet6Row.ok is_addr6 is_hex is_word; decide, by decide⟩)
    (by unfold Inet6Row.ok is_addr6 is_hex is_word; decide) (by decide)).1.trans (by decide)

/-- Counterexample to C3 as stated: for the row of the specification and the
request `eth0`, the address text is `fe80::1`, not the eight four-digit groups
`fe80:0000:0000:0000:0000:0000:0000:0001`. -/
theorem get_if_ipv6_info_compresses_zero_groups :
    (get_if_ipv6_info (some "fe800000000000000000000000000001 02 40 20 80 eth0\n".toList)
        ⟨[], 0, 0, 0, 0, []⟩ "eth0".toList ⟨List.replicate 46 NUL, 0, List.replicate 10 NUL⟩
        [0, 1, 2]).map (fun x => (x.1, cstr x.2.1.addr6_text)) =
      some (EXIT_SUCCESS, "fe80::1".toList) ∧
    "fe80::1".toList ≠ "fe80:0000:0000:0000:0000:0000:0000:0001".toList := by
  refine ⟨by decide!, by decide⟩

/-- C10. For a matched well-formed row with scope field `s`, the text
`get_if_ipv6_info` copies to `addr_scope` is `Global` when `s & 0x00f0` is
`0x00`, `Link` for `0x20`, `Site` for `0x40`, `Compat` for `0x80`, `Host` for
`0x10` and `Unknown` for every other masked value; it is a function of
`s & 0x00f0` alone, so two matched rows with equal masked scope get the same
text whatever their other fields are. -/
theorem get_if_ipv6_info_scope (before : List Inet6Row) (r : Inet6Row)
    (rest : List Char) (v0 : Inet6Vars) (if_name : List Char) (out : Inet6Info) (h : Handles)
    (hb : ∀ b ∈ before, b.ok ∧ b.devname ≠ cstr if_name)
    (hr : r.ok) (hname : r.devname = cstr if_name) :
    (get_if_ipv6_info (some (table_of (before.map Inet6Row.text) ++ (r.text ++ '\n' :: rest)))
        v0 if_name out h).map (fun x => (x.1, x.2.1.addr_scope)) =
      some (EXIT_SUCCESS, strncpy out.addr_scope (scope_text (hex_value r.scope)) 9) ∧
    (∀ (s : Nat) (buf : List Char), cstr ((strncpy buf (scope_text s) 9).take 9) = scope_text s) ∧
    (∀ s : Nat, scope_text s =
      if s &&& 0x00f0 = 0x00 then "Global".toList
      else if s &&& 0x00f0 = 0x20 then "Link".toList
      else if s &&& 0x00f0 = 0x40 then "Site".toList
      else if s &&& 0x00f0 = 0x80 then "Compat".toList
      else if s &&& 0x00f0 = 0x10 then "Host".toList
      else "Unknown".toList) ∧
    (∀ s1 s2 : Nat, s1 &&& 0x00f0 = s2 &&& 0x00f0 → scope_text s1 = scope_text s2) := by
  refine ⟨?_, ?_, fun s => rfl, ?_⟩
  · rw [get_if_ipv6_info_table before r rest v0 if_name out h hb hr hname]
    rfl
  · intro s buf
    exact cstr_take_strncpy buf 9 (scope_text_ne_nul s) (scope_text_length s)
  · intro s1 s2 hs
    have e : (0x00f0 : Nat) = IPV6_ADDR_SCOPE_MASK := rfl
    rw [e] at hs
    simp only [scope_text, hs]

/-- Witness of C10: two rows of `eth0` and `eth1` that differ in every field
but have the scope fields `20` and `21`, of equal masked value `0x20`: both are
classified `Link` (the text, padded by `strncpy` over the 9 bytes it writes of
a buffer of 10 `x`). -/
theorem get_if_ipv6_info_scope_witness :
    (get_if_ipv6_info
        (some (table_of (([] : List Inet6Row).map Inet6Row.text) ++
          (Inet6Row.text ⟨"fe800000000000000000000000000001".toList, "02".toList, "40".toList,
            "20".toList, "80".toList, [], "eth0".toList⟩ ++ '\n' :: [])))
        ⟨[], 0, 0, 0, 0, []⟩ "eth0".toList ⟨List.replicate 46 'x', 0, List.replicate 10 'x'⟩
        [0, 1, 2]).map (fun x => (x.1, x.2.1.addr_scope)) =
      some (EXIT_SUCCESS, "Link".toList ++ List.replicate 5 NUL ++ ['x']) ∧
    (get_if_ipv6_info
        (some (table_of (([] : List Inet6Row).map Inet6Row.text) ++
          (Inet6Row.text ⟨"20010db8000000000000000000000002".toList, "3".toList, "30".toList,
            "21".toList, "00".toList, "    ".toList, "eth1".toList⟩ ++ '\n' :: [])))
        ⟨[], 0, 0, 0, 0, []⟩ "eth1".toList ⟨List.replicate 46 'x', 0, List.replicate 10 'x'⟩
        [0, 1, 2]).map (fun x => (x.1, x.2.1.addr_scope)) =
      some (EXIT_SUCCESS, "Link".toList ++ List.replicate 5 NUL ++ ['x']) :=
  ⟨(get_if_ipv6_info_scope []
      ⟨"fe800000000000000000000000000001".toList, "02".toList, "40".toList, "20".toList,
        "80".toList, [], "eth0".toList⟩ [] ⟨[], 0, 0, 0, 0, []⟩ "eth0".toList
      ⟨List.replicate 46 'x', 0, List.replicate 10 'x'⟩ [0, 1, 2] (by simp)
      (by unfold Inet6Row.ok is_addr6 is_hex is_word; decide) (by decide)).1.trans (by decide),
    (get_if_ipv6_info_scope []
      ⟨"20010db8000000000000000000000002".toList, "3".toList, "30".toList, "21".toList,
        "00".toList, "    ".toList, "eth1".toList⟩ [] ⟨[], 0, 0, 0, 0, []⟩ "eth1".toList
      ⟨List.replicate 46 'x', 0, List.replicate 10 'x'⟩ [0, 1, 2] (by simp)
      (by unfold Inet6Row.ok is_addr6 is_hex is_word; decide) (by decide)).1.trans (by decide)⟩

/-! ## IPv6 default gateway: the rows that count -/

theorem cstr_write (dg : List Char) (r : Route6Row) : cstr (r.write dg) = r.gateway_text :=
  cstr_append_nul (inet_ntop6_text_ne_nul _) _

/-- C4. On a routing table of well-formed 10-column rows, the result of
`get_if_ipv6_default_gateway` is the result on the table of the qualifying
rows alone (destination 32 zero digits, destination prefix 0, gateway starting
with `fe80`, name equal to the request): a row that fails one of the conditions
never changes it. The status is `EXIT_SUCCESS` exactly when a row qualifies,
the buffer is what the qualifying rows wrote in file order, and the string the
caller reads is the gateway of the last qualifying row; the table is closed. -/
theorem ipv6_default_gateway_last_qualifying_row (rows : List Route6Row)
    (hok : ∀ r ∈ rows, r.ok) (v0 : Route6State) (if_name default_gateway : List Char)
    (h : Handles) :
    get_if_ipv6_default_gateway (some (table_of (rows.map Route6Row.text))) v0 if_name
        default_gateway h =
      get_if_ipv6_default_gateway
        (some (table_of ((rows.filter (Route6Row.qualifies if_name)).map Route6Row.text))) v0
        if_name default_gateway h ∧
    get_if_ipv6_default_gateway (some (table_of (rows.map Route6Row.text))) v0 if_name
        default_gateway h =
      some (if (rows.filter (Route6Row.qualifies if_name)).isEmpty then EXIT_FAILURE
          else EXIT_SUCCESS,
        (rows.filter (Route6Row.qualifies if_name)).foldl Route6Row.write default_gateway, h) ∧
    ∀ r, (rows.filter (Route6Row.qualifies if_name)).getLast? = some r →
      (get_if_ipv6_default_gateway (some (table_of (rows.map Route6Row.text))) v0 if_name
        default_gateway h).map (fun x => (x.1, cstr x.2.1, x.2.2)) =
      some (EXIT_SUCCESS, r.gateway_text, h) := by
  have hmain := get_if_ipv6_default_gateway_table rows hok v0 if_name default_gateway h
  have hfilt := get_if_ipv6_default_gateway_table (rows.filter (Route6Row.qualifies if_name))
    (fun r hr => hok r (List.mem_filter.1 hr).1) v0 if_name default_gateway h
  rw [List.filter_filter] at hfilt
  simp only [Bool.and_self] at hfilt
  refine ⟨hmain.trans hfilt.symm, hmain, ?_⟩
  intro r hlast
  rw [hmain]
  obtain ⟨qs, hqs⟩ : ∃ qs, rows.filter (Route6Row.qualifies if_name) = qs ++ [r] := by
    rcases List.getLast?_eq_some_iff.1 hlast with ⟨qs, hqs⟩
    exact ⟨qs, hqs⟩
  rw [hqs]
  simp [cstr_write]

/-- Witness of C4: five well-formed rows; the first and the last qualify for
`eth0`, the second has a destination that is not zero, the third a gateway
that does not start with `fe80`, the fourth another interface. The gateway of
the last row, `fe80::ff`, is what the caller reads. -/
theorem ipv6_default_gateway_last_qualifying_row_witness :
    get_if_ipv6_default_gateway
        (some (table_of ([
          (⟨"00000000000000000000000000000000".toList, "00".toList,
            "00000000000000000000000000000000".toList, "00".toList,
            "fe800000000000000000000000000001".toList, "00000400".toList, "00000001".toList,
            "00000000".toList, "00000003".toList, "    ".toList, "eth0".toList⟩ : Route6Row),
          ⟨"fe800000000000000000000000000000".toList, "40".toList,
            "00000000000000000000000000000000".toList, "00".toList,
            "fe800000000000000000000000000002".toList, "00000100".toList, "00000001".toList,
            "00000000".toList, "00000001".toList, "    ".toList, "eth0".toList⟩,
          ⟨"00000000000000000000000000000000".toList, "00".toList,
            "00000000000000000000000000000000".toList, "00".toList,
            "20010db8000000000000000000000003".toList, "00000400".toList, "00000001".toList,
            "00000000".toList, "00000003".toList, "    ".toList, "eth0".toList⟩,
          ⟨"00000000000000000000000000000000".toList, "00".toList,
            "00000000000000000000000000000000".toList, "00".toList,
            "fe800000000000000000000000000004".toList, "00000400".toList, "00000001".toList,
            "00000000".toList, "00000003".toList, "    ".toList, "eth1".toList⟩,
          ⟨"00000000000000000000000000000000".toList, "00".toList,
            "00000000000000000000000000000000".toList, "00".toList,
            "fe8000000000000000000000000000ff".toList, "00000400".toList, "00000001".toList,
            "00000000".toList, "00000003".toList, "    ".toList, "eth0".toList⟩].map
          Route6Row.text)))
        ⟨[], 0, [], 0, [], 0, 0, 0, 0, [], List.replicate 16 0xab, [], 0⟩ "eth0".toList
        (List.replicate 46 'x') [0, 1, 2] =
      some (EXIT_SUCCESS, "fe80::ff".toList ++ NUL :: List.replicate 37 'x', [0, 1, 2]) :=
  (ipv6_default_gateway_last_qualifying_row _
    (by
      intro r hr
      simp only [List.mem_cons, List.mem_singleton, List.not_mem_nil, or_false] at hr
      rcases hr with rfl | rfl | rfl | rfl | rfl <;>
        (unfold Route6Row.ok is_addr6 is_hex is_word; decide))
    _ _ _ _).2.1.trans (by decide)

/-- C7, as the code has it. On a routing table of well-formed rows of which
none qualifies for the requested interface, `get_if_ipv6_default_gateway`
returns `EXIT_FAILURE` and leaves the caller's buffer as it was: the same
result as when the table cannot be opened. -/
theorem ipv6_default_gateway_not_found_is_failure (rows : List Route6Row)
    (hok : ∀ r ∈ rows, r.ok) (v0 : Route6State) (if_name default_gateway : List Char)
    (h : Handles) (hnone : ∀ r ∈ rows, r.qualifies if_name = false) :
    get_if_ipv6_default_gateway (some (table_of (rows.map Route6Row.text))) v0 if_name
        default_gateway h = some (EXIT_FAILURE, default_gateway, h) ∧
    get_if_ipv6_default_gateway (some (table_of (rows.map Route6Row.text))) v0 if_name
        default_gateway h =
      get_if_ipv6_default_gateway none v0 if_name default_gateway h := by
  have hf : rows.filter (Route6Row.qualifies if_name) = [] := by
    rw [List.filter_eq_nil_iff]
    intro r hr
    simp [hnone r hr]
  have hmain := get_if_ipv6_default_gateway_table rows hok v0 if_name default_gateway h
  rw [hf] at hmain
  exact ⟨hmain, hmain⟩

/-- Witness of C7 as amended: a table whose rows are a route that is not the
default route and a default route of `eth1`, queried for `eth0`. -/
theorem ipv6_default_gateway_not_found_is_failure_witness :
    get_if_ipv6_default_gateway
        (some (table_of ([
          (⟨"fe800000000000000000000000000000".toList, "40".toList,
            "00000000000000000000000000000000".toList, "00".toList,
            "00000000000000000000000000000000".toList, "00000100".toList, "00000001".toList,
            "00000000".toList, "00000001".toList, "    ".toList, "eth0".toList⟩ : Route6Row),
          ⟨"00000000000000000000000000000000".toList, "00".toList,
            "00000000000000000000000000000000".toList, "00".toList,
            "fe800000000000000000000000000004".toList, "00000400".toList, "00000001".toList,
            "00000000".toList, "00000003".toList, "    ".toList, "eth1".toList⟩].map
          Route6Row.text)))
        ⟨[], 0, [], 0, [], 0, 0, 0, 0, [], List.replicate 16 0xab, [], 0⟩ "eth0".toList
        (List.replicate 46 'x') [0, 1, 2] =
      some (EXIT_FAILURE, List.replicate 46 'x', [0, 1, 2]) :=
  (ipv6_default_gateway_not_found_is_failure _
    (by
      intro r hr
      simp only [List.mem_cons, List.mem_singleton, List.not_mem_nil, or_false] at hr
      rcases hr with rfl | rfl <;> (unfold Route6Row.ok is_addr6 is_hex is_word; decide))
    _ _ _ _
    (by
      intro r hr
      simp only [List.mem_cons, List.mem_singleton, List.not_mem_nil, or_false] at hr
      rcases hr with rfl | rfl <;> decide)).1

/-- Counterexample to C7 as stated: the table opens and holds one row, a
default route of `eth1`; for the request `eth0` no row qualifies, and the
result is `EXIT_FAILURE` with the buffer untouched, equal in every component to
the result when the table cannot be opened. -/
theorem ipv6_default_gateway_not_found_equals_open_failure :
    get_if_ipv6_default_gateway
        (some ("00000000000000000000000000000000 00 00000000000000000000000000000000 00 " ++
          "fe800000000000000000000000000004 00000400 00000001 00000000 00000003     eth1\n").toList)
        ⟨[], 0, [], 0, [], 0, 0, 0, 0, [], List.replicate 16 0xab, [], 0⟩ "eth0".toList
        (List.replicate 46 'x') [0, 1, 2] =
      some (EXIT_FAILURE, List.replicate 46 'x', [0, 1, 2]) ∧
    get_if_ipv6_default_gateway none
        ⟨[], 0, [], 0, [], 0, 0, 0, 0, [], List.replicate 16 0xab, [], 0⟩ "eth0".toList
        (List.replicate 46 'x') [0, 1, 2] =
      some (EXIT_FAILURE, List.replicate 46 'x', [0, 1, 2]) := by
  refine ⟨by decide!, by decide⟩

/-! ## Netmask query -/

/-- C1 (code defect). For every netmask the kernel returns, `get_if_mask`
succeeds and writes exactly `sizeof(struct in_addr) - 1 = 3` bytes: the first
three characters of the dotted-quad text, which always has at least seven. For
the octets 255,255,255,0 and a zeroed 16-byte buffer the caller reads `255`
instead of `255.255.255.0`. -/
theorem get_if_mask_copies_three_bytes (sin_addr : List Nat) (if_name mask : List Char)
    (h : Handles) :
    get_if_mask (fun _ => some sin_addr) if_name mask h =
        (EXIT_SUCCESS, (inet_ntoa sin_addr).take 3 ++ mask.drop 3, h) ∧
      ((inet_ntoa sin_addr).take 3).length < (inet_ntoa sin_addr).length ∧
      inet_ntoa [255, 255, 255, 0] = "255.255.255.0".toList ∧
      cstr (get_if_mask (fun _ => some [255, 255, 255, 0]) "eth0".toList
        (List.replicate 16 NUL) [0, 1, 2]).2.1 = "255".toList := by
  refine ⟨?_, ?_, by decide, by decide⟩
  · have hl := inet_ntoa_length_ge sin_addr
    have hlen : ((cstr (inet_ntoa sin_addr)).take 3).length = 3 := by
      rw [cstr_eq_self (inet_ntoa_ne_nul sin_addr), List.length_take]
      omega
    simp only [get_if_mask, release_acquire, strncpy, sizeof_in_addr, hlen]
    rw [cstr_eq_self (inet_ntoa_ne_nul sin_addr)]
    simp
  · have hl := inet_ntoa_length_ge sin_addr
    rw [List.length_take]
    omega

/-! ## Release of descriptors and file handles -/

/-- C9 (code defect). A failed `SIOCGIFHWADDR` request makes `get_if_hw_addr`
return without closing its socket: the new descriptor stays open, for every
interface name and every set of open handles. `get_if_gateway` and
`get_if_ipv6_info` never close the table they opened: after a matched row the
handle is still open. -/
theorem query_leaves_handle_open :
    (∀ (if_name hwaddr_ptr : List Char) (h : Handles),
      get_if_hw_addr (fun _ => none) if_name hwaddr_ptr h =
          (EXIT_FAILURE, hwaddr_ptr, lowest_free h :: h) ∧
        lowest_free h :: h ≠ h) ∧
      (get_if_hw_addr (fun _ => none) "eth9".toList (List.replicate 18 NUL) [0, 1, 2]).2.2 =
        [3, 0, 1, 2] ∧
      (get_if_gateway
          (some "Iface\tDestination\tGateway\neth0\t00000000\t0100000A\t0003\n".toList)
          "eth0".toList (List.replicate 46 NUL) [0, 1, 2]).map (fun r => (r.1, r.2.2)) =
        some (EXIT_SUCCESS, [3, 0, 1, 2]) ∧
      (get_if_ipv6_info (some "fe800000000000000000000000000001 02 40 20 80 eth0\n".toList)
          ⟨[], 0, 0, 0, 0, []⟩ "eth0".toList
          ⟨List.replicate 46 NUL, 0, List.replicate 10 NUL⟩ [0, 1, 2]).map
          (fun r => (r.1, r.2.2)) =
        some (EXIT_SUCCESS, [3, 0, 1, 2]) := by
  refine ⟨?_, by decide, by decide!, by decide!⟩
  intro if_name hwaddr_ptr h
  refine ⟨by simp [get_if_hw_addr, acquire], ?_⟩
  intro hh
  have := congrArg List.length hh
  simp at this

/-! ## IPv6 default gateway: unchecked `inet_pton` -/

/-- C8 (code defect). A row that qualifies as the link-local default route and
whose gateway column holds `zzzz` in its second group: the regrouped text is
rejected by `inet_pton`, yet `get_if_ipv6_default_gateway` returns
`EXIT_SUCCESS` and writes a gateway, the text of the bytes `gw_addr` happened
to hold (here 0xab in every byte). -/
theorem ipv6_default_gateway_accepts_bad_gateway :
    inet_pton6 (regroup "fe80zzzz000000000000000000000001".toList) = none ∧
      (get_if_ipv6_default_gateway
          (some ("00000000000000000000000000000000 00 00000000000000000000000000000000 00 " ++
            "fe80zzzz000000000000000000000001 00000400 00000001 00000000 00000003     eth0\n").toList)
          ⟨[], 0, [], 0, [], 0, 0, 0, 0, [], List.replicate 16 0xab, [], 0⟩
          "eth0".toList (List.replicate 46 NUL) [0, 1, 2]).map (fun r => (r.1, cstr r.2.1, r.2.2)) =
        some (EXIT_SUCCESS, "abab:abab:abab:abab:abab:abab:abab:abab".toList, [0, 1, 2]) := by
  refine ⟨by decide!, by decide!⟩

end NetworkUtils
